import Mathlib

/-!
Verification of the tiled non-max-suppression algorithm in
src/keras_hub/src/layers/modeling/non_max_supression.py.

The embedding works over exact rationals. Tensors of shape [batch, n] become
lists (batch dimension) of lists or of total functions on naturals
(box dimension); a tensor of fixed shape T x T becomes a function
of two naturals that is zero outside [0,T) x [0,T).  The two `ops.while_loop`
constructs of the source become fuel-indexed recursions; the fuel chosen in
the pipeline is exactly the bound under which the loops are proved to
stabilise.  `ops.take_along_axis` / `tf.gather` with an out-of-range index is
modelled as failure (`Option.none`), which is the observable behaviour of the
numpy and tensorflow backends (an exception); hence the pipeline returns an
`Option`.
-/

namespace NMS

/-- Source constant EPSILON = 1e-8, added to union areas to avoid division by
zero.  (Written with mkRat so that the kernel can evaluate it; Rat.inv, hence
the division notation on ℚ, is irreducible.) -/
def EPSILON : ℚ := mkRat 1 100000000

/-- Division of rationals, written through Rat.divInt so that concrete runs
of the algorithm can be evaluated by the kernel.  ratDiv_eq_div below proves
it is ordinary division. -/
def ratDiv (a b : ℚ) : ℚ := Rat.divInt (a.num * b.den) (a.den * b.num)

/-- A bounding box in (ymin, xmin, ymax, xmax) corner format, the last axis of
the boxes tensor. -/
structure Box where
  ymin : ℚ
  xmin : ℚ
  ymax : ℚ
  xmax : ℚ
deriving DecidableEq, Repr

/-- The all-zero box used for padding and for suppressed boxes. -/
def zeroBox : Box := ⟨0, 0, 0, 0⟩

/-- Elementwise multiplication of a box by a scalar mask value
(`mask * boxes` in the source). -/
def scaleBox (c : ℚ) (b : Box) : Box :=
  ⟨c * b.ymin, c * b.xmin, c * b.ymax, c * b.xmax⟩

/-- Cast of a boolean to a 0/1 rational (`ops.cast(mask, dtype)`). -/
def boolQ (b : Bool) : ℚ := if b then 1 else 0

/-- Cast of a boolean to a 0/1 integer (`ops.cast(..., "int32")`). -/
def boolZ (b : Bool) : ℤ := if b then 1 else 0

/-- Intersection-over-union of a single pair of boxes: the entry [a][b] of the
matrix computed by `_bbox_overlap`.  Intersection side lengths are clamped at
zero and EPSILON is added to the union area. -/
def bbox_overlap (a b : Box) : ℚ :=
  let i_xmin := max a.xmin b.xmin
  let i_xmax := min a.xmax b.xmax
  let i_ymin := max a.ymin b.ymin
  let i_ymax := min a.ymax b.ymax
  let i_area := max (i_xmax - i_xmin) 0 * max (i_ymax - i_ymin) 0
  let a_area := (a.ymax - a.ymin) * (a.xmax - a.xmin)
  let b_area := (b.ymax - b.ymin) * (b.xmax - b.xmin)
  let u_area := a_area + b_area - i_area + EPSILON
  ratDiv i_area u_area

/-- `ops.any(box > 0, [2])` for one box: some coordinate is strictly
positive. -/
def anyPos (b : Box) : Bool :=
  decide (0 < b.ymin) || decide (0 < b.xmin) || decide (0 < b.ymax) ||
    decide (0 < b.xmax)

/-- Maximum of g over indices below T (`ops.max` along an axis of length T;
for T = 0 the value is the irrelevant default g 0). -/
def qmax (T : ℕ) (g : ℕ → ℚ) : ℚ :=
  ((List.range T).map g).foldr max (g 0)

/-- Sum of the T x T corner of a matrix (`ops.sum(iou, [1, 2])` for one
image). -/
def matSum (T : ℕ) (M : ℕ → ℕ → ℚ) : ℚ :=
  ∑ i ∈ Finset.range T, ∑ j ∈ Finset.range T, M i j

/-! ### Self-suppression (`_self_suppression`) -/

/-- `can_suppress_others` for one image: box i is not overlapped at or above
threshold by any box (the maximum of column i of the running iou matrix is
below the threshold). -/
def can_suppress_others (T : ℕ) (thr : ℚ) (M : ℕ → ℕ → ℚ) (i : ℕ) : Bool :=
  decide (qmax T (fun r => M r i) < thr)

/-- The row-dimension maximum of `can_suppress_others * iou` for column i:
the largest iou pressure exerted on box i by a currently active box. -/
def self_q (T : ℕ) (thr : ℚ) (M : ℕ → ℕ → ℚ) (i : ℕ) : ℚ :=
  qmax T (fun r => boolQ (can_suppress_others T thr M r) * M r i)

/-- The iou matrix update of one `_self_suppression` application: row i is
kept iff no active box suppresses box i.  The matrix is zero-extended outside
the T x T tile shape. -/
def self_step_mat (T : ℕ) (thr : ℚ) (M : ℕ → ℕ → ℚ) : ℕ → ℕ → ℚ :=
  fun i j =>
    if i < T ∧ j < T then boolQ (decide (self_q T thr M i < thr)) * M i j
    else 0

/-- Materialisation of the T x T corner of a matrix as nested lists (the
tensor the backend actually stores between loop iterations). -/
def tabulate2 (T : ℕ) (f : ℕ → ℕ → ℚ) : List (List ℚ) :=
  (List.range T).map fun i => (List.range T).map (f i)

/-- Reading a stored tensor back as a zero-extended matrix function. -/
def ofTable (t : List (List ℚ)) : ℕ → ℕ → ℚ :=
  fun i j => (t.getD i []).getD j 0

/-- Loop-carried state of the `_self_suppression` while loop: the per-image
iou tensors (stored as data, read back through `ofTable`), the continuation
flag, and the per-image iou sums. -/
structure SelfState where
  mats : List (List (List ℚ))
  cond : Bool
  sums : List ℚ

/-- One application of `_self_suppression` to the whole batch: update every
matrix, recompute the sums, and set the continuation flag when any image's
sum dropped by more than the threshold. -/
def self_suppression_step (T : ℕ) (thr : ℚ) (s : SelfState) : SelfState :=
  let newMats := s.mats.map fun t => tabulate2 T (self_step_mat T thr (ofTable t))
  let newSums := newMats.map fun t => matSum T (ofTable t)
  { mats := newMats
    cond := (List.zipWith (fun o n => decide (thr < o - n)) s.sums newSums).any id
    sums := newSums }

/-- The `ops.while_loop` around `_self_suppression`, as a fuel-indexed
recursion: apply the step while the flag holds and fuel remains. -/
def self_suppression_loop (T : ℕ) (thr : ℚ) : ℕ → SelfState → SelfState
  | 0, s => s
  | fuel + 1, s =>
    if s.cond then self_suppression_loop T thr fuel (self_suppression_step T thr s)
    else s

/-! ### Cross-suppression (`_cross_suppression`) -/

/-- One `_cross_suppression` application for one image: box k of the current
slice survives iff its iou with every box of tile j (read from the current
full box array) is strictly below the threshold; otherwise it is zeroed. -/
def cross_suppression_step (T : ℕ) (thr : ℚ) (boxesArr : ℕ → Box) (j : ℕ)
    (slice : ℕ → Box) : ℕ → Box :=
  fun k =>
    scaleBox
      (boolQ ((List.range T).all fun r =>
        decide (bbox_overlap (boxesArr (j * T + r)) (slice k) < thr)))
      (slice k)

/-- The `ops.while_loop` over prior tiles 0 .. idx-1 in `_suppression_loop_body`
(the loop body of my embedding runs exactly idx iterations, matching the loop
condition inner_idx < idx). -/
def cross_suppression (T : ℕ) (thr : ℚ) (boxesArr : ℕ → Box) (idx : ℕ)
    (slice : ℕ → Box) : ℕ → Box :=
  (List.range idx).foldl (fun sl j => cross_suppression_step T thr boxesArr j sl) slice

/-! ### One tile of the suppression loop (`_suppression_loop_body`) -/

/-- The slice of the padded box array holding tile idx, zero-extended beyond
the tile length (the source gathers exactly tile_size rows). -/
def tileSlice (T : ℕ) (idx : ℕ) (arr : ℕ → Box) : ℕ → Box :=
  fun k => if k < T then arr (idx * T + k) else zeroBox

/-- The masked self-iou matrix of a tile: entry (k, l) of the tile's pairwise
iou matrix, kept only when l ranks strictly below k (the strict
upper-triangular mask) and the iou is at or above the threshold; zero-extended
outside the T x T shape. -/
def tile_self_iou (T : ℕ) (thr : ℚ) (slice : ℕ → Box) : ℕ → ℕ → ℚ :=
  fun k l =>
    if k < T ∧ l < T then
      boolQ (decide (k < l) && decide (thr ≤ bbox_overlap (slice k) (slice l))) *
        bbox_overlap (slice k) (slice l)
    else 0

/-- `suppressed_box` for tile position l: the column sum of the final
self-suppression iou matrix is positive. -/
def suppressed_box (T : ℕ) (M : ℕ → ℕ → ℚ) (l : ℕ) : Bool :=
  decide (0 < ∑ k ∈ Finset.range T, M k l)

/-- Writing the processed slice back over tile idx of the full box array (the
source expresses this with a one-hot tile mask and a reshape). -/
def write_tile (T : ℕ) (idx : ℕ) (arr : ℕ → Box) (slice : ℕ → Box) : ℕ → Box :=
  fun p => if idx * T ≤ p ∧ p < (idx + 1) * T then slice (p - idx * T) else arr p

/-- `ops.sum(ops.any(box_slice > 0, [2]), [1])` for one image: the number of
tile positions whose box has a positive coordinate. -/
def countKept (T : ℕ) (slice : ℕ → Box) : ℕ :=
  ((List.range T).filter fun k => anyPos (slice k)).length

/-- Loop-carried state of the outer suppression loop: per-image padded box
arrays, per-image output sizes, and the tile index. -/
structure LoopState where
  boxes : List (ℕ → Box)
  outputs : List ℕ
  idx : ℕ

/-- `_suppression_loop_body` for the whole batch: slice out tile idx, run
cross-suppression against tiles 0 .. idx-1, build the masked self-iou
matrices, run the self-suppression loop, zero the suppressed boxes, write the
slice back, and add the surviving counts to the output sizes.  The source's
self-suppression `ops.while_loop` is unbounded; here it runs with fuel
tile_size, which is exact for 0 ≤ iou_threshold (the flag provably falls
within tile_size steps, see `cond_T_false`), while for a negative
iou_threshold the source loop never exits (see `flag_never_falls_neg`) and
the fueled model returns where the source diverges. -/
def suppression_loop_body (T : ℕ) (thr : ℚ) (s : LoopState) : LoopState :=
  let slices0 := s.boxes.map (tileSlice T s.idx)
  let slices1 := List.zipWith (fun arr sl => cross_suppression T thr arr s.idx sl)
    s.boxes slices0
  let mats0 := slices1.map fun sl => tabulate2 T (tile_self_iou T thr sl)
  let fin := self_suppression_loop T thr T
    { mats := mats0, cond := true, sums := mats0.map fun t => matSum T (ofTable t) }
  let slices2 := List.zipWith
    (fun sl t => fun l => scaleBox (1 - boolQ (suppressed_box T (ofTable t) l)) (sl l))
    slices1 fin.mats
  { boxes := List.zipWith (write_tile T s.idx) s.boxes slices2
    outputs := List.zipWith (fun o sl => o + countKept T sl) s.outputs slices2
    idx := s.idx + 1 }

/-- `ops.min(output_size)` over the batch (default 0 for an empty batch). -/
def minD : List ℕ → ℕ
  | [] => 0
  | a :: t => t.foldl min a

/-- `_loop_cond`: keep iterating while the smallest per-image output size is
below max_output_size and tiles remain. -/
def loop_cond (m numIters : ℕ) (s : LoopState) : Bool :=
  decide (minD s.outputs < m) && decide (s.idx < numIters)

/-- The outer `ops.while_loop` as a fuel-indexed recursion; the pipeline
passes fuel numIters, which is exact since idx starts at 0 and increases by
one per iteration. -/
def suppression_loop (T : ℕ) (thr : ℚ) (m numIters : ℕ) :
    ℕ → LoopState → LoopState
  | 0, s => s
  | fuel + 1, s =>
    if loop_cond m numIters s then
      suppression_loop T thr m numIters fuel (suppression_loop_body T thr s)
    else s

/-! ### Sorting (`_sort_scores_and_boxes`) -/

/-- The ordering used to model `ops.argsort` on per-image scores: ascending by
score with ties broken by original position, which is the stable ascending
order. -/
def rankLE (s : List ℚ) (i j : ℕ) : Prop :=
  s.getD i 0 < s.getD j 0 ∨ (s.getD i 0 = s.getD j 0 ∧ i ≤ j)

instance (s : List ℚ) : DecidableRel (rankLE s) := fun i j => by
  unfold rankLE; infer_instance

instance (s : List ℚ) : IsTotal ℕ (rankLE s) where
  total i j := by
    rcases lt_trichotomy (s.getD i 0) (s.getD j 0) with h | h | h
    · exact Or.inl (Or.inl h)
    · rcases Nat.le_total i j with hij | hij
      · exact Or.inl (Or.inr ⟨h, hij⟩)
      · exact Or.inr (Or.inr ⟨h.symm, hij⟩)
    · exact Or.inr (Or.inl h)

instance (s : List ℚ) : IsTrans ℕ (rankLE s) where
  trans a b c hab hbc := by
    rcases hab with h1 | ⟨e1, l1⟩
    · rcases hbc with h2 | ⟨e2, _⟩
      · exact Or.inl (h1.trans h2)
      · exact Or.inl (e2 ▸ h1)
    · rcases hbc with h2 | ⟨e2, l2⟩
      · exact Or.inl (e1 ▸ h2)
      · exact Or.inr ⟨e1.trans e2, l1.trans l2⟩

instance (s : List ℚ) : IsAntisymm ℕ (rankLE s) where
  antisymm a b hab hba := by
    rcases hab with h1 | ⟨e1, l1⟩
    · rcases hba with h2 | ⟨e2, _⟩
      · exact absurd (h1.trans h2) (lt_irrefl _)
      · rw [e2] at h1; exact absurd h1 (lt_irrefl _)
    · rcases hba with h2 | ⟨_, l2⟩
      · rw [e1] at h2; exact absurd h2 (lt_irrefl _)
      · exact Nat.le_antisymm l1 l2

/-- `ops.argsort(scores, axis=1)` for one image.  The primitive is
implemented outside this repository and its contract does not fix the order
of equal elements (numpy defaults to a non-stable quicksort, tf and torch
argsort default to stable=False); to be executable this embedding fixes the
stable ascending order of positions.  The order of exactly tied scores is
therefore a modelling choice, not a guarantee of the source; no theorem of
this development other than facts about this definition itself depends on
it. -/
def argsortAsc (s : List ℚ) : List ℕ :=
  List.insertionSort (rankLE s) (List.range s.length)

/-- `_sort_scores_and_boxes` index output: the ascending order indices
reversed (`ops.flip`), i.e. descending by score, with ties (underdetermined
by the source, see `argsortAsc`) won by the larger original index. -/
def sorted_scores_indices (s : List ℚ) : List ℕ :=
  (argsortAsc s).reverse

/-! ### Descending integer sort for `ops.top_k` -/

/-- The ordering of `ops.top_k` values: descending. -/
def geZ (a b : ℤ) : Prop := b ≤ a

instance : DecidableRel geZ := fun a b => by unfold geZ; infer_instance

instance : IsTotal ℤ geZ where
  total a b := by unfold geZ; exact Int.le_total b a

instance : IsTrans ℤ geZ where
  trans a b c hab hbc := Int.le_trans hbc hab

instance : IsAntisymm ℤ geZ where
  antisymm a b hab hba := Int.le_antisymm hba hab

/-- The values component of `ops.top_k(v, k)`: the k largest entries in
descending order. -/
def topKVals (k : ℕ) (v : List ℤ) : List ℤ :=
  (List.insertionSort geZ v).take k

/-! ### The full pipeline (`non_max_suppression`) -/

/-- `non_max_suppression`.  The batch dimension is a list; every image is a
list of N boxes with parallel scores.  N is read off the first image, as the
source reads the static shape.  Deviations forced by the embedding:
tile_size = 0 makes the Python padding computation raise ZeroDivisionError,
modelled as none; the score filter's guard `score_threshold != -inf` is always
true over the rationals; the final index gather fails (none) iff some flat
index is out of range, which happens exactly in the num_boxes = 0,
max_output_size > 0 corner where the source clamps indices to -1; the inner
self-suppression while loop runs with fuel tile_size, exact for
0 ≤ iou_threshold but returning where the source diverges for negative
iou_threshold (see `flag_never_falls_neg`), so totality statements carry a
0 ≤ iou_threshold hypothesis. -/
def non_max_suppression (boxesB : List (List Box)) (scoresB : List (List ℚ))
    (max_output_size : ℕ) (iou_threshold : ℚ) (score_threshold : ℚ)
    (tile_size : ℕ) : Option (List (List ℤ) × List ℕ) :=
  if tile_size = 0 then none else
  let N := (boxesB.headD []).length
  let B := boxesB.length
  let scoresF := scoresB.map fun ss => ss.map fun v =>
    v * boolQ (decide (score_threshold < v))
  let boxesF := List.zipWith
    (fun bs ss => List.zipWith (fun b v =>
      scaleBox (boolQ (decide (score_threshold < v))) b) bs ss)
    boxesB scoresB
  let perms := scoresF.map sorted_scores_indices
  let sortedBoxes := List.zipWith (fun pm bs => pm.map fun i => bs.getD i zeroBox)
    perms boxesF
  let P := ((max N max_output_size + tile_size - 1) / tile_size) * tile_size
  let numIters := P / tile_size
  let padded : List (ℕ → Box) := sortedBoxes.map fun l p => l.getD p zeroBox
  let fin := suppression_loop tile_size iou_threshold max_output_size numIters
    numIters { boxes := padded, outputs := List.replicate B 0, idx := 0 }
  let num_valid := fin.outputs.map fun o => min o max_output_size
  let weights : List (List ℤ) := fin.boxes.map fun arr =>
    (List.range P).map fun (p : ℕ) => boolZ (anyPos (arr p)) * ((P : ℤ) - (p : ℤ))
  let idxs : List (List ℤ) := weights.map fun w =>
    (topKVals max_output_size w).map fun v => min ((P : ℤ) - v) ((N : ℤ) - 1)
  let flatSorted : List ℤ := (perms.map fun pm => pm.map Int.ofNat).flatten
  let flatIdx : List ℤ :=
    (List.zipWith (fun i l => l.map fun x => x + (i : ℤ) * (N : ℤ))
      (List.range B) idxs).flatten
  let gathered : Option (List ℤ) := flatIdx.mapM fun x =>
    if 0 ≤ x ∧ x.toNat < flatSorted.length then some (flatSorted.getD x.toNat 0)
    else none
  Option.map (fun (g : List ℤ) =>
    ((List.range B).map fun i =>
      (List.range max_output_size).map fun q =>
        if q < num_valid.getD i 0 then g.getD (i * max_output_size + q) 0 else 0,
      num_valid)) gathered

/-! ## Basic lemmas -/

attribute [local semireducible] Rat.add Rat.sub Rat.mul Rat.inv

theorem ratDiv_eq_div (a b : ℚ) : ratDiv a b = a / b := by
  rcases eq_or_ne b 0 with rfl | hb
  · simp [ratDiv, Rat.divInt_eq_div]
  · have hbn : (b.num : ℚ) ≠ 0 := Int.cast_ne_zero.mpr (Rat.num_ne_zero.mpr hb)
    have hbd : (b.den : ℚ) ≠ 0 := Nat.cast_ne_zero.mpr b.den_nz
    have had : (a.den : ℚ) ≠ 0 := Nat.cast_ne_zero.mpr a.den_nz
    rw [ratDiv, Rat.divInt_eq_div]
    push_cast
    rw [div_eq_div_iff (by positivity) hb]
    · have h1 : (a.num : ℚ) = a * a.den := by
        rw [mul_comm]
        exact_mod_cast (Rat.den_mul_eq_num a).symm
      have h2 : (b.num : ℚ) = b * b.den := by
        rw [mul_comm]
        exact_mod_cast (Rat.den_mul_eq_num b).symm
      rw [h1, h2]; ring

@[simp] theorem boolQ_true : boolQ true = 1 := rfl

@[simp] theorem boolQ_false : boolQ false = 0 := rfl

theorem boolQ_nonneg (b : Bool) : 0 ≤ boolQ b := by cases b <;> simp

theorem boolQ_le_one (b : Bool) : boolQ b ≤ 1 := by cases b <;> simp

@[simp] theorem scaleBox_one (b : Box) : scaleBox 1 b = b := by
  cases b; simp [scaleBox]

@[simp] theorem scaleBox_zero (b : Box) : scaleBox 0 b = zeroBox := by
  cases b; simp [scaleBox, zeroBox]

@[simp] theorem scaleBox_zeroBox (c : ℚ) : scaleBox c zeroBox = zeroBox := by
  simp [scaleBox, zeroBox]

theorem scaleBox_boolQ (c : Bool) (b : Box) :
    scaleBox (boolQ c) b = if c then b else zeroBox := by
  cases c <;> simp

@[simp] theorem anyPos_zeroBox : anyPos zeroBox = false := by
  simp [anyPos, zeroBox]

/-! ### qmax -/

theorem foldr_max_lt_iff (l : List ℚ) (a c : ℚ) :
    l.foldr max a < c ↔ a < c ∧ ∀ x ∈ l, x < c := by
  induction l with
  | nil => simp
  | cons x t ih =>
    simp only [List.foldr_cons, max_lt_iff, ih, List.mem_cons]
    constructor
    · rintro ⟨hx, ha, ht⟩
      exact ⟨ha, fun y hy => hy.elim (fun h => h ▸ hx) (ht y)⟩
    · rintro ⟨ha, hall⟩
      exact ⟨hall x (Or.inl rfl), ha, fun y hy => hall y (Or.inr hy)⟩

theorem le_foldr_max (l : List ℚ) (a : ℚ) (x : ℚ) (hx : x ∈ l) :
    x ≤ l.foldr max a := by
  induction l with
  | nil => cases hx
  | cons y t ih =>
    rcases List.mem_cons.mp hx with rfl | hmem
    · exact le_max_left _ _
    · exact (ih hmem).trans (le_max_right _ _)

theorem self_le_foldr_max (l : List ℚ) (a : ℚ) : a ≤ l.foldr max a := by
  induction l with
  | nil => simp
  | cons y t ih => exact ih.trans (le_max_right _ _)

theorem qmax_lt_iff {T : ℕ} (hT : 0 < T) (g : ℕ → ℚ) (c : ℚ) :
    qmax T g < c ↔ ∀ i < T, g i < c := by
  rw [qmax, foldr_max_lt_iff]
  constructor
  · rintro ⟨-, hall⟩ i hi
    exact hall (g i) (List.mem_map_of_mem g (List.mem_range.mpr hi))
  · intro h
    refine ⟨h 0 hT, fun x hx => ?_⟩
    rcases List.mem_map.mp hx with ⟨i, hi, rfl⟩
    exact h i (List.mem_range.mp hi)

theorem le_qmax {T : ℕ} (g : ℕ → ℚ) {i : ℕ} (hi : i < T) : g i ≤ qmax T g :=
  le_foldr_max _ _ _ (List.mem_map_of_mem g (List.mem_range.mpr hi))

theorem foldr_max_le (l : List ℚ) (a c : ℚ) (ha : a ≤ c) (h : ∀ x ∈ l, x ≤ c) :
    l.foldr max a ≤ c := by
  induction l with
  | nil => simpa
  | cons y t ih =>
    simp only [List.foldr_cons, max_le_iff]
    exact ⟨h y (by simp), ih fun x hx => h x (by simp [hx])⟩

theorem qmax_of_forall_zero {T : ℕ} (g : ℕ → ℚ) (hT : 0 < T)
    (h : ∀ i < T, g i = 0) : qmax T g = 0 := by
  have h0 : g 0 = 0 := h 0 hT
  refine le_antisymm ?_ ?_
  · refine foldr_max_le _ _ _ (le_of_eq h0) fun x hx => ?_
    rcases List.mem_map.mp hx with ⟨i, hi, rfl⟩
    exact le_of_eq (h i (List.mem_range.mp hi))
  · have := self_le_foldr_max ((List.range T).map g) (g 0)
    rw [qmax]
    simpa [h0] using this

/-! ### Tables -/

theorem getD_range_map {α : Type} (T : ℕ) (F : ℕ → α) (i : ℕ) (d : α) :
    ((List.range T).map F).getD i d = if i < T then F i else d := by
  split
  · next h =>
    rw [List.getD_eq_getElem?_getD]
    simp [List.getElem?_map, List.getElem?_range h]
  · next h =>
    rw [List.getD_eq_getElem?_getD]
    have : T ≤ i := Nat.le_of_not_lt h
    simp [List.getElem?_eq_none, this]

theorem ofTable_tabulate2 (T : ℕ) (f : ℕ → ℕ → ℚ)
    (h0 : ∀ i j, ¬(i < T ∧ j < T) → f i j = 0) :
    ofTable (tabulate2 T f) = f := by
  funext i j
  rw [ofTable, tabulate2, getD_range_map]
  by_cases hi : i < T
  · simp only [hi, if_true]
    rw [getD_range_map]
    by_cases hj : j < T
    · simp [hj]
    · simp only [hj, if_false]
      exact (h0 i j (fun h => hj h.2)).symm
  · simp only [hi, if_false, List.getD_nil]
    exact (h0 i j (fun h => hi h.1)).symm

/-! ## Self-suppression: per-image theory

The batched while loop applies, to every image independently, the matrix
update self_step_mat; the flag only decides how many applications happen.
We study the iterates of self_step_mat on a single matrix. -/

section SelfTheory

variable (T : ℕ) (thr : ℚ)

/-- The matrix is zero outside the T x T tile shape. -/
def zeroExt (M : ℕ → ℕ → ℚ) : Prop := ∀ i j, ¬(i < T ∧ j < T) → M i j = 0

/-- Every entry is zero or at least the threshold (the masked iou shape). -/
def entryShape (M : ℕ → ℕ → ℚ) : Prop := ∀ i j, M i j = 0 ∨ thr ≤ M i j

/-- Entries only below the strict upper-triangular mask. -/
def upperTri (M : ℕ → ℕ → ℚ) : Prop := ∀ i j, j ≤ i → M i j = 0

/-- Column r restricted to the tile is identically zero. -/
def colZero (M : ℕ → ℕ → ℚ) (r : ℕ) : Prop := ∀ i < T, M i r = 0

theorem self_step_mat_out (M : ℕ → ℕ → ℚ) {i j : ℕ} (h : ¬(i < T ∧ j < T)) :
    self_step_mat T thr M i j = 0 := by
  simp only [self_step_mat, if_neg h]

theorem self_step_mat_in (M : ℕ → ℕ → ℚ) {i j : ℕ} (hi : i < T) (hj : j < T) :
    self_step_mat T thr M i j =
      boolQ (decide (self_q T thr M i < thr)) * M i j := by
  simp only [self_step_mat, if_pos (And.intro hi hj)]

theorem tile_self_iou_out (slice : ℕ → Box) {i j : ℕ} (h : ¬(i < T ∧ j < T)) :
    tile_self_iou T thr slice i j = 0 := by
  simp only [tile_self_iou, if_neg h]

theorem zeroExt_self_step_mat (M : ℕ → ℕ → ℚ) :
    zeroExt T (self_step_mat T thr M) := fun i j h => self_step_mat_out T thr M h

theorem zeroExt_tile_self_iou (slice : ℕ → Box) :
    zeroExt T (tile_self_iou T thr slice) := fun i j h => tile_self_iou_out T thr slice h

theorem zeroExt_iterate (M : ℕ → ℕ → ℚ) (h : zeroExt T M) (n : ℕ) :
    zeroExt T ((self_step_mat T thr)^[n] M) := by
  induction n with
  | zero => simpa
  | succ n ih =>
    rw [Function.iterate_succ_apply']
    exact zeroExt_self_step_mat T thr _

/-- Each entry of an iterate is the original entry or zero. -/
theorem iterate_dichotomy (M : ℕ → ℕ → ℚ) (n : ℕ) (i j : ℕ) :
    (self_step_mat T thr)^[n] M i j = M i j ∨ (self_step_mat T thr)^[n] M i j = 0 := by
  induction n with
  | zero => exact Or.inl rfl
  | succ n ih =>
    rw [Function.iterate_succ_apply']
    by_cases h : i < T ∧ j < T
    · rw [self_step_mat_in T thr _ h.1 h.2]
      rcases ih with h1 | h1 <;> rw [h1]
      · cases hq : decide (self_q T thr ((self_step_mat T thr)^[n] M) i < thr)
        · simp
        · simp
      · simp
    · exact Or.inr (self_step_mat_out T thr _ h)

/-- Zero entries stay zero under one more application. -/
theorem step_zero_of_zero (M : ℕ → ℕ → ℚ) {i j : ℕ} (h : M i j = 0) :
    self_step_mat T thr M i j = 0 := by
  by_cases hin : i < T ∧ j < T
  · rw [self_step_mat_in T thr M hin.1 hin.2, h, mul_zero]
  · exact self_step_mat_out T thr M hin

theorem iterate_zero_persists (M : ℕ → ℕ → ℚ) {m n : ℕ} (hmn : m ≤ n) {i j : ℕ}
    (h : (self_step_mat T thr)^[m] M i j = 0) :
    (self_step_mat T thr)^[n] M i j = 0 := by
  induction n with
  | zero => rwa [Nat.le_zero.mp hmn] at h
  | succ n ih =>
    rcases Nat.lt_or_ge m (n + 1) with hlt | hge
    · have := ih (Nat.lt_succ_iff.mp hlt)
      rw [Function.iterate_succ_apply']
      exact step_zero_of_zero T thr _ this
    · have : m = n + 1 := Nat.le_antisymm hmn hge
      rwa [this] at h

theorem entryShape_iterate (M : ℕ → ℕ → ℚ) (h : entryShape thr M) (n : ℕ) :
    entryShape thr ((self_step_mat T thr)^[n] M) := by
  intro i j
  rcases iterate_dichotomy T thr M n i j with h1 | h1
  · rw [h1]; exact h i j
  · exact Or.inl h1

theorem entryShape_tile_self_iou (hthr : 0 ≤ thr) (slice : ℕ → Box) :
    entryShape thr (tile_self_iou T thr slice) := by
  intro i j
  by_cases hin : i < T ∧ j < T
  · simp only [tile_self_iou, if_pos hin]
    by_cases hc : i < j ∧ thr ≤ bbox_overlap (slice i) (slice j)
    · right
      rw [decide_eq_true hc.1, decide_eq_true hc.2]
      simpa using hc.2
    · left
      rcases Decidable.not_and_iff_or_not.mp hc with h1 | h1
      · rw [decide_eq_false h1]; simp
      · rw [decide_eq_false h1]; simp
  · exact Or.inl (tile_self_iou_out T thr slice hin)

theorem entryShape_nonneg {M : ℕ → ℕ → ℚ} (hthr : 0 ≤ thr) (h : entryShape thr M)
    (i j : ℕ) : 0 ≤ M i j := by
  rcases h i j with h1 | h1
  · rw [h1]
  · exact hthr.trans h1

theorem upperTri_tile_self_iou (slice : ℕ → Box) :
    upperTri (tile_self_iou T thr slice) := by
  intro i j hji
  by_cases hin : i < T ∧ j < T
  · simp only [tile_self_iou, if_pos hin]
    rw [decide_eq_false (Nat.not_lt.mpr hji)]
    simp
  · exact tile_self_iou_out T thr slice hin

theorem upperTri_iterate (M : ℕ → ℕ → ℚ) (h : upperTri M) (n : ℕ) :
    upperTri ((self_step_mat T thr)^[n] M) := by
  intro i j hji
  rcases iterate_dichotomy T thr M n i j with h1 | h1
  · rw [h1]; exact h i j hji
  · exact h1

/-- A box over an all-zero column is marked able to suppress others. -/
theorem can_of_colZero {M : ℕ → ℕ → ℚ} (hT : 0 < T) (hthr : 0 < thr) {r : ℕ}
    (h : colZero T M r) : can_suppress_others T thr M r = true := by
  rw [can_suppress_others, decide_eq_true_eq,
    qmax_of_forall_zero _ hT (fun i hi => h i hi)]
  exact hthr

theorem colZero_step {M : ℕ → ℕ → ℚ} {r : ℕ} (h : colZero T M r) :
    colZero T (self_step_mat T thr M) r := fun i hi =>
  step_zero_of_zero T thr M (h i hi)

/-- Once a column is zero, the row of that box is frozen by the step (its
pressure value is zero, below any positive threshold). -/
theorem row_frozen_step {M : ℕ → ℕ → ℚ} (hT : 0 < T) (hthr : 0 < thr)
    (hze : zeroExt T M) {r : ℕ} (h : colZero T M r) (j : ℕ) :
    self_step_mat T thr M r j = M r j := by
  by_cases hin : r < T ∧ j < T
  · rw [self_step_mat_in T thr M hin.1 hin.2]
    have hq : self_q T thr M r = 0 := by
      refine qmax_of_forall_zero _ hT fun i hi => ?_
      rw [h i hi, mul_zero]
    rw [hq, decide_eq_true hthr]
    simp
  · rw [self_step_mat_out T thr M hin, hze r j hin]

theorem colZero_iterate_of {M : ℕ → ℕ → ℚ} {r m n : ℕ} (hmn : m ≤ n)
    (h : colZero T ((self_step_mat T thr)^[m] M) r) :
    colZero T ((self_step_mat T thr)^[n] M) r := fun i hi =>
  iterate_zero_persists T thr M hmn (h i hi)

theorem row_frozen_iterate {M : ℕ → ℕ → ℚ} (hT : 0 < T) (hthr : 0 < thr)
    (hze : zeroExt T M) {r m n : ℕ} (hmn : m ≤ n)
    (h : colZero T ((self_step_mat T thr)^[m] M) r) (j : ℕ) :
    (self_step_mat T thr)^[n] M r j = (self_step_mat T thr)^[m] M r j := by
  induction n with
  | zero => rw [Nat.le_zero.mp hmn]
  | succ n ih =>
    rcases Nat.lt_or_ge m (n + 1) with hlt | hge
    · have hmn' : m ≤ n := Nat.lt_succ_iff.mp hlt
      rw [Function.iterate_succ_apply']
      rw [row_frozen_step T thr hT hthr
        (zeroExt_iterate T thr M hze n) (colZero_iterate_of T thr hmn' h) j]
      exact ih hmn'
    · rw [Nat.le_antisymm hmn hge]

/-- Discrete intermediate value: a quantity that starts nonzero and is zero
at time n crossed zero at some step. -/
theorem exists_transition (P : ℕ → ℚ) {n : ℕ} (h0 : P 0 ≠ 0) (hn : P n = 0) :
    ∃ m < n, P m ≠ 0 ∧ P (m + 1) = 0 := by
  induction n with
  | zero => exact absurd hn h0
  | succ n ih =>
    by_cases hPn : P n = 0
    · rcases ih hPn with ⟨m, hm, h1, h2⟩
      exact ⟨m, hm.trans (Nat.lt_succ_self n), h1, h2⟩
    · exact ⟨n, Nat.lt_succ_self n, hPn, hn⟩

theorem suppressed_box_true_of {M : ℕ → ℕ → ℚ} (hnn : ∀ i j, 0 ≤ M i j)
    {r k : ℕ} (hr : r < T) (hpos : 0 < M r k) : suppressed_box T M k = true := by
  rw [suppressed_box, decide_eq_true_eq]
  exact Finset.sum_pos' (fun i _ => hnn i k) ⟨r, Finset.mem_range.mpr hr, hpos⟩

theorem colZero_of_suppressed_box_false {M : ℕ → ℕ → ℚ} (hnn : ∀ i j, 0 ≤ M i j)
    {k : ℕ} (h : suppressed_box T M k = false) : colZero T M k := by
  intro i hi
  rw [suppressed_box, decide_eq_false_iff_not, not_lt] at h
  have := (Finset.sum_eq_zero_iff_of_nonneg fun i _ => hnn i k).mp
    (le_antisymm h (Finset.sum_nonneg fun i _ => hnn i k))
  exact this i (Finset.mem_range.mpr hi)

/-- The central pairwise property: if the masked iou matrix starts with entry
(k, l) at or above a positive threshold, then after any number of
self-suppression applications at least one of the two boxes is marked
suppressed. -/
theorem self_pair (hT : 0 < T) (hthr : 0 < thr) (M : ℕ → ℕ → ℚ)
    (hze : zeroExt T M) (hsh : entryShape thr M)
    {k l : ℕ} (hk : k < T) (hl : l < T) (hentry : thr ≤ M k l) (n : ℕ) :
    suppressed_box T ((self_step_mat T thr)^[n] M) k = true ∨
      suppressed_box T ((self_step_mat T thr)^[n] M) l = true := by
  have hnn : ∀ m i j, 0 ≤ (self_step_mat T thr)^[m] M i j := fun m =>
    entryShape_nonneg thr (le_of_lt hthr) (entryShape_iterate T thr M hsh m)
  by_cases hnz : (self_step_mat T thr)^[n] M k l = 0
  · -- the entry was zeroed at some step m; box k is then suppressed forever
    left
    have h0 : M k l ≠ 0 := fun h => absurd (h ▸ hentry) (not_le.mpr hthr)
    rcases exists_transition (fun m => (self_step_mat T thr)^[m] M k l) h0 hnz
      with ⟨m, hmn, hne, hz⟩
    -- analyse the zeroing step
    have hstep : (self_step_mat T thr)^[m + 1] M k l =
        boolQ (decide (self_q T thr ((self_step_mat T thr)^[m] M) k < thr)) *
          (self_step_mat T thr)^[m] M k l := by
      rw [Function.iterate_succ_apply', self_step_mat_in T thr _ hk hl]
    rw [hstep] at hz
    rcases mul_eq_zero.mp hz with hb | hb
    swap
    · exact absurd hb hne
    have hq : ¬ self_q T thr ((self_step_mat T thr)^[m] M) k < thr := by
      intro hcon
      rw [decide_eq_true hcon] at hb
      simp at hb
    -- extract the active suppressor r of box k
    rw [self_q] at hq
    have := (qmax_lt_iff hT _ thr).not.mp hq
    push_neg at this
    rcases this with ⟨r, hr, hge⟩
    have hcan : can_suppress_others T thr ((self_step_mat T thr)^[m] M) r = true := by
      by_contra hc
      rw [Bool.not_eq_true] at hc
      rw [hc, boolQ_false, zero_mul] at hge
      exact absurd hge (not_le.mpr hthr)
    rw [hcan, boolQ_true, one_mul] at hge
    -- the suppressor's column is zero at step m, so its row is frozen
    have hcz : colZero T ((self_step_mat T thr)^[m] M) r := by
      intro i hi
      rw [can_suppress_others, decide_eq_true_eq, qmax_lt_iff hT] at hcan
      rcases entryShape_iterate T thr M hsh m i r with h1 | h1
      · exact h1
      · exact absurd (hcan i hi) (not_lt.mpr h1)
    have hfrozen := row_frozen_iterate T thr hT hthr hze (le_of_lt hmn) hcz k
    have : thr ≤ (self_step_mat T thr)^[n] M r k := by rw [hfrozen]; exact hge
    exact suppressed_box_true_of T (hnn n) hr (lt_of_lt_of_le hthr this)
  · -- the entry survived, so box l is suppressed
    right
    have : thr ≤ (self_step_mat T thr)^[n] M k l := by
      rcases entryShape_iterate T thr M hsh n k l with h1 | h1
      · exact absurd h1 hnz
      · exact h1
    exact suppressed_box_true_of T (hnn n) hk (lt_of_lt_of_le hthr this)

end SelfTheory

/-! ### Decomposing the batched self-suppression loop -/

/-- One table update (the per-image content of self_suppression_step). -/
def tableStep (T : ℕ) (thr : ℚ) (t : List (List ℚ)) : List (List ℚ) :=
  tabulate2 T (self_step_mat T thr (ofTable t))

theorem self_suppression_step_mats (T : ℕ) (thr : ℚ) (s : SelfState) :
    (self_suppression_step T thr s).mats = s.mats.map (tableStep T thr) := rfl

theorem ofTable_tableStep (T : ℕ) (thr : ℚ) (t : List (List ℚ)) :
    ofTable (tableStep T thr t) = self_step_mat T thr (ofTable t) :=
  ofTable_tabulate2 T _ fun i j h => self_step_mat_out T thr _ h

theorem ofTable_tableStep_iterate (T : ℕ) (thr : ℚ) (t : List (List ℚ)) (n : ℕ) :
    ofTable ((tableStep T thr)^[n] t) = (self_step_mat T thr)^[n] (ofTable t) := by
  induction n with
  | zero => rfl
  | succ n ih =>
    rw [Function.iterate_succ_apply', Function.iterate_succ_apply',
      ofTable_tableStep, ih]

theorem self_step_iterate_mats (T : ℕ) (thr : ℚ) (s : SelfState) (n : ℕ) :
    ((self_suppression_step T thr)^[n] s).mats = s.mats.map ((tableStep T thr)^[n]) := by
  induction n generalizing s with
  | zero => simp
  | succ n ih =>
    rw [Function.iterate_succ_apply, ih, self_suppression_step_mats, List.map_map,
      Function.iterate_succ]

/-- The fuelled while loop is some number of step applications, at most the
fuel. -/
theorem self_suppression_loop_eq_iterate (T : ℕ) (thr : ℚ) (fuel : ℕ) (s : SelfState) :
    ∃ n ≤ fuel, self_suppression_loop T thr fuel s = (self_suppression_step T thr)^[n] s := by
  induction fuel generalizing s with
  | zero => exact ⟨0, le_refl 0, rfl⟩
  | succ fuel ih =>
    rw [self_suppression_loop]
    by_cases hc : s.cond
    · rw [if_pos hc]
      rcases ih (self_suppression_step T thr s) with ⟨n, hn, heq⟩
      exact ⟨n + 1, Nat.succ_le_succ hn,
        by rw [heq, Function.iterate_succ_apply]⟩
    · rw [if_neg hc]
      exact ⟨0, Nat.zero_le _, rfl⟩

/-! ## Cross-suppression and the tile body, per image -/

/-- Box b passes the cross-suppression test against tile j of the array. -/
def crossCond (T : ℕ) (thr : ℚ) (arr : ℕ → Box) (j : ℕ) (b : Box) : Prop :=
  ∀ r < T, bbox_overlap (arr (j * T + r)) b < thr

instance (T : ℕ) (thr : ℚ) (arr : ℕ → Box) (j : ℕ) (b : Box) :
    Decidable (crossCond T thr arr j b) := by
  unfold crossCond; infer_instance

theorem crossCond_all (T : ℕ) (thr : ℚ) (arr : ℕ → Box) (j : ℕ) (b : Box) :
    ((List.range T).all fun r => decide (bbox_overlap (arr (j * T + r)) b < thr)) = true ↔
      crossCond T thr arr j b := by
  rw [List.all_eq_true]
  constructor
  · intro h r hr
    exact of_decide_eq_true (h r (List.mem_range.mpr hr))
  · intro h r hr
    exact decide_eq_true (h r (List.mem_range.mp hr))

theorem cross_suppression_step_eq (T : ℕ) (thr : ℚ) (arr : ℕ → Box) (j : ℕ)
    (sl : ℕ → Box) (k : ℕ) :
    cross_suppression_step T thr arr j sl k =
      if crossCond T thr arr j (sl k) then sl k else zeroBox := by
  rw [cross_suppression_step, scaleBox_boolQ]
  by_cases h : crossCond T thr arr j (sl k)
  · rw [if_pos ((crossCond_all T thr arr j (sl k)).mpr h), if_pos h]
  · rw [if_neg fun hc => h ((crossCond_all T thr arr j (sl k)).mp hc), if_neg h]

theorem cross_suppression_succ (T : ℕ) (thr : ℚ) (arr : ℕ → Box) (idx : ℕ)
    (sl : ℕ → Box) :
    cross_suppression T thr arr (idx + 1) sl =
      cross_suppression_step T thr arr idx (cross_suppression T thr arr idx sl) := by
  rw [cross_suppression, cross_suppression, List.range_succ, List.foldl_append]
  rfl

/-- Each slice position either keeps its value after cross-suppression,
having passed the test against every earlier tile, or has been zeroed. -/
theorem cross_suppression_cases (T : ℕ) (thr : ℚ) (arr : ℕ → Box) (idx : ℕ)
    (sl : ℕ → Box) (k : ℕ) :
    (cross_suppression T thr arr idx sl k = sl k ∧
      ∀ j < idx, crossCond T thr arr j (sl k)) ∨
    cross_suppression T thr arr idx sl k = zeroBox := by
  induction idx with
  | zero => exact Or.inl ⟨rfl, by omega⟩
  | succ idx ih =>
    rw [cross_suppression_succ, cross_suppression_step_eq]
    rcases ih with ⟨heq, hcond⟩ | hzero
    · rw [heq]
      by_cases hc : crossCond T thr arr idx (sl k)
      · rw [if_pos hc]
        refine Or.inl ⟨rfl, fun j hj => ?_⟩
        rcases Nat.lt_succ_iff_lt_or_eq.mp hj with h | rfl
        · exact hcond j h
        · exact hc
      · rw [if_neg hc]
        exact Or.inr rfl
    · rw [hzero]
      split
      · exact Or.inr rfl
      · exact Or.inr rfl

/-! ### The loop body as a per-image map -/

/-- Number of iterations the self-suppression while loop performs. -/
def selfSteps (T : ℕ) (thr : ℚ) : ℕ → SelfState → ℕ
  | 0, _ => 0
  | fuel + 1, s =>
    if s.cond then selfSteps T thr fuel (self_suppression_step T thr s) + 1 else 0

theorem selfSteps_le (T : ℕ) (thr : ℚ) (fuel : ℕ) (s : SelfState) :
    selfSteps T thr fuel s ≤ fuel := by
  induction fuel generalizing s with
  | zero => exact le_refl 0
  | succ fuel ih =>
    rw [selfSteps]
    split
    · exact Nat.succ_le_succ (ih _)
    · exact Nat.zero_le _

theorem self_suppression_loop_eq_steps (T : ℕ) (thr : ℚ) (fuel : ℕ) (s : SelfState) :
    self_suppression_loop T thr fuel s =
      (self_suppression_step T thr)^[selfSteps T thr fuel s] s := by
  induction fuel generalizing s with
  | zero => rfl
  | succ fuel ih =>
    rw [self_suppression_loop, selfSteps]
    by_cases hc : s.cond
    · rw [if_pos hc, if_pos hc, ih, Function.iterate_succ_apply]
    · rw [if_neg hc, if_neg hc]
      rfl

/-- The post-cross-suppression slice of tile idx for one image. -/
def imageSlice1 (T : ℕ) (thr : ℚ) (idx : ℕ) (arr : ℕ → Box) : ℕ → Box :=
  cross_suppression T thr arr idx (tileSlice T idx arr)

/-- The slice of tile idx after cross- and self-suppression, given that the
self-suppression loop ran n times. -/
def imageSlice2 (T : ℕ) (thr : ℚ) (n idx : ℕ) (arr : ℕ → Box) : ℕ → Box :=
  fun l =>
    scaleBox
      (1 - boolQ (suppressed_box T
        ((self_step_mat T thr)^[n] (tile_self_iou T thr (imageSlice1 T thr idx arr))) l))
      (imageSlice1 T thr idx arr l)

/-- The updated full array of one image after its tile idx is processed. -/
def body_image (T : ℕ) (thr : ℚ) (n idx : ℕ) (arr : ℕ → Box) : ℕ → Box :=
  write_tile T idx arr (imageSlice2 T thr n idx arr)

/-- The per-image increment of the output size. -/
def count_image (T : ℕ) (thr : ℚ) (n idx : ℕ) (arr : ℕ → Box) : ℕ :=
  countKept T (imageSlice2 T thr n idx arr)

/-- The number of self-suppression iterations performed while processing this
batched state. -/
def body_inner_count (T : ℕ) (thr : ℚ) (s : LoopState) : ℕ :=
  let slices1 := s.boxes.map (imageSlice1 T thr s.idx)
  let mats0 := slices1.map fun sl => tabulate2 T (tile_self_iou T thr sl)
  selfSteps T thr T
    { mats := mats0, cond := true, sums := mats0.map fun t => matSum T (ofTable t) }

theorem zipWith_self_map_right {α β γ : Type} (f : α → β → γ) (h : α → β)
    (l : List α) : List.zipWith f l (l.map h) = l.map fun x => f x (h x) := by
  induction l with
  | nil => rfl
  | cons a t ih => simp only [List.map_cons, List.zipWith_cons_cons, ih]

theorem zipWith_map_same {α β γ δ : Type} (f : β → γ → δ) (g : α → β) (h : α → γ)
    (l : List α) : List.zipWith f (l.map g) (l.map h) = l.map fun x => f (g x) (h x) := by
  induction l with
  | nil => rfl
  | cons a t ih => simp only [List.map_cons, List.zipWith_cons_cons, ih]

theorem slices2_general (T : ℕ) (thr : ℚ) (N : ℕ) (sl1 : List (ℕ → Box)) :
    List.zipWith
      (fun sl t => fun l => scaleBox (1 - boolQ (suppressed_box T (ofTable t) l)) (sl l))
      sl1
      ((sl1.map fun sl => tabulate2 T (tile_self_iou T thr sl)).map (tableStep T thr)^[N]) =
      sl1.map fun sl => fun l =>
        scaleBox (1 - boolQ (suppressed_box T
          ((self_step_mat T thr)^[N] (tile_self_iou T thr sl)) l)) (sl l) := by
  rw [List.map_map, zipWith_self_map_right]
  refine List.map_congr_left fun sl _ => ?_
  funext l
  rw [Function.comp_apply, ofTable_tableStep_iterate,
    ofTable_tabulate2 T _ fun i j h => tile_self_iou_out T thr _ h]

/-- The slices after cross- and self-suppression, computed by the batched
body, per image. -/
theorem body_slices2_eq (T : ℕ) (thr : ℚ) (s : LoopState) :
    List.zipWith
      (fun sl t => fun l => scaleBox (1 - boolQ (suppressed_box T (ofTable t) l)) (sl l))
      (s.boxes.map (imageSlice1 T thr s.idx))
      ((self_suppression_loop T thr T
        { mats := (s.boxes.map (imageSlice1 T thr s.idx)).map
            fun sl => tabulate2 T (tile_self_iou T thr sl)
          cond := true
          sums := ((s.boxes.map (imageSlice1 T thr s.idx)).map
            fun sl => tabulate2 T (tile_self_iou T thr sl)).map
              fun t => matSum T (ofTable t) }).mats) =
      s.boxes.map (imageSlice2 T thr (body_inner_count T thr s) s.idx) := by
  rw [self_suppression_loop_eq_steps, self_step_iterate_mats, slices2_general,
    List.map_map]
  rfl

/-- The batched loop body updates every image's box array independently,
except that the number of self-suppression iterations is decided by the
whole batch. -/
theorem body_boxes (T : ℕ) (thr : ℚ) (s : LoopState) :
    (suppression_loop_body T thr s).boxes =
      s.boxes.map (body_image T thr (body_inner_count T thr s) s.idx) := by
  show List.zipWith (write_tile T s.idx) s.boxes _ = _
  rw [zipWith_self_map_right (f := fun arr sl => cross_suppression T thr arr s.idx sl)
    (h := tileSlice T s.idx)]
  have hconv : List.map (fun x => cross_suppression T thr x s.idx (tileSlice T s.idx x))
      s.boxes = List.map (imageSlice1 T thr s.idx) s.boxes := rfl
  rw [hconv, body_slices2_eq T thr s, zipWith_self_map_right]
  rfl

theorem body_outputs (T : ℕ) (thr : ℚ) (s : LoopState) :
    (suppression_loop_body T thr s).outputs =
      List.zipWith
        (fun o arr => o + count_image T thr (body_inner_count T thr s) s.idx arr)
        s.outputs s.boxes := by
  show List.zipWith (fun o sl => o + countKept T sl) s.outputs _ = _
  rw [zipWith_self_map_right (f := fun arr sl => cross_suppression T thr arr s.idx sl)
    (h := tileSlice T s.idx)]
  have hconv : List.map (fun x => cross_suppression T thr x s.idx (tileSlice T s.idx x))
      s.boxes = List.map (imageSlice1 T thr s.idx) s.boxes := rfl
  rw [hconv, body_slices2_eq T thr s, List.zipWith_map_right]
  rfl

theorem body_idx (T : ℕ) (thr : ℚ) (s : LoopState) :
    (suppression_loop_body T thr s).idx = s.idx + 1 := rfl

/-! ## The outer loop -/

theorem iterate_body_idx (T : ℕ) (thr : ℚ) (s : LoopState) (k : ℕ) :
    ((suppression_loop_body T thr)^[k] s).idx = s.idx + k := by
  induction k with
  | zero => rfl
  | succ k ih => rw [Function.iterate_succ_apply', body_idx, ih]; omega

/-- The fuelled outer loop is the k-th iterate of the body for the first k at
which the condition fails (or the fuel runs out), and the condition held at
every earlier iterate. -/
theorem suppression_loop_eq_iterate (T : ℕ) (thr : ℚ) (m numIters fuel : ℕ)
    (s : LoopState) :
    ∃ k ≤ fuel,
      suppression_loop T thr m numIters fuel s = (suppression_loop_body T thr)^[k] s ∧
      (∀ j < k, loop_cond m numIters ((suppression_loop_body T thr)^[j] s) = true) ∧
      (k = fuel ∨ loop_cond m numIters ((suppression_loop_body T thr)^[k] s) = false) := by
  induction fuel generalizing s with
  | zero => exact ⟨0, le_refl 0, rfl, fun j hj => absurd hj (Nat.not_lt_zero j), Or.inl rfl⟩
  | succ fuel ih =>
    rw [suppression_loop]
    by_cases hc : loop_cond m numIters s = true
    · rw [if_pos hc]
      rcases ih (suppression_loop_body T thr s) with ⟨k, hk, heq, hall, hlast⟩
      refine ⟨k + 1, Nat.succ_le_succ hk, ?_, ?_, ?_⟩
      · rw [heq, Function.iterate_succ_apply]
      · intro j hj
        cases j with
        | zero => exact hc
        | succ j =>
          rw [Function.iterate_succ_apply]
          exact hall j (Nat.succ_lt_succ_iff.mp hj)
      · rcases hlast with h | h
        · exact Or.inl (by omega)
        · right
          rwa [Function.iterate_succ_apply]
    · rw [if_neg hc]
      exact ⟨0, Nat.zero_le _, rfl, fun j hj => absurd hj (Nat.not_lt_zero j),
        Or.inr (Bool.not_eq_true _ ▸ eq_false_of_ne_true hc)⟩

/-! ### Per-image behaviour of one body application -/

theorem body_image_outside (T : ℕ) (thr : ℚ) (n idx : ℕ) (arr : ℕ → Box) (p : ℕ)
    (h : ¬(idx * T ≤ p ∧ p < (idx + 1) * T)) :
    body_image T thr n idx arr p = arr p := by
  rw [body_image, write_tile, if_neg h]

theorem body_image_inside (T : ℕ) (thr : ℚ) (n idx : ℕ) (arr : ℕ → Box) (k : ℕ)
    (hk : k < T) :
    body_image T thr n idx arr (idx * T + k) = imageSlice2 T thr n idx arr k := by
  rw [body_image, write_tile, Nat.succ_mul, if_pos (by omega)]
  congr 1
  omega

/-- Every position of the processed slice is the original array value at the
corresponding position, or the zero box. -/
theorem imageSlice2_cases (T : ℕ) (thr : ℚ) (n idx : ℕ) (arr : ℕ → Box) (k : ℕ) :
    imageSlice2 T thr n idx arr k = tileSlice T idx arr k ∨
      imageSlice2 T thr n idx arr k = zeroBox := by
  have hcases : imageSlice1 T thr idx arr k = tileSlice T idx arr k ∨
      imageSlice1 T thr idx arr k = zeroBox :=
    (cross_suppression_cases T thr arr idx (tileSlice T idx arr) k).imp And.left id
  rw [imageSlice2]
  rcases Bool.eq_false_or_eq_true (suppressed_box T
      ((self_step_mat T thr)^[n] (tile_self_iou T thr (imageSlice1 T thr idx arr))) k)
    with hb | hb
  · rw [hb, boolQ_true, sub_self, scaleBox_zero]
    exact Or.inr rfl
  · rw [hb, boolQ_false, sub_zero, scaleBox_one]
    exact hcases

theorem body_image_cases (T : ℕ) (thr : ℚ) (n idx : ℕ) (arr : ℕ → Box) (p : ℕ) :
    body_image T thr n idx arr p = arr p ∨ body_image T thr n idx arr p = zeroBox := by
  by_cases h : idx * T ≤ p ∧ p < (idx + 1) * T
  · rw [Nat.succ_mul] at h
    have hk : p - idx * T < T := by omega
    have hp : p = idx * T + (p - idx * T) := by omega
    rw [hp, body_image_inside T thr n idx arr _ hk]
    rcases imageSlice2_cases T thr n idx arr (p - idx * T) with h1 | h1
    · rw [h1, tileSlice, if_pos hk]
      left
      rfl
    · exact Or.inr h1
  · exact Or.inl (body_image_outside T thr n idx arr p h)

theorem body_image_zero (T : ℕ) (thr : ℚ) (n idx : ℕ) (arr : ℕ → Box) (p : ℕ)
    (h : arr p = zeroBox) : body_image T thr n idx arr p = zeroBox := by
  rcases body_image_cases T thr n idx arr p with h1 | h1
  · rw [h1, h]
  · exact h1

/-! ### Per-image trajectory of the outer loop -/

theorem getElem?_zipWith_some {α β γ : Type} {f : α → β → γ} {as : List α}
    {bs : List β} {i : ℕ} {a : α} {b : β} (ha : as[i]? = some a)
    (hb : bs[i]? = some b) : (List.zipWith f as bs)[i]? = some (f a b) := by
  induction as generalizing bs i with
  | nil => simp at ha
  | cons x at' ih =>
    cases bs with
    | nil => simp at hb
    | cons y bt =>
      cases i with
      | zero =>
        simp only [List.getElem?_cons_zero, Option.some_inj] at ha hb
        simp [ha, hb]
      | succ i =>
        simp only [List.getElem?_cons_succ] at ha hb
        simpa using ih ha hb

/-- The number of self-suppression iterations that outer iteration j of the
run starting at s0 performs. -/
def innerCounts (T : ℕ) (thr : ℚ) (s0 : LoopState) (j : ℕ) : ℕ :=
  body_inner_count T thr ((suppression_loop_body T thr)^[j] s0)

/-- The box array of image i after k outer iterations. -/
def arrTraj (T : ℕ) (thr : ℚ) (s0 : LoopState) : ℕ → ℕ → (ℕ → Box)
  | 0, i => s0.boxes.getD i (fun _ => zeroBox)
  | k + 1, i => body_image T thr (innerCounts T thr s0 k) (s0.idx + k) (arrTraj T thr s0 k i)

theorem iterate_body_boxes_length (T : ℕ) (thr : ℚ) (s0 : LoopState) (k : ℕ) :
    ((suppression_loop_body T thr)^[k] s0).boxes.length = s0.boxes.length := by
  induction k with
  | zero => rfl
  | succ k ih => rw [Function.iterate_succ_apply', body_boxes, List.length_map, ih]

theorem traj_boxes (T : ℕ) (thr : ℚ) (s0 : LoopState) (k i : ℕ)
    (hi : i < s0.boxes.length) :
    ((suppression_loop_body T thr)^[k] s0).boxes[i]? = some (arrTraj T thr s0 k i) := by
  induction k with
  | zero =>
    rw [Function.iterate_zero_apply, List.getElem?_eq_getElem hi]
    rw [arrTraj, List.getD_eq_getElem s0.boxes _ hi]
  | succ k ih =>
    rw [Function.iterate_succ_apply', body_boxes, List.getElem?_map, ih,
      Option.map_some', arrTraj, iterate_body_idx]
    rfl

theorem iterate_body_outputs_length (T : ℕ) (thr : ℚ) (s0 : LoopState) (k : ℕ)
    (hlen : s0.outputs.length = s0.boxes.length) :
    ((suppression_loop_body T thr)^[k] s0).outputs.length = s0.outputs.length := by
  induction k with
  | zero => rfl
  | succ k ih =>
    rw [Function.iterate_succ_apply', body_outputs, List.length_zipWith, ih,
      iterate_body_boxes_length, hlen, min_self]

theorem traj_outputs (T : ℕ) (thr : ℚ) (s0 : LoopState) (k i : ℕ)
    (hlen : s0.outputs.length = s0.boxes.length) (hi : i < s0.boxes.length) :
    ((suppression_loop_body T thr)^[k] s0).outputs[i]? =
      some (s0.outputs.getD i 0 +
        ∑ j ∈ Finset.range k,
          count_image T thr (innerCounts T thr s0 j) (s0.idx + j) (arrTraj T thr s0 j i)) := by
  induction k with
  | zero =>
    have hi' : i < s0.outputs.length := hlen ▸ hi
    rw [Function.iterate_zero_apply, List.getElem?_eq_getElem hi',
      List.getD_eq_getElem s0.outputs _ hi']
    simp
  | succ k ih =>
    rw [Function.iterate_succ_apply', body_outputs]
    rw [getElem?_zipWith_some ih (traj_boxes T thr s0 k i hi), Option.some_inj,
      iterate_body_idx, Finset.sum_range_succ]
    show _ = s0.outputs.getD i 0 +
      (∑ j ∈ Finset.range k, count_image T thr (innerCounts T thr s0 j)
        (s0.idx + j) (arrTraj T thr s0 j i) +
       count_image T thr (innerCounts T thr s0 k) (s0.idx + k) (arrTraj T thr s0 k i))
    rw [← add_assoc]
    rfl

/-! ### Region counting and array invariants along the trajectory -/

/-- The number of kept (some coordinate positive) boxes among the first c
positions. -/
def countIn (c : ℕ) (arr : ℕ → Box) : ℕ :=
  ((List.range c).filter fun p => anyPos (arr p)).length

theorem countIn_congr (c : ℕ) {arr arr' : ℕ → Box}
    (h : ∀ p < c, arr p = arr' p) : countIn c arr = countIn c arr' := by
  rw [countIn, countIn]
  congr 1
  apply List.filter_congr
  intro p hp
  rw [h p (List.mem_range.mp hp)]

theorem countIn_add (a b : ℕ) (arr : ℕ → Box) :
    countIn (a + b) arr =
      countIn a arr + ((List.range b).filter fun r => anyPos (arr (a + r))).length := by
  rw [countIn, countIn, List.range_add, List.filter_append, List.length_append]
  congr 1
  rw [← List.countP_eq_length_filter, ← List.countP_eq_length_filter, List.countP_map]
  rfl

theorem arrTraj_zero_eq (T : ℕ) (thr : ℚ) (s0 : LoopState) (i : ℕ) :
    arrTraj T thr s0 0 i = s0.boxes.getD i (fun _ => zeroBox) := rfl

theorem arrTraj_succ (T : ℕ) (thr : ℚ) (s0 : LoopState) (k i : ℕ) :
    arrTraj T thr s0 (k + 1) i =
      body_image T thr (innerCounts T thr s0 k) (s0.idx + k) (arrTraj T thr s0 k i) := rfl

theorem arrTraj_zero_persists (T : ℕ) (thr : ℚ) (s0 : LoopState) (i p : ℕ)
    (h : arrTraj T thr s0 0 i p = zeroBox) (k : ℕ) :
    arrTraj T thr s0 k i p = zeroBox := by
  induction k with
  | zero => exact h
  | succ k ih => exact body_image_zero T thr _ _ _ p ih

theorem arrTraj_cases (T : ℕ) (thr : ℚ) (s0 : LoopState) (i p k : ℕ) :
    arrTraj T thr s0 k i p = arrTraj T thr s0 0 i p ∨
      arrTraj T thr s0 k i p = zeroBox := by
  induction k with
  | zero => exact Or.inl rfl
  | succ k ih =>
    rcases body_image_cases T thr (innerCounts T thr s0 k) (s0.idx + k)
      (arrTraj T thr s0 k i) p with h1 | h1
    · rw [arrTraj_succ, h1]
      exact ih
    · exact Or.inr h1

/-- Tiles that have already been processed are never rewritten. -/
theorem arrTraj_stable (T : ℕ) (thr : ℚ) (s0 : LoopState) (hidx : s0.idx = 0)
    (i t p : ℕ) (hp : p < (t + 1) * T) {k : ℕ} (hk : t + 1 ≤ k) :
    arrTraj T thr s0 k i p = arrTraj T thr s0 (t + 1) i p := by
  induction k with
  | zero => omega
  | succ k ih =>
    rcases Nat.lt_or_ge (t + 1) (k + 1) with hlt | hge
    · have hk' : t + 1 ≤ k := by omega
      rw [arrTraj, body_image_outside, ih hk']
      rw [hidx, zero_add]
      intro hcon
      have hle : (t + 1) * T ≤ k * T := Nat.mul_le_mul_right T hk'
      omega
    · rw [Nat.le_antisymm hk hge]

/-- Tiles that have not been processed yet hold their initial values. -/
theorem arrTraj_untouched (T : ℕ) (thr : ℚ) (s0 : LoopState) (hidx : s0.idx = 0)
    (i p : ℕ) (k : ℕ) (hp : k * T ≤ p) :
    arrTraj T thr s0 k i p = arrTraj T thr s0 0 i p := by
  induction k with
  | zero => rfl
  | succ k ih =>
    have hkT : k * T ≤ p := le_trans (Nat.mul_le_mul_right T (Nat.le_succ k)) hp
    rw [arrTraj_succ, body_image_outside, ih hkT]
    rw [hidx, zero_add]
    intro hcon
    have : (k + 1) * T ≤ p := hp
    omega

/-- After k iterations the output size of an image is the number of kept
boxes in the processed region [0, k*T). -/
theorem sum_counts_eq_countIn (T : ℕ) (thr : ℚ) (s0 : LoopState) (hidx : s0.idx = 0)
    (i : ℕ) (k : ℕ) :
    (∑ j ∈ Finset.range k,
      count_image T thr (innerCounts T thr s0 j) (s0.idx + j) (arrTraj T thr s0 j i)) =
      countIn (k * T) (arrTraj T thr s0 k i) := by
  induction k with
  | zero => simp [countIn]
  | succ k ih =>
    rw [Finset.sum_range_succ, ih, Nat.succ_mul, countIn_add]
    congr 1
    · refine countIn_congr _ fun p hp => ?_
      rw [arrTraj_succ, body_image_outside]
      rw [hidx, zero_add]
      intro hcon
      omega
    · rw [count_image, countKept]
      congr 1
      apply List.filter_congr
      intro r hr
      rw [arrTraj_succ, hidx, zero_add, body_image_inside T thr _ k _ r (List.mem_range.mp hr)]

/-! ### Pairwise iou bounds between surviving boxes -/

theorem anyPos_ne_zeroBox {b : Box} (h : anyPos b = true) : b ≠ zeroBox := by
  intro hb
  rw [hb, anyPos_zeroBox] at h
  cases h

/-- A nonzero entry of the processed slice was not suppressed and equals the
original array value, which passed cross-suppression against every earlier
tile. -/
theorem imageSlice2_kept (T : ℕ) (thr : ℚ) (n idx : ℕ) (arr : ℕ → Box) {a : ℕ}
    (ha : a < T) (h : imageSlice2 T thr n idx arr a ≠ zeroBox) :
    suppressed_box T ((self_step_mat T thr)^[n]
        (tile_self_iou T thr (imageSlice1 T thr idx arr))) a = false ∧
      imageSlice2 T thr n idx arr a = imageSlice1 T thr idx arr a ∧
      imageSlice1 T thr idx arr a = arr (idx * T + a) ∧
      ∀ j < idx, crossCond T thr arr j (arr (idx * T + a)) := by
  have hsupp : suppressed_box T ((self_step_mat T thr)^[n]
      (tile_self_iou T thr (imageSlice1 T thr idx arr))) a = false := by
    rcases Bool.eq_false_or_eq_true (suppressed_box T ((self_step_mat T thr)^[n]
      (tile_self_iou T thr (imageSlice1 T thr idx arr))) a) with hb | hb
    · exact absurd (by rw [imageSlice2, hb, boolQ_true, sub_self, scaleBox_zero]) h
    · exact hb
  have heq2 : imageSlice2 T thr n idx arr a = imageSlice1 T thr idx arr a := by
    rw [imageSlice2, hsupp, boolQ_false, sub_zero, scaleBox_one]
  have h1 : imageSlice1 T thr idx arr a ≠ zeroBox := fun hz => h (heq2.trans hz)
  rcases cross_suppression_cases T thr arr idx (tileSlice T idx arr) a with ⟨heq, hcond⟩ | hz
  swap
  · exact absurd hz h1
  have htile : tileSlice T idx arr a = arr (idx * T + a) := by
    rw [tileSlice, if_pos ha]
  refine ⟨hsupp, heq2, ?_, ?_⟩
  · show cross_suppression T thr arr idx (tileSlice T idx arr) a = _
    rw [heq, htile]
  · intro j hj
    have := hcond j hj
    rwa [htile] at this

/-- Two surviving boxes of the same processed tile have iou below the
threshold. -/
theorem tile_pair_lt (T : ℕ) (thr : ℚ) (hT : 0 < T) (hthr : 0 < thr)
    (n idx : ℕ) (arr : ℕ → Box) {a b : ℕ} (hab : a < b) (hb : b < T)
    (hka : imageSlice2 T thr n idx arr a ≠ zeroBox)
    (hkb : imageSlice2 T thr n idx arr b ≠ zeroBox) :
    bbox_overlap (imageSlice2 T thr n idx arr a) (imageSlice2 T thr n idx arr b) < thr := by
  have ha : a < T := hab.trans hb
  obtain ⟨hsa, hea, -, -⟩ := imageSlice2_kept T thr n idx arr ha hka
  obtain ⟨hsb, heb, -, -⟩ := imageSlice2_kept T thr n idx arr hb hkb
  rw [hea, heb]
  by_contra hcon
  push_neg at hcon
  have hM0 : thr ≤ tile_self_iou T thr (imageSlice1 T thr idx arr) a b := by
    rw [tile_self_iou, if_pos ⟨ha, hb⟩, decide_eq_true hab, decide_eq_true hcon]
    simpa using hcon
  rcases self_pair T thr hT hthr _ (zeroExt_tile_self_iou T thr _)
    (entryShape_tile_self_iou T thr (le_of_lt hthr) _) ha hb hM0 n with hs | hs
  · rw [hsa] at hs; cases hs
  · rw [hsb] at hs; cases hs

/-- A surviving box of tile u has iou below the threshold with every box of
any earlier tile, as stored in the array when tile u was processed. -/
theorem cross_pair_lt (T : ℕ) (thr : ℚ) (n u : ℕ) (arrU : ℕ → Box) {t : ℕ}
    (ht : t < u) {a b : ℕ} (ha : a < T) (hb : b < T)
    (hkb : imageSlice2 T thr n u arrU b ≠ zeroBox) :
    bbox_overlap (arrU (t * T + a)) (imageSlice2 T thr n u arrU b) < thr := by
  obtain ⟨-, heb, hval, hcond⟩ := imageSlice2_kept T thr n u arrU hb hkb
  rw [heb, hval]
  exact hcond t ht a ha

/-- Any two kept boxes inside the processed region of the final array have
iou below the threshold. -/
theorem traj_kept_pair (T : ℕ) (thr : ℚ) (hT : 0 < T) (hthr : 0 < thr)
    (s0 : LoopState) (hidx : s0.idx = 0) (i kf : ℕ) {p q : ℕ} (hpq : p < q)
    (hq : q < kf * T)
    (hkp : anyPos (arrTraj T thr s0 kf i p) = true)
    (hkq : anyPos (arrTraj T thr s0 kf i q) = true) :
    bbox_overlap (arrTraj T thr s0 kf i p) (arrTraj T thr s0 kf i q) < thr := by
  set t := p / T with hdt
  set u := q / T with hdu
  set a := p % T with hma
  set b := q % T with hmb
  have hp' : p = t * T + a := by rw [hdt, hma, Nat.div_add_mod']
  have hq' : q = u * T + b := by rw [hdu, hmb, Nat.div_add_mod']
  have haT : a < T := Nat.mod_lt _ hT
  have hbT : b < T := Nat.mod_lt _ hT
  have hu : u < kf := Nat.div_lt_of_lt_mul (by rwa [mul_comm] at hq)
  have htu : t ≤ u := Nat.div_le_div_right (le_of_lt hpq)
  have ht1 : t + 1 ≤ kf := by omega
  have hu1 : u + 1 ≤ kf := by omega
  have hpb : p < (t + 1) * T := by rw [Nat.succ_mul]; omega
  have hqb : q < (u + 1) * T := by rw [Nat.succ_mul]; omega
  -- final value of q through its processing step
  have hqfin : arrTraj T thr s0 kf i q =
      imageSlice2 T thr (innerCounts T thr s0 u) u (arrTraj T thr s0 u i) b := by
    rw [arrTraj_stable T thr s0 hidx i u q hqb hu1, arrTraj_succ, hidx, zero_add,
      hq', body_image_inside T thr _ u _ b hbT]
  have hpfin : arrTraj T thr s0 kf i p =
      imageSlice2 T thr (innerCounts T thr s0 t) t (arrTraj T thr s0 t i) a := by
    rw [arrTraj_stable T thr s0 hidx i t p hpb ht1, arrTraj_succ, hidx, zero_add,
      hp', body_image_inside T thr _ t _ a haT]
  rcases Nat.lt_or_ge t u with hlt | hge
  · -- different tiles: use the cross-suppression pass of tile u
    have hcross := cross_pair_lt T thr (innerCounts T thr s0 u) u
      (arrTraj T thr s0 u i) hlt haT hbT
      (fun hz => by rw [hqfin] at hkq; exact anyPos_ne_zeroBox hkq hz)
    -- the array seen by tile u holds the final value of position p
    have hup : arrTraj T thr s0 u i (t * T + a) = arrTraj T thr s0 kf i p := by
      rw [← hp', arrTraj_stable T thr s0 hidx i t p hpb (by omega),
        arrTraj_stable T thr s0 hidx i t p hpb ht1]
    rw [← hqfin, hup] at hcross
    exact hcross
  · -- same tile
    have hteq : t = u := le_antisymm htu hge
    have hab : a < b := by
      rw [hteq] at hp'
      omega
    have := tile_pair_lt T thr hT hthr (innerCounts T thr s0 u) u
      (arrTraj T thr s0 u i) hab hbT
      (fun hz => by
        rw [hteq] at hpfin
        rw [hpfin] at hkp
        exact anyPos_ne_zeroBox hkp hz)
      (fun hz => by rw [hqfin] at hkq; exact anyPos_ne_zeroBox hkq hz)
    rw [← hqfin] at this
    rw [hteq] at hpfin
    rw [← hpfin] at this
    exact this

/-! ## The recovery step: sorting the kept-position weights -/

/-- Positions of kept boxes, in increasing order. -/
def keptList (P : ℕ) (kept : ℕ → Bool) : List ℕ := (List.range P).filter kept

/-- The index list the recovery step computes from the kept mask (weights,
top_k, subtraction from P, clipping at num_boxes - 1). -/
def recIdx (P N m : ℕ) (kept : ℕ → Bool) : List ℤ :=
  (topKVals m ((List.range P).map fun p => boolZ (kept p) * ((P : ℤ) - (p : ℤ)))).map
    fun v => min ((P : ℤ) - v) ((N : ℤ) - 1)

theorem keptList_mem_lt (P : ℕ) (kept : ℕ → Bool) {p : ℕ} (hp : p ∈ keptList P kept) :
    p < P := by
  rw [keptList, List.mem_filter, List.mem_range] at hp
  exact hp.1

theorem keptList_mem_kept (P : ℕ) (kept : ℕ → Bool) {p : ℕ}
    (hp : p ∈ keptList P kept) : kept p = true := by
  rw [keptList, List.mem_filter] at hp
  exact hp.2

theorem keptList_pairwise (P : ℕ) (kept : ℕ → Bool) :
    (keptList P kept).Pairwise (· < ·) :=
  (List.pairwise_lt_range P).filter kept

theorem keptList_length_le (P : ℕ) (kept : ℕ → Bool) :
    (keptList P kept).length ≤ P := by
  calc (keptList P kept).length ≤ (List.range P).length := List.length_filter_le _ _
  _ = P := List.length_range P

theorem weights_perm (P : ℕ) (kept : ℕ → Bool) (l : List ℕ) :
    List.Perm (l.map fun p => boolZ (kept p) * ((P : ℤ) - (p : ℤ)))
      (((l.filter kept).map fun (p : ℕ) => ((P : ℤ) - (p : ℤ))) ++
        ((l.filter fun p => !kept p).map fun _ => (0 : ℤ))) := by
  induction l with
  | nil => rfl
  | cons p t ih =>
    rcases Bool.eq_false_or_eq_true (kept p) with hk | hk
    · have hhead : boolZ (kept p) * ((P : ℤ) - (p : ℤ)) = (P : ℤ) - (p : ℤ) := by
        rw [hk, boolZ, if_pos rfl, one_mul]
      rw [List.map_cons, hhead, List.filter_cons_of_pos (by rw [hk]),
        List.filter_cons_of_neg (by rw [hk]; simp), List.map_cons, List.cons_append]
      exact ih.cons _
    · have hhead : boolZ (kept p) * ((P : ℤ) - (p : ℤ)) = 0 := by
        rw [hk, boolZ, if_neg Bool.false_ne_true, zero_mul]
      rw [List.map_cons, hhead, List.filter_cons_of_neg (by rw [hk]; simp),
        List.filter_cons_of_pos (by rw [hk]; rfl), List.map_cons]
      exact (ih.cons 0).trans List.perm_middle.symm

theorem weights_target_sorted (P : ℕ) (kept : ℕ → Bool) (nz : ℕ) :
    List.Sorted geZ (((keptList P kept).map fun (p : ℕ) => ((P : ℤ) - (p : ℤ))) ++
      List.replicate nz 0) := by
  rw [List.Sorted, List.pairwise_append]
  refine ⟨?_, ?_, ?_⟩
  · rw [List.pairwise_map]
    refine (keptList_pairwise P kept).imp ?_
    intro a b hab
    rw [geZ]
    omega
  · rw [List.pairwise_replicate]
    exact Or.inr (le_refl (0 : ℤ))
  · intro x hx y hy
    rcases List.mem_map.mp hx with ⟨p, hp, rfl⟩
    have hplt := keptList_mem_lt P kept hp
    have hy0 : y = 0 := List.eq_of_mem_replicate hy
    rw [hy0, geZ]
    omega

/-- The descending sort of the weight vector lists the kept positions by
increasing position (as weights P - p), followed by zeros. -/
theorem sort_weights_eq (P : ℕ) (kept : ℕ → Bool) :
    List.insertionSort geZ
        ((List.range P).map fun p => boolZ (kept p) * ((P : ℤ) - (p : ℤ))) =
      ((keptList P kept).map fun (p : ℕ) => ((P : ℤ) - (p : ℤ))) ++
        List.replicate (P - (keptList P kept).length) 0 := by
  have hzlen : ((List.range P).filter fun p => !kept p).length =
      P - (keptList P kept).length := by
    have := (List.filter_append_perm kept (List.range P)).length_eq
    rw [List.length_append, List.length_range] at this
    rw [keptList]
    omega
  have hperm : List.Perm (List.insertionSort geZ
      ((List.range P).map fun p => boolZ (kept p) * ((P : ℤ) - (p : ℤ))))
      (((keptList P kept).map fun (p : ℕ) => ((P : ℤ) - (p : ℤ))) ++
        List.replicate (P - (keptList P kept).length) 0) := by
    refine (List.perm_insertionSort geZ _).trans ?_
    refine (weights_perm P kept (List.range P)).trans ?_
    rw [List.map_const', hzlen, keptList]
  exact List.eq_of_perm_of_sorted hperm (List.sorted_insertionSort geZ _)
    (weights_target_sorted P kept _)

/-- Entries of the recovered index list: the q-th smallest kept position for
q below the number of kept boxes, and the clip value N - 1 beyond it. -/
theorem recIdx_getElem (P N m : ℕ) (kept : ℕ → Bool) (hNP : N ≤ P) (hmP : m ≤ P)
    (hkept : ∀ p, kept p = true → p < N) (q : ℕ) (hq : q < m) :
    (recIdx P N m kept)[q]? =
      some (if h : q < (keptList P kept).length
        then (((keptList P kept)[q] : ℕ) : ℤ) else (N : ℤ) - 1) := by
  rw [recIdx, topKVals, sort_weights_eq, List.getElem?_map, List.getElem?_take,
    if_pos hq]
  set K := (keptList P kept).length with hK
  split
  · next h =>
    rw [List.getElem?_append, List.length_map, if_pos h]
    rw [List.getElem?_map, List.getElem?_eq_getElem h]
    have hmem : (keptList P kept)[q] ∈ keptList P kept := List.getElem_mem h
    have hp := keptList_mem_lt P kept hmem
    have hpN := hkept _ (keptList_mem_kept P kept hmem)
    simp only [Option.map_some', Option.some_inj]
    rw [min_eq_left (by omega)]
    omega
  · next h =>
    rw [List.getElem?_append, List.length_map, if_neg h]
    rw [List.getElem?_replicate]
    have hKP : K ≤ P := keptList_length_le P kept
    rw [if_pos (by omega)]
    rw [Option.map_some', Option.some_inj, sub_zero]
    rw [min_eq_right (by omega)]

theorem recIdx_length (P N m : ℕ) (kept : ℕ → Bool) (hmP : m ≤ P) :
    (recIdx P N m kept).length = m := by
  rw [recIdx, List.length_map, topKVals, List.length_take,
    (List.perm_insertionSort geZ _).length_eq, List.length_map, List.length_range]
  omega

/-! ### The sorting permutation -/

theorem sorted_scores_indices_perm (s : List ℚ) :
    List.Perm (sorted_scores_indices s) (List.range s.length) :=
  (List.reverse_perm _).trans (List.perm_insertionSort _ _)

theorem sorted_scores_indices_length (s : List ℚ) :
    (sorted_scores_indices s).length = s.length :=
  (sorted_scores_indices_perm s).length_eq.trans (List.length_range _)

theorem sorted_scores_indices_nodup (s : List ℚ) :
    (sorted_scores_indices s).Nodup :=
  (sorted_scores_indices_perm s).nodup_iff.mpr (List.nodup_range _)

theorem sorted_scores_indices_mem (s : List ℚ) {x : ℕ} :
    x ∈ sorted_scores_indices s ↔ x < s.length := by
  rw [(sorted_scores_indices_perm s).mem_iff, List.mem_range]

/-- The descending ranking with its tie-break: later output positions hold
either a strictly smaller score, or an equal score at a strictly smaller
original index. -/
theorem sorted_scores_indices_pairwise (s : List ℚ) :
    (sorted_scores_indices s).Pairwise
      (fun i j => s.getD j 0 < s.getD i 0 ∨ (s.getD i 0 = s.getD j 0 ∧ j < i)) := by
  have hsorted : (argsortAsc s).Pairwise (rankLE s) :=
    List.sorted_insertionSort (rankLE s) _
  have hnodup : (argsortAsc s).Nodup :=
    ((List.perm_insertionSort _ _).nodup_iff).mpr (List.nodup_range _)
  have hrev : (sorted_scores_indices s).Pairwise fun i j => rankLE s j i ∧ j ≠ i := by
    rw [sorted_scores_indices, List.pairwise_reverse]
    exact (hsorted.and hnodup).imp fun h => ⟨h.1, h.2⟩
  refine hrev.imp ?_
  rintro i j ⟨hle, hne⟩
  rcases hle with h1 | ⟨h1, h2⟩
  · exact Or.inl h1
  · exact Or.inr ⟨h1.symm, lt_of_le_of_ne h2 hne⟩

/-! ### Flattening and gathering -/

theorem flatten_getD {α : Type} (Ls : List (List α)) (L : ℕ)
    (hlen : ∀ l ∈ Ls, l.length = L) (i q : ℕ) (hq : q < L) (d : α) :
    Ls.flatten.getD (i * L + q) d = (Ls.getD i []).getD q d := by
  induction Ls generalizing i with
  | nil =>
    cases i <;> simp [List.getD]
  | cons l t ih =>
    have hl : l.length = L := hlen l (List.mem_cons_self _ _)
    cases i with
    | zero =>
      rw [List.flatten_cons, Nat.zero_mul, Nat.zero_add]
      rw [List.getD_eq_getElem?_getD, List.getElem?_append, if_pos (by omega),
        ← List.getD_eq_getElem?_getD]
      rfl
    | succ i =>
      rw [List.flatten_cons]
      have hidx : (i + 1) * L + q = l.length + (i * L + q) := by
        rw [hl, Nat.succ_mul]
        omega
      rw [hidx, List.getD_eq_getElem?_getD, List.getElem?_append,
        if_neg (by omega), Nat.add_sub_cancel_left, ← List.getD_eq_getElem?_getD,
        ih (fun l hm => hlen l (List.mem_cons_of_mem _ hm)) i]
      rfl

theorem flatten_length_uniform {α : Type} (Ls : List (List α)) (L : ℕ)
    (hlen : ∀ l ∈ Ls, l.length = L) : Ls.flatten.length = Ls.length * L := by
  induction Ls with
  | nil => simp
  | cons l t ih =>
    rw [List.flatten_cons, List.length_append, List.length_cons,
      ih fun x hx => hlen x (List.mem_cons_of_mem _ hx),
      hlen l (List.mem_cons_self _ _), Nat.succ_mul]
    omega

theorem mapM_eq_some {α β : Type} (f : α → Option β) (g : α → β) (l : List α)
    (h : ∀ x ∈ l, f x = some (g x)) : l.mapM f = some (l.map g) := by
  induction l with
  | nil => rfl
  | cons x t ih =>
    rw [List.mapM_cons, h x (List.mem_cons_self _ _),
      ih fun y hy => h y (List.mem_cons_of_mem _ hy)]
    rfl

/-! ## Named components of a pipeline run -/

/-- num_boxes, read off the static shape (the first image). -/
def nmsN (boxesB : List (List Box)) : ℕ := (boxesB.headD []).length

/-- The padded length: the least multiple of tile_size of at least
max(num_boxes, max_output_size). -/
def nmsP (N m T : ℕ) : ℕ := ((max N m + T - 1) / T) * T

/-- num_iterations of the outer loop. -/
def nmsNumIters (N m T : ℕ) : ℕ := nmsP N m T / T

/-- The per-image descending sort permutation of the filtered scores. -/
def nmsPerm (sthr : ℚ) (ss : List ℚ) : List ℕ :=
  sorted_scores_indices (ss.map fun v => v * boolQ (decide (sthr < v)))

/-- The per-image padded, sorted, filtered box array. -/
def nmsPaddedArr (sthr : ℚ) (bs : List Box) (ss : List ℚ) : ℕ → Box :=
  fun p => ((nmsPerm sthr ss).map fun j =>
    (List.zipWith (fun b v => scaleBox (boolQ (decide (sthr < v))) b) bs ss).getD
      j zeroBox).getD p zeroBox

/-- The initial state of the outer loop. -/
def nmsInit (boxesB : List (List Box)) (scoresB : List (List ℚ)) (sthr : ℚ) :
    LoopState :=
  { boxes := List.zipWith (fun bs ss => nmsPaddedArr sthr bs ss) boxesB scoresB
    outputs := List.replicate boxesB.length 0
    idx := 0 }

/-- The final state of the outer loop. -/
def nmsFin (boxesB : List (List Box)) (scoresB : List (List ℚ)) (m : ℕ)
    (thr sthr : ℚ) (T : ℕ) : LoopState :=
  suppression_loop T thr m (nmsNumIters (nmsN boxesB) m T)
    (nmsNumIters (nmsN boxesB) m T) (nmsInit boxesB scoresB sthr)

/-- The number of tiles the outer loop processed. -/
def nmsKf (boxesB : List (List Box)) (scoresB : List (List ℚ)) (m : ℕ)
    (thr sthr : ℚ) (T : ℕ) : ℕ :=
  (nmsFin boxesB scoresB m thr sthr T).idx

/-- The final box array of image i. -/
def nmsArrF (boxesB : List (List Box)) (scoresB : List (List ℚ)) (m : ℕ)
    (thr sthr : ℚ) (T : ℕ) (i : ℕ) : ℕ → Box :=
  arrTraj T thr (nmsInit boxesB scoresB sthr) (nmsKf boxesB scoresB m thr sthr T) i

/-- The final output size of image i (the kept count of the processed
region). -/
def nmsOut (boxesB : List (List Box)) (scoresB : List (List ℚ)) (m : ℕ)
    (thr sthr : ℚ) (T : ℕ) (i : ℕ) : ℕ :=
  countIn (nmsKf boxesB scoresB m thr sthr T * T)
    (nmsArrF boxesB scoresB m thr sthr T i)

/-- num_valid of image i. -/
def nmsNv (boxesB : List (List Box)) (scoresB : List (List ℚ)) (m : ℕ)
    (thr sthr : ℚ) (T : ℕ) (i : ℕ) : ℕ :=
  min (nmsOut boxesB scoresB m thr sthr T i) m

/-- The kept (selected, in sorted space) positions of image i, ascending. -/
def nmsSel (boxesB : List (List Box)) (scoresB : List (List ℚ)) (m : ℕ)
    (thr sthr : ℚ) (T : ℕ) (i : ℕ) : List ℕ :=
  keptList (nmsP (nmsN boxesB) m T)
    (fun p => anyPos (nmsArrF boxesB scoresB m thr sthr T i p))

theorem zipWith_map_zipWith {α β γ δ ε : Type} (f : γ → δ → ε) (g : β → γ)
    (h : α → β → δ) (l1 : List α) (l2 : List β) :
    List.zipWith f (l2.map g) (List.zipWith h l1 l2) =
      List.zipWith (fun a b => f (g b) (h a b)) l1 l2 := by
  induction l1 generalizing l2 with
  | nil => simp
  | cons a t ih =>
    cases l2 with
    | nil => simp
    | cons b u => simp only [List.map_cons, List.zipWith_cons_cons, ih]

/-- The padded box list built by the pipeline, image by image. -/
theorem pipeline_padded_eq (boxesB : List (List Box)) (scoresB : List (List ℚ))
    (sthr : ℚ) :
    (List.zipWith (fun pm bs => pm.map fun i => bs.getD i zeroBox)
      ((scoresB.map fun ss => ss.map fun v => v * boolQ (decide (sthr < v))).map
        sorted_scores_indices)
      (List.zipWith (fun bs ss => List.zipWith (fun b v =>
        scaleBox (boolQ (decide (sthr < v))) b) bs ss) boxesB scoresB)).map
      (fun l p => l.getD p zeroBox) =
      (nmsInit boxesB scoresB sthr).boxes := by
  rw [List.map_map, zipWith_map_zipWith, List.map_zipWith]
  rfl

/-! ### Elementary facts about the padded length and the initial state -/

theorem nmsP_ge_max (N m T : ℕ) (hT : T ≠ 0) : max N m ≤ nmsP N m T := by
  rw [nmsP, Nat.mul_comm]
  set q := (max N m + T - 1) / T with hq
  have h1 := Nat.div_add_mod (max N m + T - 1) T
  have h2 : (max N m + T - 1) % T < T := Nat.mod_lt _ (Nat.pos_of_ne_zero hT)
  set A := T * q with hA
  set r := (max N m + T - 1) % T with hr
  set M := max N m with hM
  omega

theorem nmsP_ge_left (N m T : ℕ) (hT : T ≠ 0) : N ≤ nmsP N m T :=
  le_trans (Nat.le_max_left N m) (nmsP_ge_max N m T hT)

theorem nmsP_ge_right (N m T : ℕ) (hT : T ≠ 0) : m ≤ nmsP N m T :=
  le_trans (Nat.le_max_right N m) (nmsP_ge_max N m T hT)

theorem nmsNumIters_mul (N m T : ℕ) (hT : T ≠ 0) :
    nmsNumIters N m T * T = nmsP N m T := by
  rw [nmsNumIters, nmsP, Nat.mul_div_cancel _ (Nat.pos_of_ne_zero hT)]

theorem nmsInit_idx (boxesB : List (List Box)) (scoresB : List (List ℚ))
    (sthr : ℚ) : (nmsInit boxesB scoresB sthr).idx = 0 := rfl

theorem nmsInit_outputs (boxesB : List (List Box)) (scoresB : List (List ℚ))
    (sthr : ℚ) :
    (nmsInit boxesB scoresB sthr).outputs = List.replicate boxesB.length 0 := rfl

theorem nmsInit_boxes_length (boxesB : List (List Box)) (scoresB : List (List ℚ))
    (sthr : ℚ) (hlen : scoresB.length = boxesB.length) :
    (nmsInit boxesB scoresB sthr).boxes.length = boxesB.length := by
  rw [nmsInit, List.length_zipWith, hlen, min_self]

theorem nmsInit_boxes_getElem (boxesB : List (List Box)) (scoresB : List (List ℚ))
    (sthr : ℚ) (hlen : scoresB.length = boxesB.length) {i : ℕ}
    (hi : i < boxesB.length) :
    (nmsInit boxesB scoresB sthr).boxes[i]? =
      some (nmsPaddedArr sthr (boxesB.getD i []) (scoresB.getD i [])) := by
  have hi' : i < scoresB.length := hlen ▸ hi
  exact getElem?_zipWith_some
    (by rw [List.getElem?_eq_getElem hi, List.getD_eq_getElem boxesB _ hi])
    (by rw [List.getElem?_eq_getElem hi', List.getD_eq_getElem scoresB _ hi'])

theorem nmsPaddedArr_pad (sthr : ℚ) (bs : List Box) (ss : List ℚ) {p : ℕ}
    (hp : ss.length ≤ p) : nmsPaddedArr sthr bs ss p = zeroBox := by
  rw [nmsPaddedArr]
  apply List.getD_eq_default
  rw [List.length_map, nmsPerm, sorted_scores_indices_length, List.length_map]
  exact hp

theorem nmsPaddedArr_in (sthr : ℚ) (bs : List Box) (ss : List ℚ) {N p : ℕ}
    (hbs : bs.length = N) (hss : ss.length = N) (hp : p < N) :
    nmsPaddedArr sthr bs ss p =
      scaleBox (boolQ (decide (sthr < ss.getD ((nmsPerm sthr ss).getD p 0) 0)))
        (bs.getD ((nmsPerm sthr ss).getD p 0) zeroBox) := by
  have hplen : p < (nmsPerm sthr ss).length := by
    rw [nmsPerm, sorted_scores_indices_length, List.length_map, hss]; exact hp
  have he : (nmsPerm sthr ss).getD p 0 = (nmsPerm sthr ss)[p] :=
    List.getD_eq_getElem _ _ hplen
  have heN : (nmsPerm sthr ss)[p] < N := by
    have := (sorted_scores_indices_mem
      (ss.map fun v => v * boolQ (decide (sthr < v)))).mp
      (List.getElem_mem hplen)
    rwa [List.length_map, hss] at this
  rw [nmsPaddedArr, List.getD_eq_getElem?_getD, List.getElem?_map,
    List.getElem?_eq_getElem hplen]
  rw [Option.map_some', Option.getD_some, he]
  rw [List.getD_eq_getElem?_getD]
  rw [getElem?_zipWith_some
    (List.getElem?_eq_getElem (h := by omega) (l := bs))
    (List.getElem?_eq_getElem (h := by omega) (l := ss))]
  rw [Option.getD_some,
    List.getD_eq_getElem bs _ (by omega), List.getD_eq_getElem ss _ (by omega)]

/-! ### The outer loop, in terms of the named run components -/

theorem nmsKf_spec (boxesB : List (List Box)) (scoresB : List (List ℚ)) (m : ℕ)
    (thr sthr : ℚ) (T : ℕ) :
    nmsFin boxesB scoresB m thr sthr T =
      (suppression_loop_body T thr)^[nmsKf boxesB scoresB m thr sthr T]
        (nmsInit boxesB scoresB sthr) ∧
    nmsKf boxesB scoresB m thr sthr T ≤ nmsNumIters (nmsN boxesB) m T ∧
    (∀ j < nmsKf boxesB scoresB m thr sthr T,
      loop_cond m (nmsNumIters (nmsN boxesB) m T)
        ((suppression_loop_body T thr)^[j] (nmsInit boxesB scoresB sthr)) = true) ∧
    (nmsKf boxesB scoresB m thr sthr T = nmsNumIters (nmsN boxesB) m T ∨
      loop_cond m (nmsNumIters (nmsN boxesB) m T)
        ((suppression_loop_body T thr)^[nmsKf boxesB scoresB m thr sthr T]
          (nmsInit boxesB scoresB sthr)) = false) := by
  obtain ⟨k, hk, heq, hall, hlast⟩ := suppression_loop_eq_iterate T thr m
    (nmsNumIters (nmsN boxesB) m T) (nmsNumIters (nmsN boxesB) m T)
    (nmsInit boxesB scoresB sthr)
  have hkf : nmsKf boxesB scoresB m thr sthr T = k := by
    rw [nmsKf, nmsFin, heq, iterate_body_idx, nmsInit_idx, Nat.zero_add]
  rw [nmsFin, heq, hkf]
  exact ⟨rfl, hk, hall, hlast⟩

theorem nmsFin_boxes (boxesB : List (List Box)) (scoresB : List (List ℚ)) (m : ℕ)
    (thr sthr : ℚ) (T : ℕ) (hlen : scoresB.length = boxesB.length) {i : ℕ}
    (hi : i < boxesB.length) :
    (nmsFin boxesB scoresB m thr sthr T).boxes[i]? =
      some (nmsArrF boxesB scoresB m thr sthr T i) := by
  rw [(nmsKf_spec boxesB scoresB m thr sthr T).1, nmsArrF]
  exact traj_boxes T thr _ _ i (by rw [nmsInit_boxes_length _ _ _ hlen]; exact hi)

theorem getD_replicate_zero (n i : ℕ) : (List.replicate n (0 : ℕ)).getD i 0 = 0 := by
  rw [List.getD_eq_getElem?_getD]
  rcases Nat.lt_or_ge i n with h | h
  · rw [List.getElem?_replicate, if_pos h]; rfl
  · rw [List.getElem?_eq_none (by rwa [List.length_replicate])]; rfl

theorem nmsFin_outputs (boxesB : List (List Box)) (scoresB : List (List ℚ)) (m : ℕ)
    (thr sthr : ℚ) (T : ℕ) (hlen : scoresB.length = boxesB.length) {i : ℕ}
    (hi : i < boxesB.length) :
    (nmsFin boxesB scoresB m thr sthr T).outputs[i]? =
      some (nmsOut boxesB scoresB m thr sthr T i) := by
  rw [(nmsKf_spec boxesB scoresB m thr sthr T).1]
  rw [traj_outputs T thr _ _ i
    (by rw [nmsInit_outputs, List.length_replicate, nmsInit_boxes_length _ _ _ hlen])
    (by rw [nmsInit_boxes_length _ _ _ hlen]; exact hi)]
  rw [nmsInit_outputs, getD_replicate_zero, Nat.zero_add,
    sum_counts_eq_countIn T thr _ (nmsInit_idx _ _ _) i]
  rw [nmsOut, nmsArrF]

theorem nmsFin_outputs_length (boxesB : List (List Box)) (scoresB : List (List ℚ))
    (m : ℕ) (thr sthr : ℚ) (T : ℕ) (hlen : scoresB.length = boxesB.length) :
    (nmsFin boxesB scoresB m thr sthr T).outputs.length = boxesB.length := by
  rw [(nmsKf_spec boxesB scoresB m thr sthr T).1]
  rw [iterate_body_outputs_length T thr _ _
    (by rw [nmsInit_outputs, List.length_replicate, nmsInit_boxes_length _ _ _ hlen])]
  rw [nmsInit_outputs, List.length_replicate]

theorem nmsFin_boxes_length (boxesB : List (List Box)) (scoresB : List (List ℚ))
    (m : ℕ) (thr sthr : ℚ) (T : ℕ) (hlen : scoresB.length = boxesB.length) :
    (nmsFin boxesB scoresB m thr sthr T).boxes.length = boxesB.length := by
  rw [(nmsKf_spec boxesB scoresB m thr sthr T).1, iterate_body_boxes_length,
    nmsInit_boxes_length _ _ _ hlen]

/-- A kept position of the final array of an in-range image indexes a real
(non-pad) sorted slot. -/
theorem nmsKept_lt (boxesB : List (List Box)) (scoresB : List (List ℚ)) (m : ℕ)
    (thr sthr : ℚ) (T : ℕ) (hlen : scoresB.length = boxesB.length)
    (hNs : ∀ ss ∈ scoresB, ss.length = nmsN boxesB) {i p : ℕ}
    (h : anyPos (nmsArrF boxesB scoresB m thr sthr T i p) = true) :
    p < nmsN boxesB := by
  by_contra hp
  have hz : arrTraj T thr (nmsInit boxesB scoresB sthr) 0 i p = zeroBox := by
    rw [arrTraj_zero_eq]
    rcases Nat.lt_or_ge i boxesB.length with hi | hi
    · have hig := nmsInit_boxes_getElem boxesB scoresB sthr hlen hi
      have hilen : i < (nmsInit boxesB scoresB sthr).boxes.length := by
        rw [nmsInit_boxes_length _ _ _ hlen]; exact hi
      have harr : (nmsInit boxesB scoresB sthr).boxes[i] =
          nmsPaddedArr sthr (boxesB.getD i []) (scoresB.getD i []) := by
        rw [List.getElem?_eq_getElem hilen, Option.some_inj] at hig
        exact hig
      have hmem : scoresB.getD i [] ∈ scoresB := by
        rw [List.getD_eq_getElem scoresB _ (hlen ▸ hi)]
        exact List.getElem_mem _
      have hss : (scoresB.getD i []).length = nmsN boxesB := hNs _ hmem
      rw [List.getD_eq_getElem _ _ hilen, harr,
        nmsPaddedArr_pad sthr _ _ (by rw [hss]; omega)]
    · rw [List.getD_eq_default _ _ (by rw [nmsInit_boxes_length _ _ _ hlen]; exact hi)]
  have := arrTraj_zero_persists T thr _ i p hz (nmsKf boxesB scoresB m thr sthr T)
  rw [nmsArrF] at h
  rw [this] at h
  simp [anyPos, zeroBox] at h

/-! ### Prefixes of the kept list -/

theorem countIn_mono (arr : ℕ → Box) {c c' : ℕ} (h : c ≤ c') :
    countIn c arr ≤ countIn c' arr := by
  have : c' = c + (c' - c) := by omega
  rw [this, countIn_add]
  omega

theorem keptList_length_eq_countIn (P : ℕ) (arr : ℕ → Box) :
    (keptList P fun p => anyPos (arr p)).length = countIn P arr := rfl

theorem keptList_prefix_getElem (c P : ℕ) (hcP : c ≤ P) (kept : ℕ → Bool) {q : ℕ}
    (hq : q < (keptList c kept).length) :
    (keptList P kept)[q]? = some ((keptList c kept)[q]) := by
  obtain ⟨d, rfl⟩ : ∃ d, P = c + d := ⟨P - c, by omega⟩
  have hsplit : keptList (c + d) kept =
      keptList c kept ++ ((List.range d).map fun r => c + r).filter kept := by
    rw [keptList, keptList, List.range_add, List.filter_append]
  rw [hsplit, List.getElem?_append, if_pos hq, List.getElem?_eq_getElem hq]

theorem keptList_prefix_lt (c P : ℕ) (hcP : c ≤ P) (kept : ℕ → Bool) {q : ℕ}
    (hq : q < (keptList c kept).length) :
    ∀ x, (keptList P kept)[q]? = some x → x < c := by
  intro x hx
  rw [keptList_prefix_getElem c P hcP kept hq, Option.some_inj] at hx
  rw [← hx]
  exact keptList_mem_lt c kept (List.getElem_mem hq)

/-! ### Remaining gather prerequisites -/

theorem getD_mem_of_lt {α : Type} (l : List α) (d : α) {i : ℕ} (h : i < l.length) :
    l.getD i d ∈ l := by
  rw [List.getD_eq_getElem _ _ h]
  exact List.getElem_mem _

theorem nmsPerm_length (sthr : ℚ) (ss : List ℚ) :
    (nmsPerm sthr ss).length = ss.length := by
  rw [nmsPerm, sorted_scores_indices_length, List.length_map]

theorem recIdx_mem_bounds (P N m : ℕ) (kept : ℕ → Bool) (hNP : N ≤ P)
    (hmP : m ≤ P) (hkept : ∀ p, kept p = true → p < N) (hN : 0 < N) :
    ∀ v ∈ recIdx P N m kept, 0 ≤ v ∧ v < N := by
  intro v hv
  obtain ⟨q, hq, hqv⟩ := List.mem_iff_getElem.mp hv
  have hqm : q < m := by
    have := hq
    rwa [recIdx_length P N m kept hmP] at this
  have := recIdx_getElem P N m kept hNP hmP hkept q hqm
  rw [List.getElem?_eq_getElem hq, hqv, Option.some_inj] at this
  split at this
  · next h =>
    have hmem : (keptList P kept)[q] ∈ keptList P kept := List.getElem_mem h
    have hlt := hkept _ (keptList_mem_kept P kept hmem)
    omega
  · omega

theorem nmsKf_mul_le (boxesB : List (List Box)) (scoresB : List (List ℚ)) (m : ℕ)
    (thr sthr : ℚ) (T : ℕ) (hT : T ≠ 0) :
    nmsKf boxesB scoresB m thr sthr T * T ≤ nmsP (nmsN boxesB) m T := by
  have hk := (nmsKf_spec boxesB scoresB m thr sthr T).2.1
  calc nmsKf boxesB scoresB m thr sthr T * T
      ≤ nmsNumIters (nmsN boxesB) m T * T := Nat.mul_le_mul_right T hk
    _ = nmsP (nmsN boxesB) m T := nmsNumIters_mul _ _ _ hT

theorem nmsNv_le_countIn_P (boxesB : List (List Box)) (scoresB : List (List ℚ))
    (m : ℕ) (thr sthr : ℚ) (T : ℕ) (hT : T ≠ 0) (i : ℕ) :
    nmsNv boxesB scoresB m thr sthr T i ≤
      countIn (nmsP (nmsN boxesB) m T) (nmsArrF boxesB scoresB m thr sthr T i) := by
  calc nmsNv boxesB scoresB m thr sthr T i
      ≤ nmsOut boxesB scoresB m thr sthr T i := min_le_left _ _
    _ ≤ countIn (nmsP (nmsN boxesB) m T) (nmsArrF boxesB scoresB m thr sthr T i) :=
      countIn_mono _ (nmsKf_mul_le boxesB scoresB m thr sthr T hT)

theorem nmsSel_length (boxesB : List (List Box)) (scoresB : List (List ℚ)) (m : ℕ)
    (thr sthr : ℚ) (T : ℕ) :
    (nmsSel boxesB scoresB m thr sthr T i).length =
      countIn (nmsP (nmsN boxesB) m T) (nmsArrF boxesB scoresB m thr sthr T i) := rfl

theorem getD_map_of_lt {α β : Type} (f : α → β) (l : List α) {n : ℕ}
    (h : n < l.length) (d : β) (d' : α) : (l.map f).getD n d = f (l.getD n d') := by
  rw [List.getD_eq_getElem _ _ (by rwa [List.length_map]), List.getElem_map,
    List.getD_eq_getElem _ _ h]

/-- The recovery tail of the pipeline, over abstract per-image permutation,
recovered-index and selection data: flattening, offsetting, gathering and
re-chunking recovers the permutation entry at the selected position. -/
theorem gather_rows_eq (B N m : ℕ) (permF : ℕ → List ℕ) (recF : ℕ → List ℤ)
    (nv : ℕ → ℕ) (pqF : ℕ → ℕ → ℕ)
    (hperm_len : ∀ k < B, (permF k).length = N)
    (hrec_len : ∀ k < B, (recF k).length = m)
    (hnv : ∀ i < B, nv i ≤ m)
    (hrec_val : ∀ i < B, ∀ q < nv i, (recF i)[q]? = some ((pqF i q : ℕ) : ℤ))
    (hpq_lt : ∀ i < B, ∀ q < nv i, pqF i q < N) :
    ((List.range B).map fun i => (List.range m).map fun q =>
      if q < ((List.range B).map nv).getD i 0
      then (((List.range B).map fun k =>
          (recF k).map fun y => y + (k : ℤ) * (N : ℤ)).flatten.map fun x =>
            (((List.range B).map permF).map fun pm =>
              pm.map Int.ofNat).flatten.getD x.toNat 0).getD (i * m + q) 0
      else 0) =
    (List.range B).map fun i => (List.range m).map fun q =>
      if q < nv i then (((permF i).getD (pqF i q) 0 : ℕ) : ℤ) else 0 := by
  apply List.map_congr_left
  intro i hi
  have hiB : i < B := List.mem_range.mp hi
  apply List.map_congr_left
  intro q hq
  have hqm : q < m := List.mem_range.mp hq
  rw [getD_range_map, if_pos hiB]
  by_cases hqnv : q < nv i
  · rw [if_pos hqnv, if_pos hqnv]
    have hrows : ∀ l ∈ (List.range B).map fun k =>
        (recF k).map fun y => y + (k : ℤ) * (N : ℤ), l.length = m := by
      intro l hl
      obtain ⟨k, hk, hkl⟩ := List.mem_map.mp hl
      rw [← hkl, List.length_map, hrec_len k (List.mem_range.mp hk)]
    have hflatlen2 : ((List.range B).map fun k =>
        (recF k).map fun y => y + (k : ℤ) * (N : ℤ)).flatten.length = B * m := by
      rw [flatten_length_uniform _ m hrows, List.length_map, List.length_range]
    have hidx_lt : i * m + q < B * m := by
      have h1 : (i + 1) * m ≤ B * m := Nat.mul_le_mul_right m hiB
      rw [Nat.succ_mul] at h1
      omega
    rw [getD_map_of_lt _ _ (by rw [hflatlen2]; exact hidx_lt) _ 0]
    try simp only []
    rw [flatten_getD _ m hrows i q hqm]
    rw [getD_range_map, if_pos hiB]
    try simp only []
    have hinner : (List.map (fun y => y + (i : ℤ) * (N : ℤ)) (recF i)).getD q 0 =
        ((pqF i q : ℕ) : ℤ) + (i : ℤ) * (N : ℤ) := by
      rw [List.getD_eq_getElem?_getD, List.getElem?_map, hrec_val i hiB q hqnv,
        Option.map_some', Option.getD_some]
    rw [hinner]
    have htoNat : (((pqF i q : ℕ) : ℤ) + (i : ℤ) * (N : ℤ)).toNat =
        i * N + pqF i q := by
      rw [← Nat.cast_mul, ← Nat.cast_add, Int.toNat_natCast, Nat.add_comm]
    rw [htoNat]
    have hSrows : ∀ l ∈ ((List.range B).map permF).map fun pm =>
        pm.map Int.ofNat, l.length = N := by
      intro l hl
      obtain ⟨pm, hpm, hpml⟩ := List.mem_map.mp hl
      obtain ⟨k, hk, hkpm⟩ := List.mem_map.mp hpm
      rw [← hpml, List.length_map, ← hkpm, hperm_len k (List.mem_range.mp hk)]
    rw [flatten_getD _ N hSrows i (pqF i q) (hpq_lt i hiB q hqnv)]
    have hrow : (((List.range B).map permF).map fun pm =>
        pm.map Int.ofNat).getD i [] = (permF i).map Int.ofNat := by
      rw [List.getD_eq_getElem?_getD, List.getElem?_map, List.getElem?_map,
        List.getElem?_range hiB, Option.map_some', Option.map_some',
        Option.getD_some]
    rw [hrow]
    have hpqlen : pqF i q < (permF i).length := by
      rw [hperm_len i hiB]
      exact hpq_lt i hiB q hqnv
    rw [getD_map_of_lt _ _ hpqlen _ 0]
    rfl
  · rw [if_neg hqnv, if_neg hqnv]

/-! ### The pipeline output, characterised image by image -/

/-- The value of `non_max_suppression` on shape-consistent input with a
positive box count: row i of the returned indices holds, below
`num_valid[i] = min(num surviving slots, max_output_size)`, the original
index (through the sort permutation of image i) of the q-th surviving sorted
slot, and zero elsewhere. -/
theorem nms_eq_run (boxesB : List (List Box)) (scoresB : List (List ℚ)) (m : ℕ)
    (thr sthr : ℚ) (T : ℕ) (hT : T ≠ 0) (hN : 0 < nmsN boxesB)
    (hlen : scoresB.length = boxesB.length)
    (hNs : ∀ ss ∈ scoresB, ss.length = nmsN boxesB) :
    non_max_suppression boxesB scoresB m thr sthr T =
      some ((List.range boxesB.length).map fun i =>
          (List.range m).map fun q =>
            if q < nmsNv boxesB scoresB m thr sthr T i then
              (((nmsPerm sthr (scoresB.getD i [])).getD
                ((nmsSel boxesB scoresB m thr sthr T i).getD q 0) 0 : ℕ) : ℤ)
            else 0,
        (List.range boxesB.length).map fun i =>
          nmsNv boxesB scoresB m thr sthr T i) := by
  have hkeptN : ∀ k p, anyPos (nmsArrF boxesB scoresB m thr sthr T k p) = true →
      p < nmsN boxesB := fun k p h => nmsKept_lt boxesB scoresB m thr sthr T hlen hNs h
  have hNP : nmsN boxesB ≤ nmsP (nmsN boxesB) m T := nmsP_ge_left _ _ _ hT
  have hmP : m ≤ nmsP (nmsN boxesB) m T := nmsP_ge_right _ _ _ hT
  simp only [non_max_suppression]
  rw [if_neg hT]
  rw [show (boxesB.headD []).length = nmsN boxesB from rfl]
  rw [show ((max (nmsN boxesB) m + T - 1) / T) * T = nmsP (nmsN boxesB) m T from rfl]
  rw [show nmsP (nmsN boxesB) m T / T = nmsNumIters (nmsN boxesB) m T from rfl]
  rw [pipeline_padded_eq]
  rw [show LoopState.mk (nmsInit boxesB scoresB sthr).boxes
    (List.replicate boxesB.length 0) 0 = nmsInit boxesB scoresB sthr from rfl]
  rw [show suppression_loop T thr m (nmsNumIters (nmsN boxesB) m T)
    (nmsNumIters (nmsN boxesB) m T) (nmsInit boxesB scoresB sthr) =
    nmsFin boxesB scoresB m thr sthr T from rfl]
  have h_perms : (scoresB.map fun ss => ss.map fun v =>
      v * boolQ (decide (sthr < v))).map sorted_scores_indices =
      (List.range boxesB.length).map fun i => nmsPerm sthr (scoresB.getD i []) := by
    apply List.ext_getElem?
    intro n
    rcases Nat.lt_or_ge n boxesB.length with hn | hn
    · have hn' : n < scoresB.length := hlen ▸ hn
      rw [List.getElem?_map, List.getElem?_map, List.getElem?_eq_getElem hn',
        Option.map_some', Option.map_some', List.getElem?_map,
        List.getElem?_range hn, Option.map_some', Option.some_inj,
        List.getD_eq_getElem scoresB _ hn']
      rfl
    · rw [List.getElem?_eq_none, List.getElem?_eq_none]
      · rw [List.length_map, List.length_range]; exact hn
      · rw [List.length_map, List.length_map]; omega
  rw [h_perms]
  have h_idxs : ((nmsFin boxesB scoresB m thr sthr T).boxes.map fun arr =>
      (List.range (nmsP (nmsN boxesB) m T)).map fun (p : ℕ) =>
        boolZ (anyPos (arr p)) * ((nmsP (nmsN boxesB) m T : ℤ) - (p : ℤ))).map
      (fun w => (topKVals m w).map fun v =>
        min ((nmsP (nmsN boxesB) m T : ℤ) - v) ((nmsN boxesB : ℤ) - 1)) =
      (List.range boxesB.length).map fun k =>
        recIdx (nmsP (nmsN boxesB) m T) (nmsN boxesB) m
          (fun p => anyPos (nmsArrF boxesB scoresB m thr sthr T k p)) := by
    apply List.ext_getElem?
    intro n
    rcases Nat.lt_or_ge n boxesB.length with hn | hn
    · rw [List.getElem?_map, List.getElem?_map,
        nmsFin_boxes boxesB scoresB m thr sthr T hlen hn, Option.map_some',
        Option.map_some', List.getElem?_map, List.getElem?_range hn,
        Option.map_some']
      rfl
    · rw [List.getElem?_eq_none, List.getElem?_eq_none]
      · rw [List.length_map, List.length_range]; exact hn
      · rw [List.length_map, List.length_map,
          nmsFin_boxes_length boxesB scoresB m thr sthr T hlen]
        exact hn
  rw [h_idxs, zipWith_self_map_right]
  have hflatlen : (((List.range boxesB.length).map fun i =>
      nmsPerm sthr (scoresB.getD i [])).map fun pm =>
        pm.map Int.ofNat).flatten.length = boxesB.length * nmsN boxesB := by
    rw [flatten_length_uniform _ (nmsN boxesB), List.length_map, List.length_map,
      List.length_range]
    intro l hl
    obtain ⟨pm, hpm, hpml⟩ := List.mem_map.mp hl
    obtain ⟨k, hk, hkpm⟩ := List.mem_map.mp hpm
    rw [← hpml, List.length_map, ← hkpm, nmsPerm_length]
    exact hNs _ (getD_mem_of_lt scoresB [] (by rw [hlen]; exact List.mem_range.mp hk))
  have hbound : ∀ x ∈ ((List.range boxesB.length).map fun k =>
      (recIdx (nmsP (nmsN boxesB) m T) (nmsN boxesB) m
        (fun p => anyPos (nmsArrF boxesB scoresB m thr sthr T k p))).map
        fun y => y + (k : ℤ) * (nmsN boxesB : ℤ)).flatten,
      (if 0 ≤ x ∧ x.toNat < (((List.range boxesB.length).map fun i =>
          nmsPerm sthr (scoresB.getD i [])).map fun pm =>
            pm.map Int.ofNat).flatten.length
        then some ((((List.range boxesB.length).map fun i =>
          nmsPerm sthr (scoresB.getD i [])).map fun pm =>
            pm.map Int.ofNat).flatten.getD x.toNat 0)
        else none) =
      some ((((List.range boxesB.length).map fun i =>
        nmsPerm sthr (scoresB.getD i [])).map fun pm =>
          pm.map Int.ofNat).flatten.getD x.toNat 0) := by
    intro x hx
    obtain ⟨row, hrow, hxrow⟩ := List.mem_flatten.mp hx
    obtain ⟨k, hk, hkrow⟩ := List.mem_map.mp hrow
    have hkB : k < boxesB.length := List.mem_range.mp hk
    rw [← hkrow] at hxrow
    obtain ⟨v, hv, hvx⟩ := List.mem_map.mp hxrow
    have hvb := recIdx_mem_bounds (nmsP (nmsN boxesB) m T) (nmsN boxesB) m _
      hNP hmP (hkeptN k) hN v hv
    rw [if_pos]
    rw [hflatlen, ← hvx]
    try simp only []
    refine ⟨add_nonneg hvb.1
      (mul_nonneg (Int.natCast_nonneg k) (Int.natCast_nonneg _)), ?_⟩
    have htn : ∀ w : ℕ, (v + (w : ℤ)).toNat = v.toNat + w := by
      intro w
      omega
    rw [← Nat.cast_mul, htn]
    have hk1 : (k + 1) * nmsN boxesB ≤ boxesB.length * nmsN boxesB :=
      Nat.mul_le_mul_right _ hkB
    rw [Nat.succ_mul] at hk1
    have hvN : v.toNat < nmsN boxesB := by omega
    set a := k * nmsN boxesB with ha
    set b := boxesB.length * nmsN boxesB with hb
    omega
  rw [mapM_eq_some _ _ _ hbound, Option.map_some']
  rw [Option.some_inj, Prod.mk.injEq]
  have h_nv : (nmsFin boxesB scoresB m thr sthr T).outputs.map (fun o => min o m) =
      (List.range boxesB.length).map fun i => nmsNv boxesB scoresB m thr sthr T i := by
    apply List.ext_getElem?
    intro n
    rcases Nat.lt_or_ge n boxesB.length with hn | hn
    · rw [List.getElem?_map, nmsFin_outputs boxesB scoresB m thr sthr T hlen hn,
        Option.map_some', List.getElem?_map, List.getElem?_range hn,
        Option.map_some']
      rfl
    · rw [List.getElem?_eq_none, List.getElem?_eq_none]
      · rw [List.length_map, List.length_range]; exact hn
      · rw [List.length_map, nmsFin_outputs_length boxesB scoresB m thr sthr T hlen]
        exact hn
  rw [h_nv]
  refine ⟨?_, rfl⟩
  have hqK : ∀ i, ∀ q < nmsNv boxesB scoresB m thr sthr T i,
      q < (keptList (nmsP (nmsN boxesB) m T)
        (fun p => anyPos (nmsArrF boxesB scoresB m thr sthr T i p))).length := by
    intro i q hq
    have h1 := nmsNv_le_countIn_P boxesB scoresB m thr sthr T hT i
    rw [keptList_length_eq_countIn]
    omega
  refine gather_rows_eq boxesB.length (nmsN boxesB) m _ _ _ _ ?_ ?_ ?_ ?_ ?_
  · intro k hk
    rw [nmsPerm_length]
    exact hNs _ (getD_mem_of_lt scoresB [] (by rw [hlen]; exact hk))
  · intro k hk
    exact recIdx_length _ _ _ _ hmP
  · intro i hi
    exact min_le_right _ _
  · intro i hi q hq
    have hqm : q < m := lt_of_lt_of_le hq (min_le_right _ _)
    have hrec := recIdx_getElem (nmsP (nmsN boxesB) m T) (nmsN boxesB) m
      (fun p => anyPos (nmsArrF boxesB scoresB m thr sthr T i p)) hNP hmP
      (hkeptN i) q hqm
    rw [dif_pos (hqK i q hq)] at hrec
    rw [hrec, Option.some_inj]
    rw [nmsSel, List.getD_eq_getElem _ _ (hqK i q hq)]
  · intro i hi q hq
    rw [nmsSel, List.getD_eq_getElem _ _ (hqK i q hq)]
    exact hkeptN i _ (keptList_mem_kept _ _ (List.getElem_mem (hqK i q hq)))

/-! ## Termination of the self-suppression while loop

Every iteration that moves the continuation flag strictly decreases some
image's iou-mass sum, which forces that image's matrix to lose at least one
nonzero row; an upper-triangular T x T matrix has at most T - 1 nonzero rows,
so the flag is false after at most T iterations. -/

/-- The number of nonzero rows of the T x T corner. -/
def nzRows (T : ℕ) (M : ℕ → ℕ → ℚ) : ℕ :=
  ((List.range T).filter fun r => decide (∃ j < T, M r j ≠ 0)).length

theorem iterate_stable {α : Type} (f : α → α) (x : α) (n : ℕ)
    (h : f^[n + 1] x = f^[n] x) : ∀ m, n ≤ m → f^[m] x = f^[n] x := by
  intro m hm
  induction m with
  | zero => rw [Nat.le_zero.mp hm]
  | succ m ih =>
    rcases Nat.lt_or_ge n (m + 1) with hlt | hge
    · have hnm : n ≤ m := Nat.lt_succ_iff.mp hlt
      rw [Function.iterate_succ_apply', ih hnm,
        ← Function.iterate_succ_apply' f n x, h]
    · rw [Nat.le_antisymm hm hge]

theorem filter_length_le {α : Type} (l : List α) (p q : α → Bool)
    (hpq : ∀ a ∈ l, q a = true → p a = true) :
    (l.filter q).length ≤ (l.filter p).length := by
  induction l with
  | nil => exact le_refl 0
  | cons x t ih =>
    have iht := ih fun a ha => hpq a (List.mem_cons_of_mem _ ha)
    rw [List.filter_cons, List.filter_cons]
    by_cases hqx : q x = true
    · rw [if_pos hqx, if_pos (hpq x (List.mem_cons_self _ _) hqx)]
      simpa using iht
    · rw [if_neg hqx]
      by_cases hpx : p x = true
      · rw [if_pos hpx]
        exact le_trans iht (by simp)
      · rw [if_neg hpx]
        exact iht

theorem filter_length_lt {α : Type} (l : List α) (p q : α → Bool)
    (hpq : ∀ a ∈ l, q a = true → p a = true) (a0 : α) (ha0 : a0 ∈ l)
    (hp : p a0 = true) (hq : q a0 = false) :
    (l.filter q).length < (l.filter p).length := by
  induction l with
  | nil => cases ha0
  | cons x t ih =>
    rw [List.filter_cons, List.filter_cons]
    rcases List.mem_cons.mp ha0 with rfl | hmem
    · rw [if_pos hp, if_neg (by rw [hq]; exact Bool.false_ne_true)]
      have hle := filter_length_le t p q fun a ha => hpq a (List.mem_cons_of_mem _ ha)
      simp only [List.length_cons]
      omega
    · have hlt := ih (fun a ha => hpq a (List.mem_cons_of_mem _ ha)) hmem
      by_cases hqx : q x = true
      · rw [if_pos hqx, if_pos (hpq x (List.mem_cons_self _ _) hqx)]
        simpa using hlt
      · rw [if_neg hqx]
        by_cases hpx : p x = true
        · rw [if_pos hpx]
          exact lt_of_lt_of_le hlt (by simp)
        · rw [if_neg hpx]
          exact hlt

/-- A row that is zero on the tile stays zero after one self-suppression
update. -/
theorem step_row_zero (T : ℕ) (thr : ℚ) (M : ℕ → ℕ → ℚ) {r : ℕ}
    (h : ∀ j < T, M r j = 0) : ∀ j < T, self_step_mat T thr M r j = 0 := by
  intro j hj
  by_cases hr : r < T
  · rw [self_step_mat_in T thr M hr hj, h j hj, mul_zero]
  · exact self_step_mat_out T thr M fun hc => hr hc.1

/-- A step that changes the matrix zeroes at least one previously nonzero
row. -/
theorem step_kill_row (T : ℕ) (thr : ℚ) {M : ℕ → ℕ → ℚ} (hz : zeroExt T M)
    (hch : self_step_mat T thr M ≠ M) :
    nzRows T (self_step_mat T thr M) < nzRows T M := by
  have hex : ∃ i j, self_step_mat T thr M i j ≠ M i j := by
    by_contra h
    push_neg at h
    exact hch (funext fun i => funext fun j => h i j)
  obtain ⟨i, j, hij⟩ := hex
  have hin : i < T ∧ j < T := by
    by_contra hc
    rw [self_step_mat_out T thr M hc, hz i j hc] at hij
    exact hij rfl
  have hmask : decide (self_q T thr M i < thr) = false := by
    by_contra hd
    have hd' : decide (self_q T thr M i < thr) = true :=
      eq_true_of_ne_false hd
    rw [self_step_mat_in T thr M hin.1 hin.2, hd'] at hij
    exact hij (by rw [boolQ]; simp)
  have hMij : M i j ≠ 0 := by
    intro h0
    rw [self_step_mat_in T thr M hin.1 hin.2, h0, mul_zero] at hij
    exact hij rfl
  have hrowdead : ∀ j' < T, self_step_mat T thr M i j' = 0 := by
    intro j' hj'
    rw [self_step_mat_in T thr M hin.1 hj', hmask]
    rw [boolQ]
    simp
  refine filter_length_lt (List.range T) _ _ ?_ i (List.mem_range.mpr hin.1) ?_ ?_
  · intro a ha hqa
    rw [decide_eq_true_iff] at hqa ⊢
    obtain ⟨j', hj', hne⟩ := hqa
    by_contra hall
    push_neg at hall
    exact hne (step_row_zero T thr M hall j' hj')
  · rw [decide_eq_true_iff]
    exact ⟨j, hin.2, hMij⟩
  · rw [decide_eq_false_iff_not]
    intro hcon
    obtain ⟨j', hj', hne⟩ := hcon
    exact hne (hrowdead j' hj')

/-- Changing at step k + 1 forces at least k + 1 nonzero rows to begin
with. -/
theorem change_bound (T : ℕ) (thr : ℚ) {M : ℕ → ℕ → ℚ} (hz : zeroExt T M)
    {k : ℕ}
    (hch : (self_step_mat T thr)^[k + 1] M ≠ (self_step_mat T thr)^[k] M) :
    k + 1 ≤ nzRows T M := by
  have hstep : ∀ j ≤ k, nzRows T ((self_step_mat T thr)^[j + 1] M) <
      nzRows T ((self_step_mat T thr)^[j] M) := by
    intro j hj
    have hne : (self_step_mat T thr)^[j + 1] M ≠ (self_step_mat T thr)^[j] M := by
      intro heq
      have h1 := iterate_stable (self_step_mat T thr) M j heq (k + 1) (by omega)
      have h2 := iterate_stable (self_step_mat T thr) M j heq k (by omega)
      exact hch (h1.trans h2.symm)
    have hzj := zeroExt_iterate T thr M hz j
    have hne2 : self_step_mat T thr ((self_step_mat T thr)^[j] M) ≠
        (self_step_mat T thr)^[j] M := by
      rwa [Function.iterate_succ_apply'] at hne
    rw [Function.iterate_succ_apply']
    exact step_kill_row T thr hzj hne2
  have hdesc : ∀ j ≤ k + 1, nzRows T ((self_step_mat T thr)^[j] M) + j ≤
      nzRows T M := by
    intro j hj
    induction j with
    | zero => simp
    | succ j ih =>
      have h1 := hstep j (by omega)
      have h2 := ih (by omega)
      omega
  have := hdesc (k + 1) (le_refl _)
  omega

/-- An upper-triangular matrix has a zero last row, so fewer than T nonzero
rows. -/
theorem nzRows_le_of_upperTri (T : ℕ) {M : ℕ → ℕ → ℚ} (hT : 0 < T)
    (hut : upperTri M) : nzRows T M ≤ T - 1 := by
  have hlast : (decide (∃ j < T, M (T - 1) j ≠ 0)) = false := by
    rw [decide_eq_false_iff_not]
    intro hcon
    obtain ⟨j, hj, hne⟩ := hcon
    exact hne (hut (T - 1) j (by omega))
  have hlt : nzRows T M < T := by
    have := filter_length_lt (List.range T) (fun _ => true)
      (fun r => decide (∃ j < T, M r j ≠ 0)) (fun a _ _ => rfl) (T - 1)
      (List.mem_range.mpr (by omega)) rfl hlast
    rw [List.filter_true, List.length_range] at this
    exact this
  omega

theorem step_cond (T : ℕ) (thr : ℚ) (s : SelfState) :
    (self_suppression_step T thr s).cond =
      (List.zipWith (fun o n => decide (thr < o - n)) s.sums
        ((s.mats.map (tableStep T thr)).map fun t => matSum T (ofTable t))).any id :=
  rfl

theorem iterate_sums_invariant (T : ℕ) (thr : ℚ) (s : SelfState)
    (hs : s.sums = s.mats.map fun t => matSum T (ofTable t)) (n : ℕ) :
    ((self_suppression_step T thr)^[n] s).sums =
      ((self_suppression_step T thr)^[n] s).mats.map fun t => matSum T (ofTable t) := by
  cases n with
  | zero => exact hs
  | succ n => rw [Function.iterate_succ_apply']; rfl

/-- A raised continuation flag after k + 1 iterations means some image's
matrix changed at iteration k + 1. -/
theorem cond_change (T : ℕ) (thr : ℚ) (hthr : 0 ≤ thr) (s : SelfState)
    (hs : s.sums = s.mats.map fun t => matSum T (ofTable t)) (k : ℕ)
    (hcond : ((self_suppression_step T thr)^[k + 1] s).cond = true) :
    ∃ t ∈ s.mats, (self_step_mat T thr)^[k + 1] (ofTable t) ≠
      (self_step_mat T thr)^[k] (ofTable t) := by
  have hsums := iterate_sums_invariant T thr s hs k
  have hmats := self_step_iterate_mats T thr s k
  have hsums2 : ((self_suppression_step T thr)^[k] s).sums =
      s.mats.map fun t => matSum T ((self_step_mat T thr)^[k] (ofTable t)) := by
    rw [hsums, hmats, List.map_map]
    apply List.map_congr_left
    intro t ht
    show matSum T (ofTable ((tableStep T thr)^[k] t)) = _
    rw [ofTable_tableStep_iterate]
  have hmapped2 : (((self_suppression_step T thr)^[k] s).mats.map
      (tableStep T thr)).map (fun t => matSum T (ofTable t)) =
      s.mats.map fun t => matSum T ((self_step_mat T thr)^[k + 1] (ofTable t)) := by
    rw [hmats, List.map_map, List.map_map]
    apply List.map_congr_left
    intro t ht
    show matSum T (ofTable (tableStep T thr ((tableStep T thr)^[k] t))) = _
    rw [← Function.iterate_succ_apply' (tableStep T thr) k t,
      ofTable_tableStep_iterate]
  rw [Function.iterate_succ_apply', step_cond, hsums2, hmapped2,
    zipWith_map_same, List.any_eq_true] at hcond
  obtain ⟨x, hx, hxt⟩ := hcond
  obtain ⟨t, ht, htx⟩ := List.mem_map.mp hx
  rw [← htx] at hxt
  simp only [id_eq] at hxt
  have hgt := of_decide_eq_true hxt
  refine ⟨t, ht, ?_⟩
  intro heq
  rw [heq] at hgt
  simp only [sub_self] at hgt
  exact absurd hgt (not_lt.mpr hthr)

/-- After T iterations the continuation flag is down: each image's tile
matrix is upper triangular, so it runs out of rows to zero. -/
theorem cond_T_false (T : ℕ) (thr : ℚ) (hT : 0 < T) (hthr : 0 ≤ thr)
    (s : SelfState) (hs : s.sums = s.mats.map fun t => matSum T (ofTable t))
    (hmats : ∀ t ∈ s.mats, zeroExt T (ofTable t) ∧ upperTri (ofTable t)) :
    ((self_suppression_step T thr)^[T] s).cond = false := by
  by_contra h
  have h' : ((self_suppression_step T thr)^[T] s).cond = true :=
    eq_true_of_ne_false h
  obtain ⟨T', rfl⟩ : ∃ T', T = T' + 1 := ⟨T - 1, by omega⟩
  obtain ⟨t, ht, hch⟩ := cond_change (T' + 1) thr hthr s hs T' h'
  have hb := change_bound (T' + 1) thr (hmats t ht).1 hch
  have hr := nzRows_le_of_upperTri (T' + 1) hT (hmats t ht).2
  omega

/-- Once the flag is down at step n, any fuel of at least n gives the same
loop result. -/
theorem self_loop_absorb (T : ℕ) (thr : ℚ) (n : ℕ) (s : SelfState)
    (h : ((self_suppression_step T thr)^[n] s).cond = false) :
    ∀ fuel, n ≤ fuel →
      self_suppression_loop T thr fuel s = self_suppression_loop T thr n s := by
  induction n generalizing s with
  | zero =>
    intro fuel hfuel
    have h0 : s.cond = false := h
    cases fuel with
    | zero => rfl
    | succ fuel =>
      have hcnot : ¬s.cond = true := by
        rw [h0]
        exact Bool.false_ne_true
      show (if s.cond then
        self_suppression_loop T thr fuel (self_suppression_step T thr s) else s) = s
      rw [if_neg hcnot]
  | succ n ih =>
    intro fuel hfuel
    obtain ⟨f, rfl⟩ : ∃ f, fuel = f + 1 := ⟨fuel - 1, by omega⟩
    rw [self_suppression_loop, self_suppression_loop]
    by_cases hc : s.cond
    · rw [if_pos hc, if_pos hc]
      exact ih (self_suppression_step T thr s)
        (by rwa [← Function.iterate_succ_apply]) f (by omega)
    · rw [if_neg hc, if_neg hc]

/-- The self-suppression while loop of one tile body terminates within
tile_size iterations: extra fuel beyond tile_size is never consumed. -/
theorem self_loop_fuel (T : ℕ) (thr : ℚ) (hT : 0 < T) (hthr : 0 ≤ thr)
    (s : SelfState) (hs : s.sums = s.mats.map fun t => matSum T (ofTable t))
    (hmats : ∀ t ∈ s.mats, zeroExt T (ofTable t) ∧ upperTri (ofTable t))
    (k : ℕ) :
    self_suppression_loop T thr (T + k) s = self_suppression_loop T thr T s :=
  self_loop_absorb T thr T s (cond_T_false T thr hT hthr s hs hmats) (T + k)
    (by omega)

theorem selfSteps_le_of_false (T : ℕ) (thr : ℚ) (n : ℕ) (s : SelfState)
    (h : ((self_suppression_step T thr)^[n] s).cond = false) :
    ∀ fuel, selfSteps T thr fuel s ≤ n := by
  induction n generalizing s with
  | zero =>
    intro fuel
    have h0 : s.cond = false := h
    cases fuel with
    | zero => exact le_refl 0
    | succ fuel =>
      rw [selfSteps, if_neg (by rw [h0]; exact Bool.false_ne_true)]
  | succ n ih =>
    intro fuel
    cases fuel with
    | zero => exact Nat.zero_le _
    | succ fuel =>
      rw [selfSteps]
      by_cases hc : s.cond = true
      · rw [if_pos hc]
        have := ih (self_suppression_step T thr s)
          (by rwa [← Function.iterate_succ_apply]) fuel
        omega
      · rw [if_neg hc]
        exact Nat.zero_le _

/-! ## Degenerate pipeline runs -/

theorem match_eq_map {α β : Type} (o : Option α) (F : α → β) :
    (match o with | none => none | some g => some (F g)) = o.map F := by
  cases o <;> rfl

theorem mapM_eq_none {α β : Type} (f : α → Option β) (l : List α)
    (h : ∃ x ∈ l, f x = none) : l.mapM f = none := by
  induction l with
  | nil => simp at h
  | cons x t ih =>
    rw [List.mapM_cons]
    obtain ⟨y, hy, hfy⟩ := h
    rcases List.mem_cons.mp hy with rfl | hmem
    · rw [hfy]
      rfl
    · cases hfx : f x with
      | none => rfl
      | some b =>
        rw [ih ⟨y, hmem, hfy⟩]
        rfl

/-- The pipeline after the loop, with everything up to the index gather
rewritten into the named run components. -/
theorem nms_unfolded (boxesB : List (List Box)) (scoresB : List (List ℚ)) (m : ℕ)
    (thr sthr : ℚ) (T : ℕ) (hT : T ≠ 0) (hlen : scoresB.length = boxesB.length) :
    non_max_suppression boxesB scoresB m thr sthr T =
      (((List.range boxesB.length).map fun k =>
        (recIdx (nmsP (nmsN boxesB) m T) (nmsN boxesB) m
          (fun p => anyPos (nmsArrF boxesB scoresB m thr sthr T k p))).map
          fun y => y + (k : ℤ) * (nmsN boxesB : ℤ)).flatten.mapM fun x =>
        if 0 ≤ x ∧ x.toNat < (((List.range boxesB.length).map fun i =>
            nmsPerm sthr (scoresB.getD i [])).map fun pm =>
              pm.map Int.ofNat).flatten.length
        then some ((((List.range boxesB.length).map fun i =>
            nmsPerm sthr (scoresB.getD i [])).map fun pm =>
              pm.map Int.ofNat).flatten.getD x.toNat 0)
        else none).map fun g =>
        ((List.range boxesB.length).map fun i =>
          (List.range m).map fun q =>
            if q < ((nmsFin boxesB scoresB m thr sthr T).outputs.map
                fun o => min o m).getD i 0
            then g.getD (i * m + q) 0 else 0,
          (nmsFin boxesB scoresB m thr sthr T).outputs.map fun o => min o m) := by
  simp only [non_max_suppression]
  rw [if_neg hT]
  rw [show (boxesB.headD []).length = nmsN boxesB from rfl]
  rw [show ((max (nmsN boxesB) m + T - 1) / T) * T = nmsP (nmsN boxesB) m T from rfl]
  rw [show nmsP (nmsN boxesB) m T / T = nmsNumIters (nmsN boxesB) m T from rfl]
  rw [pipeline_padded_eq]
  rw [show LoopState.mk (nmsInit boxesB scoresB sthr).boxes
    (List.replicate boxesB.length 0) 0 = nmsInit boxesB scoresB sthr from rfl]
  rw [show suppression_loop T thr m (nmsNumIters (nmsN boxesB) m T)
    (nmsNumIters (nmsN boxesB) m T) (nmsInit boxesB scoresB sthr) =
    nmsFin boxesB scoresB m thr sthr T from rfl]
  have h_perms : (scoresB.map fun ss => ss.map fun v =>
      v * boolQ (decide (sthr < v))).map sorted_scores_indices =
      (List.range boxesB.length).map fun i => nmsPerm sthr (scoresB.getD i []) := by
    apply List.ext_getElem?
    intro n
    rcases Nat.lt_or_ge n boxesB.length with hn | hn
    · have hn' : n < scoresB.length := hlen ▸ hn
      rw [List.getElem?_map, List.getElem?_map, List.getElem?_eq_getElem hn',
        Option.map_some', Option.map_some', List.getElem?_map,
        List.getElem?_range hn, Option.map_some', Option.some_inj,
        List.getD_eq_getElem scoresB _ hn']
      rfl
    · rw [List.getElem?_eq_none, List.getElem?_eq_none]
      · rw [List.length_map, List.length_range]; exact hn
      · rw [List.length_map, List.length_map]; omega
  rw [h_perms]
  have h_idxs : ((nmsFin boxesB scoresB m thr sthr T).boxes.map fun arr =>
      (List.range (nmsP (nmsN boxesB) m T)).map fun (p : ℕ) =>
        boolZ (anyPos (arr p)) * ((nmsP (nmsN boxesB) m T : ℤ) - (p : ℤ))).map
      (fun w => (topKVals m w).map fun v =>
        min ((nmsP (nmsN boxesB) m T : ℤ) - v) ((nmsN boxesB : ℤ) - 1)) =
      (List.range boxesB.length).map fun k =>
        recIdx (nmsP (nmsN boxesB) m T) (nmsN boxesB) m
          (fun p => anyPos (nmsArrF boxesB scoresB m thr sthr T k p)) := by
    apply List.ext_getElem?
    intro n
    rcases Nat.lt_or_ge n boxesB.length with hn | hn
    · rw [List.getElem?_map, List.getElem?_map,
        nmsFin_boxes boxesB scoresB m thr sthr T hlen hn, Option.map_some',
        Option.map_some', List.getElem?_map, List.getElem?_range hn,
        Option.map_some']
      rfl
    · rw [List.getElem?_eq_none, List.getElem?_eq_none]
      · rw [List.length_map, List.length_range]; exact hn
      · rw [List.length_map, List.length_map,
          nmsFin_boxes_length boxesB scoresB m thr sthr T hlen]
        exact hn
  rw [h_idxs, zipWith_self_map_right]

theorem countIn_zero (c : ℕ) (arr : ℕ → Box)
    (h : ∀ p < c, anyPos (arr p) = false) : countIn c arr = 0 := by
  rw [countIn, List.length_eq_zero]
  rw [List.filter_eq_nil_iff]
  intro p hp
  rw [h p (List.mem_range.mp hp)]
  exact Bool.false_ne_true

theorem recIdx_mem_neg (P m : ℕ) (kept : ℕ → Bool) :
    ∀ v ∈ recIdx P 0 m kept, v < 0 := by
  intro v hv
  rw [recIdx] at hv
  obtain ⟨w, hw, hwv⟩ := List.mem_map.mp hv
  rw [← hwv]
  have h1 : min ((P : ℤ) - w) ((0 : ℕ) - 1 : ℤ) ≤ ((0 : ℕ) : ℤ) - 1 :=
    min_le_right _ _
  omega

/-- All-zero initial image array: every score at most the threshold zeroes
the whole padded array. -/
theorem nmsPaddedArr_all_zero (sthr : ℚ) (bs : List Box) (ss : List ℚ) {N : ℕ}
    (hbs : bs.length = N) (hss : ss.length = N)
    (hall : ∀ v ∈ ss, v ≤ sthr) (p : ℕ) :
    nmsPaddedArr sthr bs ss p = zeroBox := by
  rcases Nat.lt_or_ge p N with hp | hp
  · rw [nmsPaddedArr_in sthr bs ss hbs hss hp]
    have he : (nmsPerm sthr ss).getD p 0 < N := by
      have hplen : p < (nmsPerm sthr ss).length := by
        rw [nmsPerm_length, hss]; exact hp
      rw [List.getD_eq_getElem _ _ hplen]
      have := (sorted_scores_indices_mem
        (ss.map fun v => v * boolQ (decide (sthr < v)))).mp
        (List.getElem_mem hplen)
      rwa [List.length_map, hss] at this
    have hv : ss.getD ((nmsPerm sthr ss).getD p 0) 0 ∈ ss :=
      getD_mem_of_lt ss 0 (by omega)
    rw [decide_eq_false (not_lt.mpr (hall _ hv))]
    rw [show boolQ false = 0 from rfl, scaleBox_zero]
  · exact nmsPaddedArr_pad sthr bs ss (by omega)


theorem keptList_nodup (P : ℕ) (kept : ℕ → Bool) : (keptList P kept).Nodup :=
  (List.nodup_range P).filter kept

theorem keptList_length_le_N (P N : ℕ) (kept : ℕ → Bool)
    (h : ∀ p, kept p = true → p < N) : (keptList P kept).length ≤ N := by
  have hsub : keptList P kept ⊆ List.range N := fun x hx =>
    List.mem_range.mpr (h x (keptList_mem_kept P kept hx))
  have := ((keptList_nodup P kept).subperm hsub).length_le
  rwa [List.length_range] at this

/-- A kept slot of the final array still holds its original (pre-sort) box:
the slot's value is the original box at the permuted index. -/
theorem nmsArrF_kept_eq (boxesB : List (List Box)) (scoresB : List (List ℚ))
    (m : ℕ) (thr sthr : ℚ) (T : ℕ)
    (hlen : scoresB.length = boxesB.length)
    (hNb : ∀ bs ∈ boxesB, bs.length = nmsN boxesB)
    (hNs : ∀ ss ∈ scoresB, ss.length = nmsN boxesB)
    {i p : ℕ} (hi : i < boxesB.length)
    (hkept : anyPos (nmsArrF boxesB scoresB m thr sthr T i p) = true) :
    nmsArrF boxesB scoresB m thr sthr T i p =
      (boxesB.getD i []).getD ((nmsPerm sthr (scoresB.getD i [])).getD p 0)
        zeroBox := by
  have hpN : p < nmsN boxesB :=
    nmsKept_lt boxesB scoresB m thr sthr T hlen hNs hkept
  have hig := nmsInit_boxes_getElem boxesB scoresB sthr hlen hi
  have hilen : i < (nmsInit boxesB scoresB sthr).boxes.length := by
    rw [nmsInit_boxes_length _ _ _ hlen]
    exact hi
  have harr : (nmsInit boxesB scoresB sthr).boxes[i] =
      nmsPaddedArr sthr (boxesB.getD i []) (scoresB.getD i []) := by
    rw [List.getElem?_eq_getElem hilen, Option.some_inj] at hig
    exact hig
  have h0 : arrTraj T thr (nmsInit boxesB scoresB sthr) 0 i p =
      nmsPaddedArr sthr (boxesB.getD i []) (scoresB.getD i []) p := by
    rw [arrTraj_zero_eq, List.getD_eq_getElem _ _ hilen, harr]
  have hcases := arrTraj_cases T thr (nmsInit boxesB scoresB sthr) i p
    (nmsKf boxesB scoresB m thr sthr T)
  rw [nmsArrF] at hkept ⊢
  rcases hcases with hcase | hcase
  · rw [hcase, h0, nmsPaddedArr_in sthr _ _
      (hNb _ (getD_mem_of_lt boxesB [] hi))
      (hNs _ (getD_mem_of_lt scoresB [] (hlen ▸ hi))) hpN]
    by_cases hc : sthr < (scoresB.getD i []).getD
        ((nmsPerm sthr (scoresB.getD i [])).getD p 0) 0
    · rw [decide_eq_true hc, show boolQ true = (1 : ℚ) from rfl, scaleBox_one]
    · exfalso
      rw [hcase, h0, nmsPaddedArr_in sthr _ _
        (hNb _ (getD_mem_of_lt boxesB [] hi))
        (hNs _ (getD_mem_of_lt scoresB [] (hlen ▸ hi))) hpN,
        decide_eq_false hc, show boolQ false = (0 : ℚ) from rfl,
        scaleBox_zero, anyPos_zeroBox] at hkept
      exact Bool.false_ne_true hkept
  · exfalso
    rw [hcase, anyPos_zeroBox] at hkept
    exact Bool.false_ne_true hkept

/-- The per-image box trajectory depends only on the image's own initial
array and the batch-coupled inner iteration counts. -/
theorem arrTraj_image_congr (T : ℕ) (thr : ℚ) (s0 s0' : LoopState) (i : ℕ)
    (h0 : s0.idx = 0) (h0' : s0'.idx = 0)
    (harr : s0.boxes.getD i (fun _ => zeroBox) =
      s0'.boxes.getD i (fun _ => zeroBox)) (k : ℕ)
    (hic : ∀ j < k, innerCounts T thr s0 j = innerCounts T thr s0' j) :
    arrTraj T thr s0 k i = arrTraj T thr s0' k i := by
  induction k with
  | zero => rw [arrTraj_zero_eq, arrTraj_zero_eq]; exact harr
  | succ k ih =>
    rw [arrTraj_succ, arrTraj_succ, h0, h0', hic k (Nat.lt_succ_self k),
      ih fun j hj => hic j (Nat.lt_succ_of_lt hj)]

theorem loop_cond_true_iff (m n : ℕ) (s : LoopState) :
    loop_cond m n s = true ↔ (minD s.outputs < m ∧ s.idx < n) := by
  rw [loop_cond, Bool.and_eq_true, decide_eq_true_iff, decide_eq_true_iff]

theorem nmsP_mono (N m1 m2 T : ℕ) (h : m1 ≤ m2) : nmsP N m1 T ≤ nmsP N m2 T := by
  rw [nmsP, nmsP]
  apply Nat.mul_le_mul_right
  apply Nat.div_le_div_right
  have := max_le_max (le_refl N) h
  omega

theorem nmsNumIters_mono (N m1 m2 T : ℕ) (h : m1 ≤ m2) :
    nmsNumIters N m1 T ≤ nmsNumIters N m2 T := by
  rw [nmsNumIters, nmsNumIters]
  exact Nat.div_le_div_right (nmsP_mono N m1 m2 T h)

/-- Below the region processed by the smaller iteration count, the
trajectory has already stabilised. -/
theorem arrTraj_prefix_agree (T : ℕ) (thr : ℚ) (s0 : LoopState)
    (hidx : s0.idx = 0) (i : ℕ) {k1 k2 : ℕ} (hk : k1 ≤ k2) {p : ℕ}
    (hp : p < k1 * T) :
    arrTraj T thr s0 k1 i p = arrTraj T thr s0 k2 i p := by
  have hT0 : 0 < T := by
    rcases Nat.eq_zero_or_pos T with h | h
    · rw [h, Nat.mul_zero] at hp
      omega
    · exact h
  set t := p / T with hdt
  have ht : t < k1 := Nat.div_lt_of_lt_mul (by rwa [mul_comm] at hp)
  have hp' : t * T + p % T = p := Nat.div_add_mod' p T
  have hmod : p % T < T := Nat.mod_lt _ hT0
  have hpb : p < (t + 1) * T := by
    rw [Nat.succ_mul]
    omega
  rw [@arrTraj_stable T thr s0 hidx i t p hpb k1 (by omega),
    @arrTraj_stable T thr s0 hidx i t p hpb k2 (by omega)]

/-! ## Tile-size independence in the single-tile regime

When one tile covers every (padded) box, the whole run is governed by the
num_boxes x num_boxes corner of the iou matrices: the padding rows are the
all-zero box, whose iou with anything is zero.  The lemmas of this section
express every tile-size-T quantity of such a run by a tile-size-free
quantity, which yields the equality of two single-tile runs. -/

/-- Overlap of the degenerate all-zero box with any box is zero: the clamped
intersection width vanishes. -/
theorem bbox_overlap_zeroBox_left (b : Box) : bbox_overlap zeroBox b = 0 := by
  simp only [bbox_overlap, ratDiv_eq_div]
  have hx : min zeroBox.xmax b.xmax - max zeroBox.xmin b.xmin ≤ 0 := by
    have h1 : min zeroBox.xmax b.xmax ≤ 0 := min_le_left _ _
    have h2 : (0 : ℚ) ≤ max zeroBox.xmin b.xmin := le_max_left _ _
    linarith
  rw [max_eq_right hx, zero_mul, zero_div]

/-- Overlap of any box with the all-zero box is zero. -/
theorem bbox_overlap_zeroBox_right (b : Box) : bbox_overlap b zeroBox = 0 := by
  simp only [bbox_overlap, ratDiv_eq_div]
  have hx : min b.xmax zeroBox.xmax - max b.xmin zeroBox.xmin ≤ 0 := by
    have h1 : min b.xmax zeroBox.xmax ≤ 0 := min_le_right _ _
    have h2 : (0 : ℚ) ≤ max b.xmin zeroBox.xmin := le_max_right _ _
    linarith
  rw [max_eq_right hx, zero_mul, zero_div]

/-- A matrix vanishing outside the N x N corner vanishes outside any larger
corner. -/
theorem zeroExt_mono {N T : ℕ} (hNT : N ≤ T) {M : ℕ → ℕ → ℚ}
    (h : zeroExt N M) : zeroExt T M := by
  intro i j hij
  apply h
  intro hc
  exact hij ⟨lt_of_lt_of_le hc.1 hNT, lt_of_lt_of_le hc.2 hNT⟩

/-- The axis maximum over T entries equals the maximum over the first N when
the tail entries vanish and all entries are nonnegative. -/
theorem qmax_congr_zero {N T : ℕ} (g : ℕ → ℚ) (hNT : N ≤ T)
    (hz : ∀ r, N ≤ r → g r = 0) (hnn : ∀ r, 0 ≤ g r) : qmax T g = qmax N g := by
  rw [qmax, qmax]
  apply le_antisymm
  · apply foldr_max_le
    · exact self_le_foldr_max _ _
    · intro x hx
      rcases List.mem_map.mp hx with ⟨r, hr, rfl⟩
      rcases Nat.lt_or_ge r N with hrN | hrN
      · exact le_foldr_max _ _ _ (List.mem_map.mpr ⟨r, List.mem_range.mpr hrN, rfl⟩)
      · rw [hz r hrN]
        exact (hnn 0).trans (self_le_foldr_max _ _)
  · apply foldr_max_le
    · exact self_le_foldr_max _ _
    · intro x hx
      rcases List.mem_map.mp hx with ⟨r, hr, rfl⟩
      exact le_foldr_max _ _ _ (List.mem_map.mpr
        ⟨r, List.mem_range.mpr (lt_of_lt_of_le (List.mem_range.mp hr) hNT), rfl⟩)

/-- can_suppress_others only reads the N x N corner of a matrix that vanishes
outside it. -/
theorem can_suppress_others_congr {N T : ℕ} (thr : ℚ) {M : ℕ → ℕ → ℚ}
    (hNT : N ≤ T) (hz : zeroExt N M) (hnn : ∀ i j, 0 ≤ M i j) (r : ℕ) :
    can_suppress_others T thr M r = can_suppress_others N thr M r := by
  rw [can_suppress_others, can_suppress_others,
    qmax_congr_zero (fun w => M w r) hNT
      (fun w hw => hz w r fun hc => absurd hc.1 (Nat.not_lt.mpr hw))
      (fun w => hnn w r)]

/-- self_q only reads the N x N corner of a matrix that vanishes outside
it. -/
theorem self_q_congr {N T : ℕ} (thr : ℚ) {M : ℕ → ℕ → ℚ} (hNT : N ≤ T)
    (hz : zeroExt N M) (hnn : ∀ i j, 0 ≤ M i j) (i : ℕ) :
    self_q T thr M i = self_q N thr M i := by
  rw [self_q, self_q]
  have hg : ∀ r, boolQ (can_suppress_others T thr M r) * M r i =
      boolQ (can_suppress_others N thr M r) * M r i := fun r => by
    rw [can_suppress_others_congr thr hNT hz hnn r]
  rw [show (fun r => boolQ (can_suppress_others T thr M r) * M r i) =
      fun r => boolQ (can_suppress_others N thr M r) * M r i from funext hg]
  exact qmax_congr_zero _ hNT
    (fun r hr => by
      rw [hz r i fun hc => absurd hc.1 (Nat.not_lt.mpr hr), mul_zero])
    (fun r => mul_nonneg (boolQ_nonneg _) (hnn r i))

/-- One self-suppression matrix update does not depend on the tile size, as
long as the tile covers the N x N corner holding all mass. -/
theorem self_step_mat_congr {N T1 T2 : ℕ} (thr : ℚ) {M : ℕ → ℕ → ℚ}
    (h1 : N ≤ T1) (h2 : N ≤ T2) (hz : zeroExt N M) (hnn : ∀ i j, 0 ≤ M i j) :
    self_step_mat T1 thr M = self_step_mat T2 thr M := by
  funext i j
  simp only [self_step_mat]
  by_cases hin : i < N ∧ j < N
  · rw [if_pos ⟨lt_of_lt_of_le hin.1 h1, lt_of_lt_of_le hin.2 h1⟩,
      if_pos ⟨lt_of_lt_of_le hin.1 h2, lt_of_lt_of_le hin.2 h2⟩,
      self_q_congr thr h1 hz hnn i, self_q_congr thr h2 hz hnn i]
  · have hM : M i j = 0 := hz i j hin
    rw [hM]
    simp only [mul_zero, ite_self]

/-- Iterated self-suppression matrix updates do not depend on the tile size
above N. -/
theorem self_step_iterate_congr {N T : ℕ} (thr : ℚ) (hthr : 0 ≤ thr)
    (hNT : N ≤ T) {M : ℕ → ℕ → ℚ} (hz : zeroExt N M) (hsh : entryShape thr M)
    (n : ℕ) : (self_step_mat T thr)^[n] M = (self_step_mat N thr)^[n] M := by
  induction n generalizing M with
  | zero => rfl
  | succ n ih =>
    rw [Function.iterate_succ_apply, Function.iterate_succ_apply]
    rw [self_step_mat_congr thr hNT (le_refl N) hz
      (entryShape_nonneg thr hthr hsh)]
    exact ih (zeroExt_self_step_mat N thr M)
      (by
        have h := entryShape_iterate N thr M hsh 1
        rwa [Function.iterate_one] at h)

/-- The iou-mass sum of a matrix vanishing outside the N x N corner is the
same over any larger corner. -/
theorem matSum_congr {N T : ℕ} {M : ℕ → ℕ → ℚ} (hNT : N ≤ T)
    (hz : zeroExt N M) : matSum T M = matSum N M := by
  rw [matSum, matSum]
  have hrow : ∀ i, ∑ j ∈ Finset.range T, M i j = ∑ j ∈ Finset.range N, M i j :=
    fun i => (Finset.sum_subset (Finset.range_subset.mpr hNT)
      (fun j _ hj => hz i j fun hc => hj (Finset.mem_range.mpr hc.2))).symm
  rw [show (∑ i ∈ Finset.range T, ∑ j ∈ Finset.range T, M i j) =
      ∑ i ∈ Finset.range T, ∑ j ∈ Finset.range N, M i j from
    Finset.sum_congr rfl fun i _ => hrow i]
  exact (Finset.sum_subset (Finset.range_subset.mpr hNT)
    (fun i _ hi => Finset.sum_eq_zero fun j _ =>
      hz i j fun hc => hi (Finset.mem_range.mpr hc.1))).symm

/-- The suppressed_box column test of a matrix vanishing outside the N x N
corner is the same over any larger corner. -/
theorem suppressed_box_congr {N T : ℕ} {M : ℕ → ℕ → ℚ} (hNT : N ≤ T)
    (hz : zeroExt N M) (l : ℕ) :
    suppressed_box T M l = suppressed_box N M l := by
  rw [suppressed_box, suppressed_box,
    show (∑ k ∈ Finset.range T, M k l) = ∑ k ∈ Finset.range N, M k l from
      (Finset.sum_subset (Finset.range_subset.mpr hNT)
        (fun k _ hk => hz k l fun hc => hk (Finset.mem_range.mpr hc.1))).symm]

/-- The masked self-iou matrix of a slice whose tail is zero boxes does not
depend on the tile size above N: the extra entries involve the zero box and
vanish. -/
theorem tile_self_iou_congr (thr : ℚ) {N T : ℕ} (hNT : N ≤ T) (arr : ℕ → Box)
    (haz : ∀ p, N ≤ p → arr p = zeroBox) :
    tile_self_iou T thr arr = tile_self_iou N thr arr := by
  funext i j
  simp only [tile_self_iou]
  by_cases hin : i < N ∧ j < N
  · rw [if_pos ⟨lt_of_lt_of_le hin.1 hNT, lt_of_lt_of_le hin.2 hNT⟩, if_pos hin]
  · rw [if_neg hin]
    by_cases hT' : i < T ∧ j < T
    · rw [if_pos hT']
      rcases Decidable.not_and_iff_or_not.mp hin with hN' | hN'
      · rw [haz i (Nat.le_of_not_lt hN'), bbox_overlap_zeroBox_left, mul_zero]
      · rw [haz j (Nat.le_of_not_lt hN'), bbox_overlap_zeroBox_right, mul_zero]
    · rw [if_neg hT']

/-- At tile index 0 (no prior tiles) the cross-suppressed slice of an array
whose tail is zero boxes is the array itself. -/
theorem imageSlice1_zero_idx (T : ℕ) (thr : ℚ) {N : ℕ} (hNT : N ≤ T)
    (arr : ℕ → Box) (haz : ∀ p, N ≤ p → arr p = zeroBox) :
    imageSlice1 T thr 0 arr = arr := by
  funext k
  rw [imageSlice1, cross_suppression, List.range_zero, List.foldl_nil]
  simp only [tileSlice]
  split
  · rw [Nat.zero_mul, Nat.zero_add]
  · next h => exact (haz k (le_trans hNT (Nat.le_of_not_lt h))).symm

/-- The number of iterations the self-suppression while loop performs, when
the flag is known to go down at step n within the fuel. -/
theorem selfSteps_eq_of (T : ℕ) (thr : ℚ) (n : ℕ) (s : SelfState)
    (hall : ∀ k < n, ((self_suppression_step T thr)^[k] s).cond = true)
    (hf : ((self_suppression_step T thr)^[n] s).cond = false) :
    ∀ fuel, n ≤ fuel → selfSteps T thr fuel s = n := by
  induction n generalizing s with
  | zero =>
    intro fuel _
    have h0 : s.cond = false := hf
    cases fuel with
    | zero => rfl
    | succ fuel => rw [selfSteps, if_neg (by rw [h0]; exact Bool.false_ne_true)]
  | succ n ih =>
    intro fuel hnf
    obtain ⟨f, rfl⟩ : ∃ f, fuel = f + 1 := ⟨fuel - 1, by omega⟩
    have hc : s.cond = true := hall 0 (Nat.succ_pos n)
    rw [selfSteps, if_pos hc]
    rw [ih (self_suppression_step T thr s)
      (fun k hk => by
        rw [← Function.iterate_succ_apply]
        exact hall (k + 1) (by omega))
      (by rwa [← Function.iterate_succ_apply]) f (by omega)]

/-- The state the tile body hands to the self-suppression loop, for a list of
abstract per-image matrices materialised at tile size T. -/
def mkS0 (T : ℕ) (Ms : List (ℕ → ℕ → ℚ)) : SelfState :=
  { mats := Ms.map fun M => tabulate2 T M
    cond := true
    sums := (Ms.map fun M => tabulate2 T M).map fun t => matSum T (ofTable t) }

/-- The tile-size-free continuation-flag sequence of the self-suppression
loop on abstract matrices supported in the N x N corner. -/
def condA (N : ℕ) (thr : ℚ) (Ms : List (ℕ → ℕ → ℚ)) : ℕ → Bool
  | 0 => true
  | n + 1 =>
    (List.zipWith (fun o w => decide (thr < o - w))
      (Ms.map fun M => matSum N ((self_step_mat N thr)^[n] M))
      (Ms.map fun M => matSum N ((self_step_mat N thr)^[n + 1] M))).any id

/-- One batched self-suppression step on explicit state fields. -/
theorem self_suppression_step_eq (T : ℕ) (thr : ℚ)
    (mats : List (List (List ℚ))) (c : Bool) (sums : List ℚ) :
    self_suppression_step T thr ⟨mats, c, sums⟩ =
      ⟨mats.map fun t => tabulate2 T (self_step_mat T thr (ofTable t)),
        (List.zipWith (fun o w => decide (thr < o - w)) sums
          ((mats.map fun t => tabulate2 T (self_step_mat T thr (ofTable t))).map
            fun t => matSum T (ofTable t))).any id,
        (mats.map fun t => tabulate2 T (self_step_mat T thr (ofTable t))).map
          fun t => matSum T (ofTable t)⟩ := rfl

/-- The batched self-suppression iterates of a single-tile state: the stored
tensors are the tile-size-free abstract iterates materialised at size T, the
sums are their N-corner sums, and the flag is the tile-size-free flag
sequence. -/
theorem batch_self_iterate (T N : ℕ) (thr : ℚ) (hthr : 0 ≤ thr) (hNT : N ≤ T)
    (Ms : List (ℕ → ℕ → ℚ))
    (hinv : ∀ M ∈ Ms, zeroExt N M ∧ entryShape thr M) (n : ℕ) :
    (self_suppression_step T thr)^[n] (mkS0 T Ms) =
      { mats := Ms.map fun M => tabulate2 T ((self_step_mat N thr)^[n] M)
        cond := condA N thr Ms n
        sums := Ms.map fun M => matSum N ((self_step_mat N thr)^[n] M) } := by
  induction n with
  | zero =>
    rw [Function.iterate_zero_apply, mkS0]
    have hsums : ((Ms.map fun M => tabulate2 T M).map fun t =>
        matSum T (ofTable t)) =
        Ms.map fun M => matSum N ((self_step_mat N thr)^[0] M) := by
      rw [List.map_map]
      apply List.map_congr_left
      intro M hM
      show matSum T (ofTable (tabulate2 T M)) =
        matSum N ((self_step_mat N thr)^[0] M)
      rw [show (self_step_mat N thr)^[0] M = M from rfl,
        ofTable_tabulate2 T M (fun i j h => zeroExt_mono hNT (hinv M hM).1 i j h),
        matSum_congr hNT (hinv M hM).1]
    rw [hsums]
    rfl
  | succ n ih =>
    rw [Function.iterate_succ_apply', ih, self_suppression_step_eq]
    have hstep : ((Ms.map fun M => tabulate2 T ((self_step_mat N thr)^[n] M)).map
        fun t => tabulate2 T (self_step_mat T thr (ofTable t))) =
        Ms.map fun M => tabulate2 T ((self_step_mat N thr)^[n + 1] M) := by
      rw [List.map_map]
      apply List.map_congr_left
      intro M hM
      show tabulate2 T (self_step_mat T thr (ofTable (tabulate2 T
          ((self_step_mat N thr)^[n] M)))) =
        tabulate2 T ((self_step_mat N thr)^[n + 1] M)
      have hzn : zeroExt N ((self_step_mat N thr)^[n] M) :=
        zeroExt_iterate N thr M (hinv M hM).1 n
      have hshn : entryShape thr ((self_step_mat N thr)^[n] M) :=
        entryShape_iterate N thr M (hinv M hM).2 n
      rw [ofTable_tabulate2 T _ (fun i j h => zeroExt_mono hNT hzn i j h),
        self_step_mat_congr thr hNT (le_refl N) hzn
          (entryShape_nonneg thr hthr hshn),
        ← Function.iterate_succ_apply' (self_step_mat N thr) n M]
    have hsums2 : ((Ms.map fun M =>
        tabulate2 T ((self_step_mat N thr)^[n + 1] M)).map
        fun t => matSum T (ofTable t)) =
        Ms.map fun M => matSum N ((self_step_mat N thr)^[n + 1] M) := by
      rw [List.map_map]
      apply List.map_congr_left
      intro M hM
      show matSum T (ofTable (tabulate2 T ((self_step_mat N thr)^[n + 1] M))) =
        matSum N ((self_step_mat N thr)^[n + 1] M)
      have hz1 : zeroExt N ((self_step_mat N thr)^[n + 1] M) :=
        zeroExt_iterate N thr M (hinv M hM).1 (n + 1)
      rw [ofTable_tabulate2 T _ (fun i j h => zeroExt_mono hNT hz1 i j h),
        matSum_congr hNT hz1]
    rw [hstep, hsums2]
    rfl

/-- Two single-tile materialisations of the same abstract matrices run the
self-suppression while loop for the same number of iterations. -/
theorem selfSteps_mkS0_eq (T1 T2 N : ℕ) (thr : ℚ) (hthr : 0 ≤ thr)
    (hN : 0 < N) (h1 : N ≤ T1) (h2 : N ≤ T2) (Ms : List (ℕ → ℕ → ℚ))
    (hinv : ∀ M ∈ Ms, zeroExt N M ∧ entryShape thr M ∧ upperTri M) :
    selfSteps T1 thr T1 (mkS0 T1 Ms) = selfSteps T2 thr T2 (mkS0 T2 Ms) := by
  have hinv' : ∀ M ∈ Ms, zeroExt N M ∧ entryShape thr M :=
    fun M hM => ⟨(hinv M hM).1, (hinv M hM).2.1⟩
  have hcond : ∀ T : ℕ, N ≤ T → ∀ k,
      ((self_suppression_step T thr)^[k] (mkS0 T Ms)).cond =
        condA N thr Ms k := by
    intro T hT k
    rw [batch_self_iterate T N thr hthr hT Ms hinv' k]
  have hfalse : ∀ T : ℕ, N ≤ T → condA N thr Ms T = false := by
    intro T hT
    rw [← hcond T hT T]
    refine cond_T_false T thr (lt_of_lt_of_le hN hT) hthr (mkS0 T Ms) rfl ?_
    intro t ht
    have ht' : t ∈ Ms.map fun M => tabulate2 T M := ht
    rcases List.mem_map.mp ht' with ⟨M, hM, rfl⟩
    have hz : zeroExt T M := zeroExt_mono hT (hinv M hM).1
    rw [ofTable_tabulate2 T M fun i j h => hz i j h]
    exact ⟨hz, (hinv M hM).2.2⟩
  have hex : ∃ k, condA N thr Ms k = false := ⟨T1, hfalse T1 h1⟩
  have hstar := Nat.find_spec hex
  have hmin : ∀ k < Nat.find hex, condA N thr Ms k = true := by
    intro k hk
    exact eq_true_of_ne_false (Nat.find_min hex hk)
  rw [selfSteps_eq_of T1 thr (Nat.find hex) (mkS0 T1 Ms)
      (fun k hk => by rw [hcond T1 h1 k]; exact hmin k hk)
      (by rw [hcond T1 h1]; exact hstar) T1 (Nat.find_min' hex (hfalse T1 h1)),
    selfSteps_eq_of T2 thr (Nat.find hex) (mkS0 T2 Ms)
      (fun k hk => by rw [hcond T2 h2 k]; exact hmin k hk)
      (by rw [hcond T2 h2]; exact hstar) T2 (Nat.find_min' hex (hfalse T2 h2))]

/-- The updated array of a single-tile body application, expressed without
the tile size: the region below N is masked by the N-corner suppressed test,
everything above N is the zero box. -/
theorem body_image_single (T : ℕ) (thr : ℚ) {N : ℕ} (hthr : 0 ≤ thr)
    (hNT : N ≤ T) (n : ℕ) (arr : ℕ → Box)
    (haz : ∀ p, N ≤ p → arr p = zeroBox) (p : ℕ) :
    body_image T thr n 0 arr p =
      if p < N then
        scaleBox (1 - boolQ (suppressed_box N
          ((self_step_mat N thr)^[n] (tile_self_iou N thr arr)) p)) (arr p)
      else zeroBox := by
  have h1 : imageSlice1 T thr 0 arr = arr := imageSlice1_zero_idx T thr hNT arr haz
  have hz0 : zeroExt N (tile_self_iou N thr arr) := zeroExt_tile_self_iou N thr arr
  have hsh0 : entryShape thr (tile_self_iou N thr arr) :=
    entryShape_tile_self_iou N thr hthr arr
  have hiter : (self_step_mat T thr)^[n] (tile_self_iou T thr arr) =
      (self_step_mat N thr)^[n] (tile_self_iou N thr arr) := by
    rw [tile_self_iou_congr thr hNT arr haz]
    exact self_step_iterate_congr thr hthr hNT hz0 hsh0 n
  have hzA : zeroExt N ((self_step_mat N thr)^[n] (tile_self_iou N thr arr)) :=
    zeroExt_iterate N thr _ hz0 n
  rw [body_image]
  simp only [write_tile, imageSlice2, h1, Nat.zero_mul, Nat.zero_add,
    Nat.one_mul, Nat.sub_zero, Nat.zero_le, true_and]
  rw [hiter, suppressed_box_congr hNT hzA p]
  rcases Nat.lt_or_ge p N with hpN | hpN
  · rw [if_pos (lt_of_lt_of_le hpN hNT), if_pos hpN]
  · rw [if_neg (Nat.not_lt.mpr hpN)]
    rcases Nat.lt_or_ge p T with hpT | hpT
    · rw [if_pos hpT, haz p hpN, scaleBox_zeroBox]
    · rw [if_neg (Nat.not_lt.mpr hpT), haz p hpN]

/-- The inner iteration count of a single-tile body application is the count
of the abstract single-tile state. -/
theorem body_inner_count_mkS0 (T N : ℕ) (thr : ℚ) (s : LoopState)
    (hidx : s.idx = 0) (hNT : N ≤ T)
    (haz : ∀ arr ∈ s.boxes, ∀ p, N ≤ p → arr p = zeroBox) :
    body_inner_count T thr s =
      selfSteps T thr T
        (mkS0 T (s.boxes.map fun arr => tile_self_iou N thr arr)) := by
  simp only [body_inner_count]
  have hmats : ((s.boxes.map (imageSlice1 T thr s.idx)).map
      fun sl => tabulate2 T (tile_self_iou T thr sl)) =
      (s.boxes.map fun arr => tile_self_iou N thr arr).map
        fun M => tabulate2 T M := by
    rw [List.map_map, List.map_map]
    apply List.map_congr_left
    intro arr hArr
    show tabulate2 T (tile_self_iou T thr (imageSlice1 T thr s.idx arr)) =
      tabulate2 T (tile_self_iou N thr arr)
    rw [hidx, imageSlice1_zero_idx T thr hNT arr (haz arr hArr),
      tile_self_iou_congr thr hNT arr (haz arr hArr)]
  rw [hmats, mkS0]

/-- Folding min from zero over a list of zeros stays zero. -/
theorem foldl_min_zero (l : List ℕ) (h : ∀ x ∈ l, x = 0) :
    l.foldl min 0 = 0 := by
  induction l with
  | nil => rfl
  | cons a t ih =>
    rw [List.foldl_cons, h a (List.mem_cons_self a t), Nat.min_self]
    exact ih fun x hx => h x (List.mem_cons_of_mem a hx)

/-- The batch minimum of the all-zero initial output sizes is zero. -/
theorem minD_replicate_zero (B : ℕ) : minD (List.replicate B 0) = 0 := by
  cases B with
  | zero => rfl
  | succ B =>
    rw [List.replicate_succ, minD]
    exact foldl_min_zero _ fun x hx => List.eq_of_mem_replicate hx

/-- With a tile covering max(N, m), the padded length is exactly the tile
size. -/
theorem nmsP_single (N m T : ℕ) (h0 : 0 < max N m) (hle : max N m ≤ T) :
    nmsP N m T = T := by
  rw [nmsP]
  obtain ⟨a, ha⟩ : ∃ a, max N m = a := ⟨_, rfl⟩
  rw [ha] at h0 hle ⊢
  have hdiv : (a + T - 1) / T = 1 := Nat.div_eq_of_lt_le (by omega) (by omega)
  rw [hdiv, Nat.one_mul]

/-- With a tile covering max(N, m), the outer loop has exactly one
iteration. -/
theorem nmsNumIters_single (N m T : ℕ) (h0 : 0 < max N m) (hle : max N m ≤ T) :
    nmsNumIters N m T = 1 := by
  have hT : 0 < T := lt_of_lt_of_le h0 hle
  rw [nmsNumIters, nmsP_single N m T h0 hle, Nat.div_self hT]

/-- With a positive requested output and a single tile, the outer loop runs
exactly one iteration. -/
theorem nmsKf_one (boxesB : List (List Box)) (scoresB : List (List ℚ)) (m : ℕ)
    (thr sthr : ℚ) (T : ℕ) (hm : 0 < m)
    (hmax : max (nmsN boxesB) m ≤ T) :
    nmsKf boxesB scoresB m thr sthr T = 1 := by
  have h0 : 0 < max (nmsN boxesB) m := lt_of_lt_of_le hm (le_max_right _ _)
  have hiters : nmsNumIters (nmsN boxesB) m T = 1 :=
    nmsNumIters_single _ _ _ h0 hmax
  obtain ⟨-, hk, -, hlast⟩ := nmsKf_spec boxesB scoresB m thr sthr T
  rw [hiters] at hk hlast
  rcases Nat.lt_or_ge (nmsKf boxesB scoresB m thr sthr T) 1 with hlt | hge
  · have hk0 : nmsKf boxesB scoresB m thr sthr T = 0 := by omega
    rcases hlast with h | h
    · omega
    · exfalso
      rw [hk0, Function.iterate_zero_apply] at h
      have htrue : loop_cond m 1 (nmsInit boxesB scoresB sthr) = true := by
        rw [loop_cond_true_iff]
        refine ⟨?_, ?_⟩
        · rw [nmsInit_outputs, minD_replicate_zero]
          exact hm
        · rw [nmsInit_idx]
          exact Nat.zero_lt_one
      rw [htrue] at h
      exact Bool.noConfusion h
  · omega

/-- Counting kept boxes over a region whose tail is zero boxes reduces to
the first N positions. -/
theorem countIn_zero_above {N c : ℕ} (arr : ℕ → Box) (hNc : N ≤ c)
    (haz : ∀ p, N ≤ p → arr p = zeroBox) : countIn c arr = countIn N arr := by
  obtain ⟨d, rfl⟩ : ∃ d, c = N + d := ⟨c - N, by omega⟩
  rw [countIn_add]
  have hnil : ((List.range d).filter fun r => anyPos (arr (N + r))).length = 0 := by
    rw [List.length_eq_zero, List.filter_eq_nil_iff]
    intro r hr
    rw [haz (N + r) (Nat.le_add_right N r), anyPos_zeroBox]
    exact Bool.false_ne_true
  rw [hnil, Nat.add_zero]

/-- The kept list over a region whose tail positions are not kept reduces to
the first N positions. -/
theorem keptList_false_above {N P : ℕ} (kept : ℕ → Bool) (hNP : N ≤ P)
    (h : ∀ p, N ≤ p → kept p = false) : keptList P kept = keptList N kept := by
  obtain ⟨d, rfl⟩ : ∃ d, P = N + d := ⟨P - N, by omega⟩
  rw [keptList, keptList, List.range_add, List.filter_append]
  have hnil : ((List.range d).map fun r => N + r).filter kept = [] := by
    rw [List.filter_eq_nil_iff]
    intro a ha
    rcases List.mem_map.mp ha with ⟨r, hr, rfl⟩
    rw [h (N + r) (Nat.le_add_right N r)]
    exact Bool.false_ne_true
  rw [hnil, List.append_nil]

/-- Every padded initial per-image array is the zero box from position N
on. -/
theorem nmsInit_boxes_zero_pad (boxesB : List (List Box))
    (scoresB : List (List ℚ)) (sthr : ℚ)
    (hlen : scoresB.length = boxesB.length)
    (hNs : ∀ ss ∈ scoresB, ss.length = nmsN boxesB) :
    ∀ arr ∈ (nmsInit boxesB scoresB sthr).boxes, ∀ p, nmsN boxesB ≤ p →
      arr p = zeroBox := by
  intro arr hArr p hp
  obtain ⟨i, hi, heq⟩ := List.mem_iff_getElem.mp hArr
  have hiB : i < boxesB.length := by
    rwa [nmsInit_boxes_length _ _ _ hlen] at hi
  have h2 : (nmsInit boxesB scoresB sthr).boxes[i]? =
      some ((nmsInit boxesB scoresB sthr).boxes[i]) := List.getElem?_eq_getElem hi
  rw [nmsInit_boxes_getElem boxesB scoresB sthr hlen hiB, Option.some_inj] at h2
  rw [← heq, ← h2]
  apply nmsPaddedArr_pad
  rw [hNs (scoresB.getD i []) (getD_mem_of_lt scoresB [] (hlen ▸ hiB))]
  exact hp

/-- The getD form of the padding fact, covering out-of-range images. -/
theorem nmsInit_boxes_getD_zero_pad (boxesB : List (List Box))
    (scoresB : List (List ℚ)) (sthr : ℚ)
    (hlen : scoresB.length = boxesB.length)
    (hNs : ∀ ss ∈ scoresB, ss.length = nmsN boxesB) :
    ∀ i p, nmsN boxesB ≤ p →
      ((nmsInit boxesB scoresB sthr).boxes.getD i fun _ => zeroBox) p =
        zeroBox := by
  intro i p hp
  rcases Nat.lt_or_ge i (nmsInit boxesB scoresB sthr).boxes.length with hi | hi
  · rw [List.getD_eq_getElem _ _ hi]
    exact nmsInit_boxes_zero_pad boxesB scoresB sthr hlen hNs _
      (List.getElem_mem hi) p hp
  · rw [List.getD_eq_default _ _ hi]

/-- The final array of a single-tile run does not depend on which single
tile size was used, and is the zero box from position N on. -/
theorem nmsArrF_single_tile (boxesB : List (List Box))
    (scoresB : List (List ℚ)) (m : ℕ) (thr sthr : ℚ) (T1 T2 : ℕ)
    (hthr : 0 ≤ thr) (hm : 0 < m) (hN : 0 < nmsN boxesB)
    (hlen : scoresB.length = boxesB.length)
    (hNs : ∀ ss ∈ scoresB, ss.length = nmsN boxesB)
    (hT1 : max (nmsN boxesB) m ≤ T1) (hT2 : max (nmsN boxesB) m ≤ T2)
    (i : ℕ) :
    nmsArrF boxesB scoresB m thr sthr T1 i =
      nmsArrF boxesB scoresB m thr sthr T2 i ∧
    ∀ p, nmsN boxesB ≤ p → nmsArrF boxesB scoresB m thr sthr T1 i p = zeroBox := by
  have hN1 : nmsN boxesB ≤ T1 := le_trans (le_max_left _ _) hT1
  have hN2 : nmsN boxesB ≤ T2 := le_trans (le_max_left _ _) hT2
  have hazB := nmsInit_boxes_zero_pad boxesB scoresB sthr hlen hNs
  have hazI := nmsInit_boxes_getD_zero_pad boxesB scoresB sthr hlen hNs
  have hinvM : ∀ M ∈ (nmsInit boxesB scoresB sthr).boxes.map
      fun arr => tile_self_iou (nmsN boxesB) thr arr,
      zeroExt (nmsN boxesB) M ∧ entryShape thr M ∧ upperTri M := by
    intro M hM
    rcases List.mem_map.mp hM with ⟨arr, hArr, rfl⟩
    exact ⟨zeroExt_tile_self_iou (nmsN boxesB) thr arr,
      entryShape_tile_self_iou (nmsN boxesB) thr hthr arr,
      upperTri_tile_self_iou (nmsN boxesB) thr arr⟩
  have harr : ∀ T : ℕ, max (nmsN boxesB) m ≤ T →
      nmsArrF boxesB scoresB m thr sthr T i =
        body_image T thr (selfSteps T thr T (mkS0 T
          ((nmsInit boxesB scoresB sthr).boxes.map
            fun arr => tile_self_iou (nmsN boxesB) thr arr))) 0
          ((nmsInit boxesB scoresB sthr).boxes.getD i fun _ => zeroBox) := by
    intro T hT
    rw [nmsArrF, nmsKf_one boxesB scoresB m thr sthr T hm hT]
    rw [show (1 : ℕ) = 0 + 1 from rfl, arrTraj_succ, arrTraj_zero_eq,
      nmsInit_idx, Nat.add_zero]
    rw [show innerCounts T thr (nmsInit boxesB scoresB sthr) 0 =
      body_inner_count T thr (nmsInit boxesB scoresB sthr) from rfl]
    rw [body_inner_count_mkS0 T (nmsN boxesB) thr (nmsInit boxesB scoresB sthr)
      (nmsInit_idx boxesB scoresB sthr) (le_trans (le_max_left _ _) hT) hazB]
  constructor
  · funext p
    rw [harr T1 hT1, harr T2 hT2,
      selfSteps_mkS0_eq T1 T2 (nmsN boxesB) thr hthr hN hN1 hN2 _ hinvM,
      body_image_single T1 thr hthr hN1 _ _ (hazI i) p,
      body_image_single T2 thr hthr hN2 _ _ (hazI i) p]
  · intro p hp
    rw [harr T1 hT1, body_image_single T1 thr hthr hN1 _ _ (hazI i) p,
      if_neg (Nat.not_lt.mpr hp)]

/-! ## Negative thresholds: the while-loop exit test can never fail

The source's self-suppression while loop continues while some image's
iou-mass sum dropped by more than the threshold.  On nonnegative iou tensors
a step never increases a sum, so for a negative threshold the drop of zero
at a fixed point already passes the test: the flag can never clear, and the
source's unbounded loop never exits.  (The fueled model of this file returns
where the source diverges; the lemmas below pin the non-exiting flag, and
every totality statement of this development is restricted to nonnegative
thresholds.) -/

/-- One self-suppression matrix update never increases the iou-mass sum of a
nonnegative matrix: every entry is scaled by a 0/1 mask. -/
theorem matSum_step_le (T : ℕ) (thr : ℚ) (M : ℕ → ℕ → ℚ)
    (hnn : ∀ i j, 0 ≤ M i j) :
    matSum T (self_step_mat T thr M) ≤ matSum T M := by
  rw [matSum, matSum]
  apply Finset.sum_le_sum
  intro i hi
  apply Finset.sum_le_sum
  intro j hj
  rw [self_step_mat_in T thr M (Finset.mem_range.mp hi) (Finset.mem_range.mp hj)]
  exact mul_le_of_le_one_left (hnn i j) (boolQ_le_one _)

/-- For a negative threshold, one batched step of the self-suppression loop
raises the continuation flag again (and preserves the state invariants):
some sum drop is at least zero, which exceeds the threshold. -/
theorem self_step_flag_neg (T : ℕ) (thr : ℚ) (hthr : thr < 0)
    (mats : List (List (List ℚ))) (c : Bool)
    (hne : mats ≠ [])
    (hnn : ∀ t ∈ mats, ∀ i j, 0 ≤ ofTable t i j) :
    (self_suppression_step T thr
        ⟨mats, c, mats.map fun t => matSum T (ofTable t)⟩).cond = true ∧
    (self_suppression_step T thr
        ⟨mats, c, mats.map fun t => matSum T (ofTable t)⟩).sums =
      (self_suppression_step T thr
          ⟨mats, c, mats.map fun t => matSum T (ofTable t)⟩).mats.map
        (fun t => matSum T (ofTable t)) ∧
    (self_suppression_step T thr
        ⟨mats, c, mats.map fun t => matSum T (ofTable t)⟩).mats ≠ [] ∧
    ∀ t ∈ (self_suppression_step T thr
        ⟨mats, c, mats.map fun t => matSum T (ofTable t)⟩).mats, ∀ i j,
      0 ≤ ofTable t i j := by
  rw [self_suppression_step_eq]
  refine ⟨?_, rfl, ?_, ?_⟩
  · show (List.zipWith (fun o w => decide (thr < o - w))
      (mats.map fun t => matSum T (ofTable t))
      ((mats.map fun t => tabulate2 T (self_step_mat T thr (ofTable t))).map
        fun t => matSum T (ofTable t))).any id = true
    obtain ⟨t0, rest, rfl⟩ := List.exists_cons_of_ne_nil hne
    rw [List.map_cons, List.map_cons, List.map_cons, List.zipWith_cons_cons,
      List.any_cons]
    rw [ofTable_tabulate2 T _ (fun i j h => self_step_mat_out T thr _ h)]
    have hle : matSum T (self_step_mat T thr (ofTable t0)) ≤
        matSum T (ofTable t0) :=
      matSum_step_le T thr _ (hnn t0 (List.mem_cons_self t0 rest))
    rw [decide_eq_true (by linarith :
      thr < matSum T (ofTable t0) - matSum T (self_step_mat T thr (ofTable t0)))]
    rfl
  · intro hnil
    have hnil' : mats.map (fun t =>
        tabulate2 T (self_step_mat T thr (ofTable t))) = [] := hnil
    exact hne (List.map_eq_nil_iff.mp hnil')
  · intro t ht i j
    have ht' : t ∈ mats.map fun t =>
        tabulate2 T (self_step_mat T thr (ofTable t)) := ht
    rcases List.mem_map.mp ht' with ⟨t0, ht0, rfl⟩
    rw [ofTable_tabulate2 T _ (fun i j h => self_step_mat_out T thr _ h)]
    show 0 ≤ self_step_mat T thr (ofTable t0) i j
    by_cases hin : i < T ∧ j < T
    · rw [self_step_mat_in T thr _ hin.1 hin.2]
      exact mul_nonneg (boolQ_nonneg _) (hnn t0 ht0 i j)
    · rw [self_step_mat_out T thr _ hin]

/-- For a negative threshold, the continuation flag of the self-suppression
while loop never clears: the source's unbounded loop never exits. -/
theorem flag_never_falls_neg (T : ℕ) (thr : ℚ) (hthr : thr < 0)
    (s : SelfState) (h0 : s.cond = true)
    (hs : s.sums = s.mats.map fun t => matSum T (ofTable t))
    (hne : s.mats ≠ [])
    (hnn : ∀ t ∈ s.mats, ∀ i j, 0 ≤ ofTable t i j) :
    ∀ n, ((self_suppression_step T thr)^[n] s).cond = true := by
  have hinv : ∀ n,
      ((self_suppression_step T thr)^[n] s).sums =
        ((self_suppression_step T thr)^[n] s).mats.map
          (fun t => matSum T (ofTable t)) ∧
      ((self_suppression_step T thr)^[n] s).mats ≠ [] ∧
      ∀ t ∈ ((self_suppression_step T thr)^[n] s).mats, ∀ i j,
        0 ≤ ofTable t i j := by
    intro n
    induction n with
    | zero => exact ⟨hs, hne, hnn⟩
    | succ n ih =>
      obtain ⟨h1, h2, h3⟩ := ih
      have hrepr : (self_suppression_step T thr)^[n] s =
          ⟨((self_suppression_step T thr)^[n] s).mats,
            ((self_suppression_step T thr)^[n] s).cond,
            ((self_suppression_step T thr)^[n] s).mats.map
              fun t => matSum T (ofTable t)⟩ := by
        rw [← h1]
      rw [Function.iterate_succ_apply', hrepr]
      have hstep := self_step_flag_neg T thr hthr
        ((self_suppression_step T thr)^[n] s).mats
        ((self_suppression_step T thr)^[n] s).cond h2 h3
      exact ⟨hstep.2.1, hstep.2.2.1, hstep.2.2.2⟩
  intro n
  cases n with
  | zero => exact h0
  | succ n =>
    obtain ⟨h1, h2, h3⟩ := hinv n
    have hrepr : (self_suppression_step T thr)^[n] s =
        ⟨((self_suppression_step T thr)^[n] s).mats,
          ((self_suppression_step T thr)^[n] s).cond,
          ((self_suppression_step T thr)^[n] s).mats.map
            fun t => matSum T (ofTable t)⟩ := by
      rw [← h1]
    rw [Function.iterate_succ_apply', hrepr]
    exact (self_step_flag_neg T thr hthr
      ((self_suppression_step T thr)^[n] s).mats
      ((self_suppression_step T thr)^[n] s).cond h2 h3).1

/-! ## Claim theorems -/

set_option maxRecDepth 1000000

/-- C4: the self-suppression fixed-point loop of one tile terminates and
performs at most tile_size iterations: on the state the tile body builds
(the per-image tile iou tensors, flag true, matching iou-mass sums), the
iteration count is at most T, and any fuel beyond T yields the same final
state. -/
theorem C4_self_loop_within_tile_size (T : ℕ) (thr : ℚ) (hT : 0 < T)
    (hthr : 0 ≤ thr) (slices : List (ℕ → Box)) (k : ℕ) :
    selfSteps T thr (T + k)
      { mats := slices.map fun sl => tabulate2 T (tile_self_iou T thr sl)
        cond := true
        sums := (slices.map fun sl => tabulate2 T (tile_self_iou T thr sl)).map
          fun t => matSum T (ofTable t) } ≤ T ∧
    self_suppression_loop T thr (T + k)
      { mats := slices.map fun sl => tabulate2 T (tile_self_iou T thr sl)
        cond := true
        sums := (slices.map fun sl => tabulate2 T (tile_self_iou T thr sl)).map
          fun t => matSum T (ofTable t) } =
    self_suppression_loop T thr T
      { mats := slices.map fun sl => tabulate2 T (tile_self_iou T thr sl)
        cond := true
        sums := (slices.map fun sl => tabulate2 T (tile_self_iou T thr sl)).map
          fun t => matSum T (ofTable t) } := by
  have hmats : ∀ t ∈ slices.map fun sl => tabulate2 T (tile_self_iou T thr sl),
      zeroExt T (ofTable t) ∧ upperTri (ofTable t) := by
    intro t ht
    obtain ⟨sl, hsl, hslt⟩ := List.mem_map.mp ht
    rw [← hslt, ofTable_tabulate2 T _ fun i j h => tile_self_iou_out T thr sl h]
    exact ⟨zeroExt_tile_self_iou T thr sl, upperTri_tile_self_iou T thr sl⟩
  constructor
  · exact selfSteps_le_of_false T thr T _
      (cond_T_false T thr hT hthr _ rfl hmats) (T + k)
  · exact self_loop_fuel T thr hT hthr _ rfl hmats k

/-- Witness for C4 at T = 1, thr = 0, one slice, five spare fuel. -/
theorem C4_witness :
    (0 : ℕ) < 1 ∧ (0 : ℚ) ≤ 0 ∧
    (selfSteps 1 0 (1 + 5)
      { mats := [fun _ => (⟨0, 0, 1, 1⟩ : Box)].map fun sl =>
          tabulate2 1 (tile_self_iou 1 0 sl)
        cond := true
        sums := ([fun _ => (⟨0, 0, 1, 1⟩ : Box)].map fun sl =>
          tabulate2 1 (tile_self_iou 1 0 sl)).map
            fun t => matSum 1 (ofTable t) } ≤ 1 ∧
    self_suppression_loop 1 0 (1 + 5)
      { mats := [fun _ => (⟨0, 0, 1, 1⟩ : Box)].map fun sl =>
          tabulate2 1 (tile_self_iou 1 0 sl)
        cond := true
        sums := ([fun _ => (⟨0, 0, 1, 1⟩ : Box)].map fun sl =>
          tabulate2 1 (tile_self_iou 1 0 sl)).map
            fun t => matSum 1 (ofTable t) } =
    self_suppression_loop 1 0 1
      { mats := [fun _ => (⟨0, 0, 1, 1⟩ : Box)].map fun sl =>
          tabulate2 1 (tile_self_iou 1 0 sl)
        cond := true
        sums := ([fun _ => (⟨0, 0, 1, 1⟩ : Box)].map fun sl =>
          tabulate2 1 (tile_self_iou 1 0 sl)).map
            fun t => matSum 1 (ofTable t) }) :=
  ⟨by decide, by decide,
    C4_self_loop_within_tile_size 1 0 (by decide) (by decide)
      [fun _ => (⟨0, 0, 1, 1⟩ : Box)] 5⟩

/-- C5 counterexample: iou_threshold = 2 lies outside [0, 1], yet the call
is not rejected: it runs the full computation and returns a result. -/
theorem C5_cex :
    non_max_suppression [[⟨0, 0, 1, 1⟩]] [[1]] 1 2 0 1 = some ([[0]], [1]) := by
  decide

/-- C5 (amended): the source performs no input validation whatsoever.  The
only raising input is tile_size = 0 (a ZeroDivisionError in the padding
computation, modelled as none).  An iou_threshold above 1 is not rejected:
the call runs and returns a result — totality holds for every
shape-consistent call with positive tile_size, positive box count and
nonnegative iou_threshold.  A negative iou_threshold is not rejected either,
but then no result ever comes back: on the nonnegative iou tensors the loop
carries, a self-suppression step never increases a sum, so the exit test
(some sum dropped by more than the threshold) can never fail and the
source's unbounded while loop never exits — the third conjunct pins the
non-clearing flag. -/
theorem C5_no_validation (boxesB : List (List Box)) (scoresB : List (List ℚ))
    (m : ℕ) (thr sthr : ℚ) (T : ℕ) :
    non_max_suppression boxesB scoresB m thr sthr 0 = none ∧
    (T ≠ 0 → 0 ≤ thr → 0 < nmsN boxesB → scoresB.length = boxesB.length →
      (∀ ss ∈ scoresB, ss.length = nmsN boxesB) →
      (non_max_suppression boxesB scoresB m thr sthr T).isSome = true) ∧
    (thr < 0 → ∀ s : SelfState, s.cond = true →
      s.sums = s.mats.map (fun t => matSum T (ofTable t)) →
      s.mats ≠ [] →
      (∀ t ∈ s.mats, ∀ i j, 0 ≤ ofTable t i j) →
      ∀ n, ((self_suppression_step T thr)^[n] s).cond = true) := by
  refine ⟨?_, ?_, ?_⟩
  · simp only [non_max_suppression]
    rw [if_pos trivial]
  · intro hT hthr hN hlen hNs
    rw [nms_eq_run boxesB scoresB m thr sthr T hT hN hlen hNs]
    rfl
  · intro hthr s h0 hs hne hnn
    exact flag_never_falls_neg T thr hthr s h0 hs hne hnn

/-- Witness for C5: the invalid iou_threshold = 2 call fails on tile_size 0
and succeeds on tile_size 3, and at iou_threshold = -1 the loop flag of a
one-image state is still up after two steps. -/
theorem C5_witness :
    non_max_suppression [[⟨0, 0, 1, 1⟩]] [[1]] 1 2 0 0 = none ∧
    (non_max_suppression [[⟨0, 0, 1, 1⟩]] [[1]] 1 2 0 3).isSome = true ∧
    ((self_suppression_step 3 (-1))^[2]
      ⟨[([] : List (List ℚ))], true,
        [([] : List (List ℚ))].map fun t => matSum 3 (ofTable t)⟩).cond = true :=
  ⟨(C5_no_validation [[⟨0, 0, 1, 1⟩]] [[1]] 1 2 0 3).1,
   (C5_no_validation [[⟨0, 0, 1, 1⟩]] [[1]] 1 2 0 3).2.1
     (by decide) (by decide) (by decide) (by decide) (by decide),
   (C5_no_validation [[⟨0, 0, 1, 1⟩]] [[1]] 1 (-1) 0 3).2.2 (by decide)
     ⟨[([] : List (List ℚ))], true,
       [([] : List (List ℚ))].map fun t => matSum 3 (ofTable t)⟩
     rfl rfl (List.cons_ne_nil _ _)
     (fun t ht i j => by
       have ht' : t ∈ [([] : List (List ℚ))] := ht
       rw [List.mem_singleton.mp ht']
       exact le_refl 0) 2⟩

/-- C6 counterexample: zero boxes with max_output_size = 1 is not a
well-defined empty result: the index clamp min(idx, num_boxes - 1) makes
every gather index -1 and the call fails (none). -/
theorem C6_cex :
    non_max_suppression [([] : List Box)] [([] : List ℚ)] 1 (mkRat 1 2) 0 1 =
      none := by
  decide

/-- C6 (amended): max_output_size = 0 is indeed a well-defined degenerate
case, returning empty index rows and num_valid = 0 for every image; but zero
boxes with max_output_size ≥ 1 is an error (none), because the clamp to
num_boxes - 1 = -1 sends every gather index out of range. -/
theorem C6_degenerate (boxesB : List (List Box)) (scoresB : List (List ℚ))
    (m : ℕ) (thr sthr : ℚ) (T : ℕ) (hT : T ≠ 0)
    (hlen : scoresB.length = boxesB.length) :
    (non_max_suppression boxesB scoresB 0 thr sthr T =
      some ((List.range boxesB.length).map fun _ => ([] : List ℤ),
        List.replicate boxesB.length 0)) ∧
    (boxesB ≠ [] → nmsN boxesB = 0 → 1 ≤ m →
      non_max_suppression boxesB scoresB m thr sthr T = none) := by
  constructor
  · rw [nms_unfolded boxesB scoresB 0 thr sthr T hT hlen]
    have hFlat : ((List.range boxesB.length).map fun k =>
        (recIdx (nmsP (nmsN boxesB) 0 T) (nmsN boxesB) 0
          (fun p => anyPos (nmsArrF boxesB scoresB 0 thr sthr T k p))).map
          fun y => y + (k : ℤ) * (nmsN boxesB : ℤ)).flatten = [] := by
      apply List.eq_nil_of_length_eq_zero
      rw [flatten_length_uniform _ 0]
      · exact Nat.mul_zero _
      · intro l hl
        obtain ⟨k, hk, hkl⟩ := List.mem_map.mp hl
        rw [← hkl, List.length_map, recIdx_length _ _ _ _ (Nat.zero_le _)]
    rw [hFlat]
    rw [List.mapM_nil]
    rw [show (pure [] : Option (List ℤ)) = some [] from rfl, Option.map_some']
    rw [Option.some_inj, Prod.mk.injEq]
    constructor
    · apply List.map_congr_left
      intro i hi
      rfl
    · rw [show (fun (o : ℕ) => min o 0) = fun _ => 0 from
        funext fun o => Nat.min_zero o]
      rw [List.map_const', nmsFin_outputs_length boxesB scoresB 0 thr sthr T hlen]
  · intro hBne hN0 hm
    rw [nms_unfolded boxesB scoresB m thr sthr T hT hlen]
    rw [hN0]
    have hB : 0 < boxesB.length := List.length_pos.mpr hBne
    have hmlen : 0 < (recIdx (nmsP 0 m T) 0 m
        (fun p => anyPos (nmsArrF boxesB scoresB m thr sthr T 0 p))).length := by
      rw [recIdx_length _ _ _ _ (nmsP_ge_right _ _ _ hT)]
      omega
    set v := (recIdx (nmsP 0 m T) 0 m
      (fun p => anyPos (nmsArrF boxesB scoresB m thr sthr T 0 p)))[0] with hv
    have hvmem : v ∈ recIdx (nmsP 0 m T) 0 m
        (fun p => anyPos (nmsArrF boxesB scoresB m thr sthr T 0 p)) :=
      List.getElem_mem hmlen
    have hvneg : v < 0 := recIdx_mem_neg (nmsP 0 m T) m _ v hvmem
    rw [mapM_eq_none _ _ ⟨v + ((0 : ℕ) : ℤ) * ((0 : ℕ) : ℤ), ?_, ?_⟩]
    · rfl
    · apply List.mem_flatten.mpr
      refine ⟨(recIdx (nmsP 0 m T) 0 m
        (fun p => anyPos (nmsArrF boxesB scoresB m thr sthr T 0 p))).map
          fun y => y + ((0 : ℕ) : ℤ) * ((0 : ℕ) : ℤ), ?_, ?_⟩
      · exact List.mem_map.mpr ⟨0, List.mem_range.mpr hB, rfl⟩
      · exact List.mem_map.mpr ⟨v, hvmem, rfl⟩
    · rw [if_neg]
      intro hcon
      have h1 := hcon.1
      omega


/-- Witness for C6 at one box, tile size 1: the max_output_size = 0 call
returns the empty zero-filled result. -/
theorem C6_witness :
    (1 : ℕ) ≠ 0 ∧
    ((non_max_suppression [[(⟨0, 0, 1, 1⟩ : Box)]] [[(1 : ℚ)]] 0 0 0 1 =
        some ((List.range 1).map fun _ => ([] : List ℤ), List.replicate 1 0)) ∧
      ([[(⟨0, 0, 1, 1⟩ : Box)]] ≠ ([] : List (List Box)) →
        nmsN [[(⟨0, 0, 1, 1⟩ : Box)]] = 0 → 1 ≤ 5 →
        non_max_suppression [[(⟨0, 0, 1, 1⟩ : Box)]] [[(1 : ℚ)]] 5 0 0 1 =
          none)) :=
  ⟨one_ne_zero,
    C6_degenerate [[(⟨0, 0, 1, 1⟩ : Box)]] [[(1 : ℚ)]] 5 0 0 1 one_ne_zero rfl⟩

/-- C8: the score pre-filter is a strict comparison: a score strictly above
the threshold keeps its value and box, an equal-or-lower score zeroes both;
and an image whose scores are all at most the threshold comes back with
num_valid 0 and an all-zero index row. -/
theorem C8_strict_score_filter :
    (∀ sthr v : ℚ, v * boolQ (decide (sthr < v)) = if sthr < v then v else 0) ∧
    (∀ (sthr v : ℚ) (b : Box),
      scaleBox (boolQ (decide (sthr < v))) b = if sthr < v then b else zeroBox) ∧
    ∀ (boxesB : List (List Box)) (scoresB : List (List ℚ)) (m : ℕ)
      (thr sthr : ℚ) (T : ℕ) (i : ℕ),
      T ≠ 0 → 0 < nmsN boxesB → scoresB.length = boxesB.length →
      (∀ bs ∈ boxesB, bs.length = nmsN boxesB) →
      (∀ ss ∈ scoresB, ss.length = nmsN boxesB) →
      i < boxesB.length →
      (∀ v ∈ scoresB.getD i [], v ≤ sthr) →
      ∃ L V, non_max_suppression boxesB scoresB m thr sthr T = some (L, V) ∧
        V.getD i 0 = 0 ∧ L.getD i [] = List.replicate m 0 := by
  refine ⟨fun sthr v => ?_, fun sthr v b => ?_, ?_⟩
  · by_cases h : sthr < v
    · rw [decide_eq_true h, if_pos h, show boolQ true = 1 from rfl, mul_one]
    · rw [decide_eq_false h, if_neg h, show boolQ false = 0 from rfl, mul_zero]
  · rw [scaleBox_boolQ]
    by_cases h : sthr < v
    · rw [decide_eq_true h, if_pos rfl, if_pos h]
    · rw [decide_eq_false h, if_neg Bool.false_ne_true, if_neg h]
  · intro boxesB scoresB m thr sthr T i hT hN hlen hNb hNs hi hall
    have hzero : ∀ p, nmsArrF boxesB scoresB m thr sthr T i p = zeroBox := by
      intro p
      have h0 : arrTraj T thr (nmsInit boxesB scoresB sthr) 0 i p = zeroBox := by
        rw [arrTraj_zero_eq]
        have hig := nmsInit_boxes_getElem boxesB scoresB sthr hlen hi
        have hilen : i < (nmsInit boxesB scoresB sthr).boxes.length := by
          rw [nmsInit_boxes_length _ _ _ hlen]
          exact hi
        have harr : (nmsInit boxesB scoresB sthr).boxes[i] =
            nmsPaddedArr sthr (boxesB.getD i []) (scoresB.getD i []) := by
          rw [List.getElem?_eq_getElem hilen, Option.some_inj] at hig
          exact hig
        rw [List.getD_eq_getElem _ _ hilen, harr]
        exact nmsPaddedArr_all_zero sthr _ _
          (hNb _ (getD_mem_of_lt boxesB [] hi))
          (hNs _ (getD_mem_of_lt scoresB [] (hlen ▸ hi))) hall p
      rw [nmsArrF]
      exact arrTraj_zero_persists T thr _ i p h0 _
    have hnv0 : nmsNv boxesB scoresB m thr sthr T i = 0 := by
      rw [nmsNv, nmsOut, countIn_zero _ _ fun p hp => by
        rw [hzero p]; exact anyPos_zeroBox]
      exact Nat.zero_min m
    refine ⟨_, _, nms_eq_run boxesB scoresB m thr sthr T hT hN hlen hNs, ?_, ?_⟩
    · rw [getD_range_map, if_pos hi, hnv0]
    · rw [getD_range_map, if_pos hi]
      have : ∀ q ∈ List.range m,
          (if q < nmsNv boxesB scoresB m thr sthr T i then
            (((nmsPerm sthr (scoresB.getD i [])).getD
              ((nmsSel boxesB scoresB m thr sthr T i).getD q 0) 0 : ℕ) : ℤ)
          else 0) = (fun _ => (0 : ℤ)) q := by
        intro q hq
        rw [hnv0, if_neg (Nat.not_lt_zero q)]
      rw [List.map_congr_left this, List.map_const', List.length_range]

/-- Witness for C8: score 1 never exceeds threshold 5, so image 0 comes back
empty. -/
theorem C8_witness :
    ∃ L V, non_max_suppression [[⟨0, 0, 1, 1⟩]] [[(1 : ℚ)]] 2 (mkRat 1 2) 5 1 =
      some (L, V) ∧ V.getD 0 0 = 0 ∧ L.getD 0 [] = List.replicate 2 0 :=
  C8_strict_score_filter.2.2 [[⟨0, 0, 1, 1⟩]] [[(1 : ℚ)]] 2 (mkRat 1 2) 5 1 0
    (by decide) (by decide) (by decide) (by decide) (by decide) (by decide)
    (by decide)


/-- C3: for shape-consistent input, num_valid[i] is at most max_output_size
and at most N, the index entries below num_valid[i] are pairwise distinct
integers in [0, N), and the entries from num_valid[i] on are zero. -/
theorem C3_output_wellformed (boxesB : List (List Box)) (scoresB : List (List ℚ))
    (m : ℕ) (thr sthr : ℚ) (T : ℕ) (hT : T ≠ 0) (hN : 0 < nmsN boxesB)
    (hlen : scoresB.length = boxesB.length)
    (hNs : ∀ ss ∈ scoresB, ss.length = nmsN boxesB) :
    ∃ L V, non_max_suppression boxesB scoresB m thr sthr T = some (L, V) ∧
      ∀ i < boxesB.length,
        V.getD i 0 ≤ m ∧ V.getD i 0 ≤ nmsN boxesB ∧
        (∀ q < V.getD i 0, 0 ≤ (L.getD i []).getD q 0 ∧
          (L.getD i []).getD q 0 < (nmsN boxesB : ℤ)) ∧
        (∀ q1 q2, q1 < q2 → q2 < V.getD i 0 →
          (L.getD i []).getD q1 0 ≠ (L.getD i []).getD q2 0) ∧
        (∀ q, V.getD i 0 ≤ q → q < m → (L.getD i []).getD q 0 = 0) := by
  refine ⟨_, _, nms_eq_run boxesB scoresB m thr sthr T hT hN hlen hNs, ?_⟩
  intro i hi
  have hVg : ((List.range boxesB.length).map fun i =>
      nmsNv boxesB scoresB m thr sthr T i).getD i 0 = nmsNv boxesB scoresB m thr sthr T i := by
    rw [getD_range_map, if_pos hi]
  have hLg : ((List.range boxesB.length).map fun i => (List.range m).map fun q =>
      if q < nmsNv boxesB scoresB m thr sthr T i then
        (((nmsPerm sthr (scoresB.getD i [])).getD
          ((nmsSel boxesB scoresB m thr sthr T i).getD q 0) 0 : ℕ) : ℤ)
      else 0).getD i [] = (List.range m).map fun q =>
      if q < nmsNv boxesB scoresB m thr sthr T i then
        (((nmsPerm sthr (scoresB.getD i [])).getD
          ((nmsSel boxesB scoresB m thr sthr T i).getD q 0) 0 : ℕ) : ℤ)
      else 0 := by
    rw [getD_range_map, if_pos hi]
  rw [hVg, hLg]
  have hssN : (scoresB.getD i []).length = nmsN boxesB :=
    hNs _ (getD_mem_of_lt scoresB [] (hlen ▸ hi))
  have hkeptN : ∀ p, anyPos (nmsArrF boxesB scoresB m thr sthr T i p) = true →
      p < nmsN boxesB :=
    fun p h => nmsKept_lt boxesB scoresB m thr sthr T hlen hNs h
  have hqK : ∀ q < nmsNv boxesB scoresB m thr sthr T i, q < (nmsSel boxesB scoresB m thr sthr T i).length := by
    intro q hq
    have h1 := nmsNv_le_countIn_P boxesB scoresB m thr sthr T hT i
    rw [nmsSel_length]
    omega
  have hEntry : ∀ q, q < nmsNv boxesB scoresB m thr sthr T i →
      (nmsSel boxesB scoresB m thr sthr T i).getD q 0 < nmsN boxesB ∧
      (nmsSel boxesB scoresB m thr sthr T i).getD q 0 < (nmsPerm sthr (scoresB.getD i [])).length := by
    intro q hq
    have hk := hqK q hq
    rw [List.getD_eq_getElem _ _ hk]
    have hmem : (nmsSel boxesB scoresB m thr sthr T i)[q] ∈ nmsSel boxesB scoresB m thr sthr T i := List.getElem_mem hk
    have hkept := keptList_mem_kept _ _ hmem
    have hlt := hkeptN _ hkept
    refine ⟨hlt, ?_⟩
    rw [nmsPerm_length, hssN]
    exact hlt
  refine ⟨min_le_right _ _, ?_, ?_, ?_, ?_⟩
  · have h1 := nmsNv_le_countIn_P boxesB scoresB m thr sthr T hT i
    have h2 : (nmsSel boxesB scoresB m thr sthr T i).length ≤ nmsN boxesB :=
      keptList_length_le_N _ _ _ fun p hp => hkeptN p hp
    rw [nmsSel_length] at h2
    omega
  · intro q hq
    have hqm : q < m := lt_of_lt_of_le hq (min_le_right _ _)
    rw [getD_range_map, if_pos hqm, if_pos hq]
    refine ⟨Int.natCast_nonneg _, ?_⟩
    have he := hEntry q hq
    have hv : (nmsPerm sthr (scoresB.getD i [])).getD ((nmsSel boxesB scoresB m thr sthr T i).getD q 0) 0 < nmsN boxesB := by
      rw [List.getD_eq_getElem _ _ he.2]
      have hmem : (nmsPerm sthr (scoresB.getD i []))[(nmsSel boxesB scoresB m thr sthr T i).getD q 0] ∈ nmsPerm sthr (scoresB.getD i []) :=
        List.getElem_mem he.2
      have := (sorted_scores_indices_mem _).mp hmem
      rwa [List.length_map, hssN] at this
    exact_mod_cast hv
  · intro q1 q2 h12 h2nv
    have h1nv : q1 < nmsNv boxesB scoresB m thr sthr T i := lt_trans h12 h2nv
    have hq1m : q1 < m := lt_of_lt_of_le h1nv (min_le_right _ _)
    have hq2m : q2 < m := lt_of_lt_of_le h2nv (min_le_right _ _)
    rw [getD_range_map, getD_range_map, if_pos hq1m, if_pos hq2m,
      if_pos h1nv, if_pos h2nv]
    intro heq
    have hk1 := hqK q1 h1nv
    have hk2 := hqK q2 h2nv
    have hsel_lt : (nmsSel boxesB scoresB m thr sthr T i).getD q1 0 < (nmsSel boxesB scoresB m thr sthr T i).getD q2 0 := by
      rw [List.getD_eq_getElem _ _ hk1, List.getD_eq_getElem _ _ hk2]
      have hpw := keptList_pairwise (nmsP (nmsN boxesB) m T)
        (fun p => anyPos (nmsArrF boxesB scoresB m thr sthr T i p))
      exact List.pairwise_iff_getElem.mp hpw q1 q2 hk1 hk2 h12
    have he1 := (hEntry q1 h1nv).2
    have he2 := (hEntry q2 h2nv).2
    have heqn : (nmsPerm sthr (scoresB.getD i [])).getD ((nmsSel boxesB scoresB m thr sthr T i).getD q1 0) 0 =
        (nmsPerm sthr (scoresB.getD i [])).getD ((nmsSel boxesB scoresB m thr sthr T i).getD q2 0) 0 := by
      exact_mod_cast heq
    rw [List.getD_eq_getElem _ _ he1, List.getD_eq_getElem _ _ he2] at heqn
    have hnd : (nmsPerm sthr (scoresB.getD i [])).Nodup := sorted_scores_indices_nodup _
    have := (List.Nodup.getElem_inj_iff hnd).mp heqn
    omega
  · intro q hnvq hqm
    rw [getD_range_map, if_pos hqm, if_neg (by omega)]

/-- Witness for C3 on a two-box image at tile_size 2. -/
theorem C3_witness :
    ∃ L V, non_max_suppression [[⟨0, 0, 2, 2⟩, ⟨4, 4, 6, 6⟩]]
        [[(2 : ℚ), 1]] 2 (mkRat 1 2) 0 2 = some (L, V) ∧
      ∀ i < 1,
        V.getD i 0 ≤ 2 ∧
        V.getD i 0 ≤ nmsN [[(⟨0, 0, 2, 2⟩ : Box), ⟨4, 4, 6, 6⟩]] ∧
        (∀ q < V.getD i 0, 0 ≤ (L.getD i []).getD q 0 ∧
          (L.getD i []).getD q 0 <
            (nmsN [[(⟨0, 0, 2, 2⟩ : Box), ⟨4, 4, 6, 6⟩]] : ℤ)) ∧
        (∀ q1 q2, q1 < q2 → q2 < V.getD i 0 →
          (L.getD i []).getD q1 0 ≠ (L.getD i []).getD q2 0) ∧
        (∀ q, V.getD i 0 ≤ q → q < 2 → (L.getD i []).getD q 0 = 0) := by
  have h := C3_output_wellformed [[⟨0, 0, 2, 2⟩, ⟨4, 4, 6, 6⟩]] [[(2 : ℚ), 1]]
    2 (mkRat 1 2) 0 2 (by decide) (by decide) (by decide) (by decide)
  obtain ⟨L, V, hrun, hprop⟩ := h
  exact ⟨L, V, hrun, hprop⟩


/-- C1 counterexample: at iou_threshold = 0 two identical boxes are both
selected within the num_valid prefix, although their pairwise IoU is not
below the threshold: the row-zeroing cast kills every row of the masked iou
matrix, so suppressed_box spots nothing. -/
theorem C1_cex :
    non_max_suppression [[⟨0, 0, 2, 2⟩, ⟨0, 0, 2, 2⟩]] [[2, 1]] 2 0 0 2 =
      some ([[0, 1]], [2]) ∧
    ¬ bbox_overlap (⟨0, 0, 2, 2⟩ : Box) (⟨0, 0, 2, 2⟩ : Box) < 0 := by
  constructor
  · decide
  · decide

/-- C1 (amended): for a strictly positive iou_threshold and shape-consistent
input, any two distinct entries of the num_valid prefix of an image index
back, in original box space, to boxes whose pairwise IoU is strictly below
the threshold. -/
theorem C1_no_high_overlap_pairs (boxesB : List (List Box))
    (scoresB : List (List ℚ)) (m : ℕ) (thr sthr : ℚ) (T : ℕ)
    (hT : T ≠ 0) (hthr : 0 < thr) (hN : 0 < nmsN boxesB)
    (hlen : scoresB.length = boxesB.length)
    (hNb : ∀ bs ∈ boxesB, bs.length = nmsN boxesB)
    (hNs : ∀ ss ∈ scoresB, ss.length = nmsN boxesB) :
    ∃ L V, non_max_suppression boxesB scoresB m thr sthr T = some (L, V) ∧
      ∀ i < boxesB.length, ∀ q1 q2, q1 < q2 → q2 < V.getD i 0 →
        bbox_overlap
          ((boxesB.getD i []).getD ((L.getD i []).getD q1 0).toNat zeroBox)
          ((boxesB.getD i []).getD ((L.getD i []).getD q2 0).toNat zeroBox) <
          thr := by
  refine ⟨_, _, nms_eq_run boxesB scoresB m thr sthr T hT hN hlen hNs, ?_⟩
  intro i hi q1 q2 h12 h2nv
  rw [getD_range_map, if_pos hi] at h2nv
  have h1nv : q1 < nmsNv boxesB scoresB m thr sthr T i := lt_trans h12 h2nv
  have hq1m : q1 < m := lt_of_lt_of_le h1nv (min_le_right _ _)
  have hq2m : q2 < m := lt_of_lt_of_le h2nv (min_le_right _ _)
  rw [getD_range_map, if_pos hi, getD_range_map, getD_range_map,
    if_pos hq1m, if_pos hq2m, if_pos h1nv, if_pos h2nv,
    Int.toNat_natCast, Int.toNat_natCast]
  have hqK : ∀ q < nmsNv boxesB scoresB m thr sthr T i, q < (nmsSel boxesB scoresB m thr sthr T i).length := by
    intro q hq
    have h1 := nmsNv_le_countIn_P boxesB scoresB m thr sthr T hT i
    rw [nmsSel_length]
    omega
  have hk1 := hqK q1 h1nv
  have hk2 := hqK q2 h2nv
  have hkept : ∀ q (hk : q < (nmsSel boxesB scoresB m thr sthr T i).length),
      anyPos (nmsArrF boxesB scoresB m thr sthr T i ((nmsSel boxesB scoresB m thr sthr T i).getD q 0)) = true := by
    intro q hk
    rw [List.getD_eq_getElem _ _ hk]
    exact keptList_mem_kept _ _ (List.getElem_mem hk)
  have hsel_lt : (nmsSel boxesB scoresB m thr sthr T i).getD q1 0 < (nmsSel boxesB scoresB m thr sthr T i).getD q2 0 := by
    rw [List.getD_eq_getElem _ _ hk1, List.getD_eq_getElem _ _ hk2]
    have hpw := keptList_pairwise (nmsP (nmsN boxesB) m T)
      (fun p => anyPos (nmsArrF boxesB scoresB m thr sthr T i p))
    exact List.pairwise_iff_getElem.mp hpw q1 q2 hk1 hk2 h12
  have hregion : (nmsSel boxesB scoresB m thr sthr T i).getD q2 0 < nmsKf boxesB scoresB m thr sthr T * T := by
    have hout : q2 < countIn (nmsKf boxesB scoresB m thr sthr T * T)
        (nmsArrF boxesB scoresB m thr sthr T i) := by
      have : nmsNv boxesB scoresB m thr sthr T i ≤ nmsOut boxesB scoresB m thr sthr T i := min_le_left _ _
      rw [nmsOut] at this
      omega
    have hcP := nmsKf_mul_le boxesB scoresB m thr sthr T hT
    have hqc : q2 < (keptList (nmsKf boxesB scoresB m thr sthr T * T)
        (fun p => anyPos (nmsArrF boxesB scoresB m thr sthr T i p))).length := by
      rw [keptList_length_eq_countIn]
      exact hout
    have hlt := keptList_prefix_lt (nmsKf boxesB scoresB m thr sthr T * T)
      (nmsP (nmsN boxesB) m T) hcP
      (fun p => anyPos (nmsArrF boxesB scoresB m thr sthr T i p)) hqc
      ((nmsSel boxesB scoresB m thr sthr T i)[q2])
      (List.getElem?_eq_getElem hk2)
    rw [List.getD_eq_getElem _ _ hk2]
    exact hlt
  have hpair := traj_kept_pair T thr (Nat.pos_of_ne_zero hT) hthr
    (nmsInit boxesB scoresB sthr) rfl i (nmsKf boxesB scoresB m thr sthr T)
    hsel_lt hregion (hkept q1 hk1) (hkept q2 hk2)
  have he1 := nmsArrF_kept_eq boxesB scoresB m thr sthr T hlen hNb hNs hi
    (hkept q1 hk1)
  have he2 := nmsArrF_kept_eq boxesB scoresB m thr sthr T hlen hNb hNs hi
    (hkept q2 hk2)
  rw [nmsArrF] at he1 he2
  rw [he1, he2] at hpair
  exact hpair

/-- Witness for C1 on two disjoint boxes at threshold 1/2. -/
theorem C1_witness :
    ∃ L V, non_max_suppression [[⟨0, 0, 2, 2⟩, ⟨4, 4, 6, 6⟩]]
        [[(2 : ℚ), 1]] 2 (mkRat 1 2) 0 2 = some (L, V) ∧
      ∀ i < 1, ∀ q1 q2, q1 < q2 → q2 < V.getD i 0 →
        bbox_overlap
          (([[(⟨0, 0, 2, 2⟩ : Box), ⟨4, 4, 6, 6⟩]].getD i []).getD
            ((L.getD i []).getD q1 0).toNat zeroBox)
          (([[(⟨0, 0, 2, 2⟩ : Box), ⟨4, 4, 6, 6⟩]].getD i []).getD
            ((L.getD i []).getD q2 0).toNat zeroBox) < mkRat 1 2 := by
  obtain ⟨L, V, hrun, hprop⟩ := C1_no_high_overlap_pairs
    [[⟨0, 0, 2, 2⟩, ⟨4, 4, 6, 6⟩]] [[(2 : ℚ), 1]] 2 (mkRat 1 2) 0 2
    (by decide) (by decide) (by decide) (by decide) (by decide) (by decide)
  exact ⟨L, V, hrun, fun i hi => hprop i hi⟩


/-- C2 counterexample: the same single-image input selects two boxes at
tile_size 8 (one tile) but three at tile_size 1: the pair at exactly
IoU = iou_threshold makes the self-suppression early exit stop one step
before the fixed point, so tiling is not semantics-preserving. -/
theorem C2_cex :
    non_max_suppression
      [[⟨0, 0, 1, 1⟩, ⟨0, mkRat 2 5, 1, mkRat 7 5⟩,
      ⟨0, mkRat 359999999 400000000, 1, mkRat 759999999 400000000⟩,
      ⟨0, mkRat 519999999 400000000, 1, mkRat 919999999 400000000⟩,
      ⟨0, mkRat 679999999 400000000, 1, mkRat 1079999999 400000000⟩]]
      [[10, 9, 8, 7, 6]] 5 (mkRat 1 3) (mkRat 1 10) 8 =
      some ([[0, 2, 0, 0, 0]], [2]) ∧
    non_max_suppression
      [[⟨0, 0, 1, 1⟩, ⟨0, mkRat 2 5, 1, mkRat 7 5⟩,
      ⟨0, mkRat 359999999 400000000, 1, mkRat 759999999 400000000⟩,
      ⟨0, mkRat 519999999 400000000, 1, mkRat 919999999 400000000⟩,
      ⟨0, mkRat 679999999 400000000, 1, mkRat 1079999999 400000000⟩]]
      [[10, 9, 8, 7, 6]] 5 (mkRat 1 3) (mkRat 1 10) 1 =
      some ([[0, 2, 4, 0, 0]], [3]) := by
  constructor
  · decide
  · decide

/-- C2 (amended): tile_size is semantically irrelevant only in the
single-tile regime: for a nonnegative iou_threshold and shape-consistent
input, any two tile sizes that are at least max(num_boxes, max_output_size)
(so that a single tile covers the whole padded sequence) produce identical
(indices, num_valid). -/
theorem C2_tile_size_single_tile (boxesB : List (List Box))
    (scoresB : List (List ℚ)) (m : ℕ) (thr sthr : ℚ) (T1 T2 : ℕ)
    (hthr : 0 ≤ thr) (hN : 0 < nmsN boxesB)
    (hlen : scoresB.length = boxesB.length)
    (hNs : ∀ ss ∈ scoresB, ss.length = nmsN boxesB)
    (hT1 : max (nmsN boxesB) m ≤ T1) (hT2 : max (nmsN boxesB) m ≤ T2) :
    non_max_suppression boxesB scoresB m thr sthr T1 =
      non_max_suppression boxesB scoresB m thr sthr T2 := by
  have h01 : 0 < T1 :=
    lt_of_lt_of_le (lt_of_lt_of_le hN (le_max_left _ _)) hT1
  have h02 : 0 < T2 :=
    lt_of_lt_of_le (lt_of_lt_of_le hN (le_max_left _ _)) hT2
  rw [nms_eq_run boxesB scoresB m thr sthr T1 (Nat.pos_iff_ne_zero.mp h01)
      hN hlen hNs,
    nms_eq_run boxesB scoresB m thr sthr T2 (Nat.pos_iff_ne_zero.mp h02)
      hN hlen hNs]
  rcases Nat.eq_zero_or_pos m with hm | hm
  · subst hm
    simp only [nmsNv, Nat.min_zero, List.range_zero, List.map_nil]
  · have h0max : 0 < max (nmsN boxesB) m := lt_of_lt_of_le hN (le_max_left _ _)
    have harrs := fun i => nmsArrF_single_tile boxesB scoresB m thr sthr T1 T2
      hthr hm hN hlen hNs hT1 hT2 i
    have hout : ∀ i, nmsOut boxesB scoresB m thr sthr T1 i =
        nmsOut boxesB scoresB m thr sthr T2 i := by
      intro i
      have haz2 : ∀ p, nmsN boxesB ≤ p →
          nmsArrF boxesB scoresB m thr sthr T2 i p = zeroBox := by
        intro p hp
        rw [← congrFun (harrs i).1 p]
        exact (harrs i).2 p hp
      rw [nmsOut, nmsOut, nmsKf_one boxesB scoresB m thr sthr T1 hm hT1,
        nmsKf_one boxesB scoresB m thr sthr T2 hm hT2, Nat.one_mul, Nat.one_mul]
      rw [countIn_zero_above (nmsArrF boxesB scoresB m thr sthr T1 i)
          (le_trans (le_max_left _ _) hT1) (harrs i).2,
        countIn_zero_above (nmsArrF boxesB scoresB m thr sthr T2 i)
          (le_trans (le_max_left _ _) hT2) haz2]
      exact countIn_congr _ fun p _ => congrFun (harrs i).1 p
    have hnv : ∀ i, nmsNv boxesB scoresB m thr sthr T1 i =
        nmsNv boxesB scoresB m thr sthr T2 i := by
      intro i
      rw [nmsNv, nmsNv, hout i]
    have hsel : ∀ i, nmsSel boxesB scoresB m thr sthr T1 i =
        nmsSel boxesB scoresB m thr sthr T2 i := by
      intro i
      have hk1 : ∀ p, nmsN boxesB ≤ p →
          anyPos (nmsArrF boxesB scoresB m thr sthr T1 i p) = false := by
        intro p hp
        rw [(harrs i).2 p hp]
        exact anyPos_zeroBox
      have hk2 : ∀ p, nmsN boxesB ≤ p →
          anyPos (nmsArrF boxesB scoresB m thr sthr T2 i p) = false := by
        intro p hp
        rw [← congrFun (harrs i).1 p, (harrs i).2 p hp]
        exact anyPos_zeroBox
      rw [nmsSel, nmsSel, nmsP_single (nmsN boxesB) m T1 h0max hT1,
        nmsP_single (nmsN boxesB) m T2 h0max hT2,
        keptList_false_above _ (le_trans (le_max_left _ _) hT1) hk1,
        keptList_false_above _ (le_trans (le_max_left _ _) hT2) hk2]
      rw [keptList, keptList]
      apply List.filter_congr
      intro p hp
      show anyPos (nmsArrF boxesB scoresB m thr sthr T1 i p) =
        anyPos (nmsArrF boxesB scoresB m thr sthr T2 i p)
      rw [congrFun (harrs i).1 p]
    have hL : ((List.range boxesB.length).map fun i =>
        (List.range m).map fun q =>
          if q < nmsNv boxesB scoresB m thr sthr T1 i then
            (((nmsPerm sthr (scoresB.getD i [])).getD
              ((nmsSel boxesB scoresB m thr sthr T1 i).getD q 0) 0 : ℕ) : ℤ)
          else 0) =
        (List.range boxesB.length).map fun i =>
        (List.range m).map fun q =>
          if q < nmsNv boxesB scoresB m thr sthr T2 i then
            (((nmsPerm sthr (scoresB.getD i [])).getD
              ((nmsSel boxesB scoresB m thr sthr T2 i).getD q 0) 0 : ℕ) : ℤ)
          else 0 := by
      apply List.map_congr_left
      intro i0 hi0
      show ((List.range m).map fun q =>
          if q < nmsNv boxesB scoresB m thr sthr T1 i0 then
            (((nmsPerm sthr (scoresB.getD i0 [])).getD
              ((nmsSel boxesB scoresB m thr sthr T1 i0).getD q 0) 0 : ℕ) : ℤ)
          else 0) =
        (List.range m).map fun q =>
          if q < nmsNv boxesB scoresB m thr sthr T2 i0 then
            (((nmsPerm sthr (scoresB.getD i0 [])).getD
              ((nmsSel boxesB scoresB m thr sthr T2 i0).getD q 0) 0 : ℕ) : ℤ)
          else 0
      rw [hnv i0, hsel i0]
    have hV : ((List.range boxesB.length).map fun i =>
        nmsNv boxesB scoresB m thr sthr T1 i) =
        (List.range boxesB.length).map fun i =>
          nmsNv boxesB scoresB m thr sthr T2 i := by
      apply List.map_congr_left
      intro i0 _
      exact hnv i0
    rw [hL, hV]

/-- Witness for C2: one box at tile sizes 1 and 3. -/
theorem C2_witness :
    max (nmsN [[(⟨0, 0, 1, 1⟩ : Box)]]) 1 ≤ 1 ∧
    non_max_suppression [[(⟨0, 0, 1, 1⟩ : Box)]] [[(1 : ℚ)]] 1 (mkRat 1 2) 0 1 =
      non_max_suppression [[(⟨0, 0, 1, 1⟩ : Box)]] [[(1 : ℚ)]] 1 (mkRat 1 2) 0 3 :=
  ⟨by decide,
    C2_tile_size_single_tile [[(⟨0, 0, 1, 1⟩ : Box)]] [[(1 : ℚ)]] 1 (mkRat 1 2) 0
      1 3 (by decide) (by decide) rfl (by decide) (by decide) (by decide)⟩

/-- C10 counterexample: two batches that agree on image 0 and differ only in
image 1.  The actively-suppressing image 1 keeps the batch-global inner-loop
flag alive one step longer, which changes image 0's selection from two boxes
to three. -/
theorem C10_cex :
    non_max_suppression
      [[⟨0, 0, 1, 1⟩, ⟨0, mkRat 2 5, 1, mkRat 7 5⟩,
      ⟨0, mkRat 359999999 400000000, 1, mkRat 759999999 400000000⟩,
      ⟨0, mkRat 519999999 400000000, 1, mkRat 919999999 400000000⟩,
      ⟨0, mkRat 679999999 400000000, 1, mkRat 1079999999 400000000⟩],
       [zeroBox, zeroBox, zeroBox, zeroBox, zeroBox]]
      [[10, 9, 8, 7, 6], [0, 0, 0, 0, 0]] 5 (mkRat 1 3) (mkRat 1 10) 8 =
      some ([[0, 2, 0, 0, 0], [0, 0, 0, 0, 0]], [2, 0]) ∧
    non_max_suppression
      [[⟨0, 0, 1, 1⟩, ⟨0, mkRat 2 5, 1, mkRat 7 5⟩,
      ⟨0, mkRat 359999999 400000000, 1, mkRat 759999999 400000000⟩,
      ⟨0, mkRat 519999999 400000000, 1, mkRat 919999999 400000000⟩,
      ⟨0, mkRat 679999999 400000000, 1, mkRat 1079999999 400000000⟩],
       [⟨0, 0, 1, 1⟩, ⟨0, mkRat 2 5, 1, mkRat 7 5⟩,
        ⟨0, mkRat 4 5, 1, mkRat 9 5⟩, zeroBox, zeroBox]]
      [[10, 9, 8, 7, 6], [10, 9, 8, 0, 0]] 5 (mkRat 1 3) (mkRat 1 10) 8 =
      some ([[0, 2, 4, 0, 0], [0, 2, 0, 0, 0]], [3, 2]) := by
  constructor
  · decide
  · decide

/-- C10 (amended): per-image outputs are a function of the image's own data
together with the batch-coupled loop bookkeeping: two shape-consistent runs
that agree on image i's boxes and scores, perform the same number of outer
iterations, and see the same inner self-suppression iteration count at every
outer step, return identical indices and num_valid for image i. -/
theorem C10_image_isolation (bA : List (List Box)) (sA : List (List ℚ))
    (bB : List (List Box)) (sB : List (List ℚ)) (m : ℕ) (thr sthr : ℚ)
    (T : ℕ) (i : ℕ)
    (hT : T ≠ 0) (hNA : 0 < nmsN bA)
    (hlenA : sA.length = bA.length) (hlenB : sB.length = bB.length)
    (hNbA : ∀ bs ∈ bA, bs.length = nmsN bA)
    (hNsA : ∀ ss ∈ sA, ss.length = nmsN bA)
    (hNbB : ∀ bs ∈ bB, bs.length = nmsN bB)
    (hNsB : ∀ ss ∈ sB, ss.length = nmsN bB)
    (hiA : i < bA.length) (hiB : i < bB.length)
    (hdb : bA.getD i [] = bB.getD i []) (hds : sA.getD i [] = sB.getD i [])
    (hkf : nmsKf bA sA m thr sthr T = nmsKf bB sB m thr sthr T)
    (hic : ∀ j < nmsKf bA sA m thr sthr T,
      innerCounts T thr (nmsInit bA sA sthr) j =
        innerCounts T thr (nmsInit bB sB sthr) j) :
    ∃ LA VA LB VB,
      non_max_suppression bA sA m thr sthr T = some (LA, VA) ∧
      non_max_suppression bB sB m thr sthr T = some (LB, VB) ∧
      LA.getD i [] = LB.getD i [] ∧ VA.getD i 0 = VB.getD i 0 := by
  have hN2 : nmsN bA = nmsN bB := by
    have h1 : (bA.getD i []).length = nmsN bA :=
      hNbA _ (getD_mem_of_lt bA [] hiA)
    have h2 : (bB.getD i []).length = nmsN bB :=
      hNbB _ (getD_mem_of_lt bB [] hiB)
    rw [← h1, ← h2, hdb]
  have hNB0 : 0 < nmsN bB := hN2 ▸ hNA
  have harr0 : (nmsInit bA sA sthr).boxes.getD i (fun _ => zeroBox) =
      (nmsInit bB sB sthr).boxes.getD i (fun _ => zeroBox) := by
    have hgA := nmsInit_boxes_getElem bA sA sthr hlenA hiA
    have hgB := nmsInit_boxes_getElem bB sB sthr hlenB hiB
    have hlA : i < (nmsInit bA sA sthr).boxes.length := by
      rw [nmsInit_boxes_length _ _ _ hlenA]; exact hiA
    have hlB : i < (nmsInit bB sB sthr).boxes.length := by
      rw [nmsInit_boxes_length _ _ _ hlenB]; exact hiB
    rw [List.getElem?_eq_getElem hlA, Option.some_inj] at hgA
    rw [List.getElem?_eq_getElem hlB, Option.some_inj] at hgB
    rw [List.getD_eq_getElem _ _ hlA, List.getD_eq_getElem _ _ hlB, hgA, hgB,
      hdb, hds]
  have harr : nmsArrF bA sA m thr sthr T i = nmsArrF bB sB m thr sthr T i := by
    rw [nmsArrF, nmsArrF, ← hkf]
    exact arrTraj_image_congr T thr _ _ i rfl rfl harr0 _ hic
  have hnv : nmsNv bA sA m thr sthr T i = nmsNv bB sB m thr sthr T i := by
    rw [nmsNv, nmsNv, nmsOut, nmsOut, ← hkf, harr]
  have hsel : nmsSel bA sA m thr sthr T i = nmsSel bB sB m thr sthr T i := by
    rw [nmsSel, nmsSel, harr, hN2]
  refine ⟨_, _, _, _, nms_eq_run bA sA m thr sthr T hT hNA hlenA hNsA,
    nms_eq_run bB sB m thr sthr T hT hNB0 hlenB hNsB, ?_, ?_⟩
  · rw [getD_range_map, if_pos hiA, getD_range_map, if_pos hiB, hnv, hsel, hds]
  · rw [getD_range_map, if_pos hiA, getD_range_map, if_pos hiB, hnv]

/-- Witness for C10: the hypotheses hold between a run and itself. -/
theorem C10_witness :
    ∃ LA VA LB VB,
      non_max_suppression [[⟨0, 0, 2, 2⟩]] [[(2 : ℚ)]] 1 (mkRat 1 2) 0 1 =
        some (LA, VA) ∧
      non_max_suppression [[⟨0, 0, 2, 2⟩]] [[(2 : ℚ)]] 1 (mkRat 1 2) 0 1 =
        some (LB, VB) ∧
      LA.getD 0 [] = LB.getD 0 [] ∧ VA.getD 0 0 = VB.getD 0 0 :=
  C10_image_isolation [[⟨0, 0, 2, 2⟩]] [[(2 : ℚ)]] [[⟨0, 0, 2, 2⟩]]
    [[(2 : ℚ)]] 1 (mkRat 1 2) 0 1 0 (by decide) (by decide) (by decide)
    (by decide) (by decide) (by decide) (by decide) (by decide) (by decide)
    (by decide) rfl rfl rfl (fun j hj => rfl)


/-- C9: selection is monotone in max_output_size: raising it from m1 to m2
keeps every previously selected index at the same position of the output
row, and num_valid does not decrease. -/
theorem C9_monotone_in_max_output (boxesB : List (List Box))
    (scoresB : List (List ℚ)) (m1 m2 : ℕ) (thr sthr : ℚ) (T : ℕ)
    (hT : T ≠ 0) (hm : m1 < m2) (hN : 0 < nmsN boxesB)
    (hlen : scoresB.length = boxesB.length)
    (hNs : ∀ ss ∈ scoresB, ss.length = nmsN boxesB) :
    ∃ L1 V1 L2 V2,
      non_max_suppression boxesB scoresB m1 thr sthr T = some (L1, V1) ∧
      non_max_suppression boxesB scoresB m2 thr sthr T = some (L2, V2) ∧
      ∀ i < boxesB.length,
        V1.getD i 0 ≤ V2.getD i 0 ∧
        ∀ q < V1.getD i 0,
          (L1.getD i []).getD q 0 = (L2.getD i []).getD q 0 := by
  refine ⟨_, _, _, _, nms_eq_run boxesB scoresB m1 thr sthr T hT hN hlen hNs,
    nms_eq_run boxesB scoresB m2 thr sthr T hT hN hlen hNs, ?_⟩
  obtain ⟨heq1, hk1le, hall1, hlast1⟩ := nmsKf_spec boxesB scoresB m1 thr sthr T
  obtain ⟨heq2, hk2le, hall2, hlast2⟩ := nmsKf_spec boxesB scoresB m2 thr sthr T
  have hn12 : nmsNumIters (nmsN boxesB) m1 T ≤ nmsNumIters (nmsN boxesB) m2 T :=
    nmsNumIters_mono _ _ _ _ (le_of_lt hm)
  have hk12 : nmsKf boxesB scoresB m1 thr sthr T ≤
      nmsKf boxesB scoresB m2 thr sthr T := by
    by_contra hcon
    push_neg at hcon
    have hc1 := hall1 _ hcon
    rw [loop_cond_true_iff] at hc1
    have hc2 : loop_cond m2 (nmsNumIters (nmsN boxesB) m2 T)
        ((suppression_loop_body T thr)^[nmsKf boxesB scoresB m2 thr sthr T]
          (nmsInit boxesB scoresB sthr)) = true := by
      rw [loop_cond_true_iff]
      exact ⟨lt_of_lt_of_le hc1.1 (le_of_lt hm), lt_of_lt_of_le hc1.2 hn12⟩
    rcases hlast2 with h | h
    · omega
    · rw [h] at hc2
      exact Bool.false_ne_true hc2
  intro i hi
  have hagree : ∀ p < nmsKf boxesB scoresB m1 thr sthr T * T,
      nmsArrF boxesB scoresB m1 thr sthr T i p =
        nmsArrF boxesB scoresB m2 thr sthr T i p := by
    intro p hp
    rw [nmsArrF, nmsArrF]
    exact arrTraj_prefix_agree T thr _ rfl i hk12 hp
  have hcnt_eq : nmsOut boxesB scoresB m1 thr sthr T i =
      countIn (nmsKf boxesB scoresB m1 thr sthr T * T)
        (nmsArrF boxesB scoresB m2 thr sthr T i) := by
    rw [nmsOut]
    exact countIn_congr _ hagree
  have hS2 : countIn (nmsKf boxesB scoresB m1 thr sthr T * T)
      (nmsArrF boxesB scoresB m2 thr sthr T i) ≤
      nmsOut boxesB scoresB m2 thr sthr T i := by
    rw [nmsOut]
    exact countIn_mono _ (Nat.mul_le_mul_right T hk12)
  have hnv12 : nmsNv boxesB scoresB m1 thr sthr T i ≤
      nmsNv boxesB scoresB m2 thr sthr T i := by
    rw [nmsNv, nmsNv]
    refine le_min ?_ ?_
    · exact le_trans (le_trans (min_le_left _ _) (le_of_eq hcnt_eq)) hS2
    · exact le_trans (min_le_right _ _) (le_of_lt hm)
  refine ⟨?_, ?_⟩
  · rw [getD_range_map, if_pos hi, getD_range_map, if_pos hi]
    exact hnv12
  · intro q hq
    rw [getD_range_map, if_pos hi] at hq
    have hqm1 : q < m1 := lt_of_lt_of_le hq (min_le_right _ _)
    have hqm2 : q < m2 := lt_of_lt_of_le hqm1 (le_of_lt hm)
    have hq2 : q < nmsNv boxesB scoresB m2 thr sthr T i :=
      lt_of_lt_of_le hq hnv12
    rw [getD_range_map, if_pos hi, getD_range_map, if_pos hqm1,
      getD_range_map, if_pos hi, getD_range_map, if_pos hqm2,
      if_pos hq, if_pos hq2]
    have hqc1 : q < (keptList (nmsKf boxesB scoresB m1 thr sthr T * T)
        (fun p => anyPos (nmsArrF boxesB scoresB m1 thr sthr T i p))).length := by
      rw [keptList_length_eq_countIn]
      have h1 : nmsNv boxesB scoresB m1 thr sthr T i ≤
          nmsOut boxesB scoresB m1 thr sthr T i := min_le_left _ _
      rw [nmsOut] at h1
      omega
    have hqc2 : q < (keptList (nmsKf boxesB scoresB m1 thr sthr T * T)
        (fun p => anyPos (nmsArrF boxesB scoresB m2 thr sthr T i p))).length := by
      rw [keptList_length_eq_countIn]
      have h1 : nmsNv boxesB scoresB m1 thr sthr T i ≤
          countIn (nmsKf boxesB scoresB m1 thr sthr T * T)
            (nmsArrF boxesB scoresB m2 thr sthr T i) := by
        rw [← hcnt_eq]
        exact min_le_left _ _
      omega
    have hqK1 : q < (nmsSel boxesB scoresB m1 thr sthr T i).length := by
      rw [nmsSel_length]
      have h1 := nmsNv_le_countIn_P boxesB scoresB m1 thr sthr T hT i
      omega
    have hqK2 : q < (nmsSel boxesB scoresB m2 thr sthr T i).length := by
      rw [nmsSel_length]
      have h1 := nmsNv_le_countIn_P boxesB scoresB m2 thr sthr T hT i
      omega
    have hklists : keptList (nmsKf boxesB scoresB m1 thr sthr T * T)
        (fun p => anyPos (nmsArrF boxesB scoresB m1 thr sthr T i p)) =
        keptList (nmsKf boxesB scoresB m1 thr sthr T * T)
          (fun p => anyPos (nmsArrF boxesB scoresB m2 thr sthr T i p)) := by
      rw [keptList, keptList]
      apply List.filter_congr
      intro p hp
      rw [hagree p (List.mem_range.mp hp)]
    have hq12 : (nmsSel boxesB scoresB m1 thr sthr T i).getD q 0 =
        (nmsSel boxesB scoresB m2 thr sthr T i).getD q 0 := by
      have hc2' : nmsKf boxesB scoresB m1 thr sthr T * T ≤
          nmsP (nmsN boxesB) m2 T :=
        le_trans (Nat.mul_le_mul_right T hk12)
          (nmsKf_mul_le boxesB scoresB m2 thr sthr T hT)
      rw [List.getD_eq_getElem _ _ hqK1, List.getD_eq_getElem _ _ hqK2,
        ← Option.some_inj, ← List.getElem?_eq_getElem,
        ← List.getElem?_eq_getElem, nmsSel, nmsSel,
        keptList_prefix_getElem _ _ (nmsKf_mul_le boxesB scoresB m1 thr sthr T hT)
          _ hqc1,
        keptList_prefix_getElem _ _ hc2' _ hqc2, Option.some_inj]
      exact List.getElem_of_eq hklists hqc1
    rw [hq12]

/-- Witness for C9 on a two-box image, max_output_size 1 versus 2. -/
theorem C9_witness :
    ∃ L1 V1 L2 V2,
      non_max_suppression [[⟨0, 0, 2, 2⟩, ⟨4, 4, 6, 6⟩]] [[(2 : ℚ), 1]]
        1 (mkRat 1 2) 0 2 = some (L1, V1) ∧
      non_max_suppression [[⟨0, 0, 2, 2⟩, ⟨4, 4, 6, 6⟩]] [[(2 : ℚ), 1]]
        2 (mkRat 1 2) 0 2 = some (L2, V2) ∧
      ∀ i < 1,
        V1.getD i 0 ≤ V2.getD i 0 ∧
        ∀ q < V1.getD i 0,
          (L1.getD i []).getD q 0 = (L2.getD i []).getD q 0 := by
  obtain ⟨L1, V1, L2, V2, h1, h2, hprop⟩ := C9_monotone_in_max_output
    [[⟨0, 0, 2, 2⟩, ⟨4, 4, 6, 6⟩]] [[(2 : ℚ), 1]] 1 2 (mkRat 1 2) 0 2
    (by decide) (by decide) (by decide) (by decide) (by decide)
  exact ⟨L1, V1, L2, V2, h1, h2, fun i hi => hprop i hi⟩

end NMS
